import Mathlib

/-!
# vue-router: route table compiler, queue diff and navigation engine

A shallow embedding of `src/create-route-map.js`, `src/history/base.js` (with the
parts of `src/history/html5.js` the engine calls, and its `getLocation`) and
`src/util/location.js`, followed by the properties proved about them.

Conventions of the embedding:

* JavaScript strings are lists of characters (`Str`), so that `path[0]`,
  `path.replace(/\/$/, '')` and string concatenation are list operations.
* JavaScript objects that the code compares with `===` carry an explicit
  identity.
* Mutable tables are passed explicitly: a function that mutates `pathList`,
  `pathMap` and `nameMap` takes a `RouteMap` and returns the new one.
* A counted `for` loop is a recursion on the number of iterations that remain
  (`l - i`), which is the loop's own exit test `i < l`.
-/

namespace VueRouter

/-! ## Strings and paths -/

/-- JavaScript strings as lists of characters. -/
abbrev Str := List Char

/-- The wildcard path `'*'`. -/
def star : Str := ['*']

/-- The effect of `path.replace(/\/$/, '')`: one trailing slash is removed when present. -/
def stripTrailingSlash (path : Str) : Str :=
  if path.getLast? = some '/' then path.dropLast else path

/-- Modelled from the spec: `cleanPath` of `util/path`, which is imported by
`create-route-map.js` but is not among the sources. The spec says that joined paths are
"cleaned of duplicate separators": every run of consecutive `/` is replaced by one `/`. -/
def cleanPath : Str → Str
  | [] => []
  | [c] => [c]
  | c :: d :: rest =>
    if c = '/' ∧ d = '/' then cleanPath (d :: rest) else c :: cleanPath (d :: rest)

/-! ## Route configuration and route records -/

/-- The `pathToRegexpOptions` of a route config (`strict` undefined is `false`). -/
structure PathToRegexpOptions where
  strict : Bool := false
  sensitive : Option Bool := none
  deriving DecidableEq, Repr

/-- The `alias` field of a route config: undefined, one string, or an array of strings. -/
inductive AliasConfig where
  | absent
  | one (a : Str)
  | many (l : List Str)
  deriving DecidableEq, Repr

/-- The fields of a route config other than `children`. Components, guards, redirect
targets, meta and props are opaque values, represented by numbers. -/
structure RouteOptions where
  path : Str
  name : Option Str := none
  component : Option Nat := none
  components : Option (List (Str × Option Nat)) := none
  alias_ : AliasConfig := AliasConfig.absent
  redirect : Option Nat := none
  beforeEnter : Option Nat := none
  meta : Option (List (Str × Nat)) := none
  props : Option Nat := none
  caseSensitive : Option Bool := none
  pathToRegexpOptions : Option PathToRegexpOptions := none
  deriving DecidableEq, Repr

/-- A route config: its fields and its `children`. An absent `children` is the empty
list: `addRouteRecord` only iterates over it (and hands it on to the alias routes). -/
inductive RouteConfig where
  | mk (opts : RouteOptions) (children : List RouteConfig)

/-- The fields of a route config. -/
def RouteConfig.opts : RouteConfig → RouteOptions
  | .mk o _ => o

/-- The children of a route config. -/
def RouteConfig.children : RouteConfig → List RouteConfig
  | .mk _ cs => cs

/-- The `props` field of a record: `{}`, `route.props` itself, or `{ default: route.props }`. -/
inductive RecordProps where
  | empty
  | named (v : Nat)
  | default (v : Nat)
  deriving DecidableEq, Repr

/-- The fields of a route record other than `parent`. `regex` records the arguments handed
to the path compiler; `instances` and `enteredCbs` are created empty and are left out. -/
structure RecordFields where
  path : Str
  regex : Str × PathToRegexpOptions
  components : List (Str × Option Nat)
  alias_ : List Str
  name : Option Str
  matchAs : Option Str
  redirect : Option Nat
  beforeEnter : Option Nat
  meta : List (Str × Nat)
  props : RecordProps
  deriving DecidableEq, Repr

/-- A route record with its `parent` back-reference: `root` has no parent. -/
inductive RouteRecord where
  | root (f : RecordFields)
  | child (f : RecordFields) (parent : RouteRecord)
  deriving DecidableEq, Repr

namespace RouteRecord

/-- The fields of a record. -/
def fields : RouteRecord → RecordFields
  | root f => f
  | child f _ => f

/-- The `parent` of a record, if any. -/
def parent : RouteRecord → Option RouteRecord
  | root _ => none
  | child _ p => some p

/-- A record from its fields and an optional parent. -/
def make (f : RecordFields) : Option RouteRecord → RouteRecord
  | none => root f
  | some p => child f p

/-- The compiled path of a record. -/
def path (r : RouteRecord) : Str := r.fields.path

end RouteRecord

/-- Source `normalizePath(path, parent, strict)`. -/
def normalizePath (path : Str) (parent : Option RouteRecord) (strict : Bool) : Str :=
  let path := if !strict then stripTrailingSlash path else path
  match parent with
  | none => path
  | some p => if path.head? = some '/' then path else cleanPath (p.path ++ '/' :: path)

/-! ## The route table -/

/-- A `Dictionary<RouteRecord>`: keys with their records, in insertion order. -/
abbrev Dictionary := List (Str × RouteRecord)

/-- The value of `dict[key]` (`none` for undefined). -/
def Dictionary.get (d : Dictionary) (key : Str) : Option RouteRecord :=
  (d.find? (fun e => e.1 = key)).map Prod.snd

/-- The assignment `dict[key] = record`. -/
def Dictionary.set (d : Dictionary) (key : Str) (record : RouteRecord) : Dictionary :=
  if (Dictionary.get d key).isSome then
    d.map (fun e => if e.1 = key then (key, record) else e)
  else d ++ [(key, record)]

/-- The keys of a dictionary. -/
def Dictionary.keys (d : Dictionary) : List Str := d.map Prod.fst

/-- The three tables that `createRouteMap` builds and returns. -/
structure RouteMap where
  pathList : List Str
  pathMap : Dictionary
  nameMap : Dictionary
  deriving DecidableEq, Repr

/-- The empty tables (`[]`, `Object.create(null)`, `Object.create(null)`). -/
def RouteMap.empty : RouteMap := ⟨[], [], []⟩

/-- Step 2 of `addRouteRecord`: the record built from a route config. -/
def makeRecord (o : RouteOptions) (parent : Option RouteRecord) (matchAs : Option Str) :
    RouteRecord :=
  let pathToRegexpOptions : PathToRegexpOptions := o.pathToRegexpOptions.getD {}
  let normalizedPath := normalizePath o.path parent pathToRegexpOptions.strict
  let pathToRegexpOptions : PathToRegexpOptions :=
    match o.caseSensitive with
    | some b => { pathToRegexpOptions with sensitive := some b }
    | none => pathToRegexpOptions
  RouteRecord.make
    { path := normalizedPath
      regex := (normalizedPath, pathToRegexpOptions)
      components := o.components.getD [("default".toList, o.component)]
      alias_ :=
        match o.alias_ with
        | AliasConfig.absent => []
        | AliasConfig.one a => if a = [] then [] else [a]
        | AliasConfig.many l => l
      name := o.name
      matchAs := matchAs
      redirect := o.redirect
      beforeEnter := o.beforeEnter
      meta := o.meta.getD []
      props :=
        match o.props with
        | none => RecordProps.empty
        | some v => if o.components.isSome then RecordProps.named v else RecordProps.default v }
    parent

/-- Step 4 of `addRouteRecord`, first part: `if (!pathMap[record.path])` the path is pushed on
`pathList` and the record is stored under it. -/
def registerPath (t : RouteMap) (record : RouteRecord) : RouteMap :=
  if (t.pathMap.get record.path).isNone then
    { t with pathList := t.pathList ++ [record.path]
             pathMap := t.pathMap.set record.path record }
  else t

/-- Step 4 of `addRouteRecord`, second part: `if (name && !nameMap[name])` the record is stored
under its name. -/
def registerName (t : RouteMap) (record : RouteRecord) (name : Option Str) : RouteMap :=
  match name with
  | some n =>
    if n ≠ [] ∧ (t.nameMap.get n).isNone then { t with nameMap := t.nameMap.set n record }
    else t
  | none => t

/-- Step 4 of `addRouteRecord`: the record is registered under its path and its name
unless the key is taken. -/
def registerRecord (t : RouteMap) (record : RouteRecord) (name : Option Str) : RouteMap :=
  registerName (registerPath t record) record name

/-- The `matchAs` handed to a child: `matchAs ? cleanPath(matchAs + '/' + child.path) : undefined`. -/
def childMatchAs (matchAs : Option Str) (childPath : Str) : Option Str :=
  match matchAs with
  | some m => if m ≠ [] then some (cleanPath (m ++ '/' :: childPath)) else none
  | none => none

/-- Steps 1 to 4 of `addRouteRecord` for a config with fields `o`: build the record, register
the children under it (`addChildren` is the `forEach` over `route.children`), then register the
record itself. -/
def addRecordSteps (addChildren : RouteMap → RouteRecord → Option Str → RouteMap)
    (t : RouteMap) (o : RouteOptions) (parent : Option RouteRecord) (matchAs : Option Str) :
    RouteMap :=
  let record := makeRecord o parent matchAs
  registerRecord (addChildren t record matchAs) record o.name

/-- The `aliases` array of step 5: empty when `route.alias === undefined`. -/
def aliasList : AliasConfig → List Str
  | AliasConfig.absent => []
  | AliasConfig.one a => [a]
  | AliasConfig.many l => l

/-- The value of `record.path || '/'`. -/
def pathOrSlash (path : Str) : Str := if path = [] then ['/'] else path

mutual
/-- Source `addRouteRecord(pathList, pathMap, nameMap, route, parent, matchAs)`. The recursive
call of step 5 is on the route `{ path: alias, children: route.children }`, which has no name,
no options and no alias of its own: it runs steps 1 to 4 on the same children. -/
def addRouteRecord (t : RouteMap) : RouteConfig → Option RouteRecord → Option Str → RouteMap
  | .mk o children, parent, matchAs =>
    let t := addRecordSteps (fun t r m => addChildRecords t children r m) t o parent matchAs
    let record := makeRecord o parent matchAs
    (aliasList o.alias_).foldl
      (fun t a =>
        addRecordSteps (fun t r m => addChildRecords t children r m) t { path := a } parent
          (some (pathOrSlash record.path)))
      t
/-- The loop `route.children.forEach(child => addRouteRecord(..., child, record, childMatchAs))`. -/
def addChildRecords (t : RouteMap) : List RouteConfig → RouteRecord → Option Str → RouteMap
  | [], _, _ => t
  | child :: rest, record, matchAs =>
    addChildRecords
      (addRouteRecord t child (some record) (childMatchAs matchAs child.opts.path))
      rest record matchAs
end

/-- The loop that moves wildcards to the end of `pathList`
(`for (let i = 0, l = pathList.length; i < l; i++)`), as a recursion on `n = l - i`, the
number of iterations that remain. On a wildcard the entry is spliced out and pushed at the
end, `l--` shortens the scanned part and `i--` with the loop's `i++` keeps `i`. -/
def moveWildcards : Nat → Nat → List Str → List Str
  | 0, _, pathList => pathList
  | n + 1, i, pathList =>
    if pathList[i]? = some star then moveWildcards n i (pathList.eraseIdx i ++ [star])
    else moveWildcards n (i + 1) pathList

/-- Source `createRouteMap(routes, oldPathList, oldPathMap, oldNameMap, parentRoute)`, with the
old tables given as `old` (`RouteMap.empty` when they are absent). The development-only
warning has no effect on the result. -/
def createRouteMap (routes : List RouteConfig) (old : RouteMap)
    (parentRoute : Option RouteRecord) : RouteMap :=
  let t := routes.foldl (fun t route => addRouteRecord t route parentRoute none) old
  { t with pathList := moveWildcards t.pathList.length 0 t.pathList }

/-- The pathList in registration order: the list as it is after the `routes.forEach` of
`createRouteMap` and before the wildcard loop. -/
def registrationOrder (routes : List RouteConfig) (old : RouteMap)
    (parentRoute : Option RouteRecord) : List Str :=
  (routes.foldl (fun t route => addRouteRecord t route parentRoute none) old).pathList

/-! ## The diff of two matched chains -/

/-- The three lists returned by `resolveQueue`. -/
structure ResolvedQueue (R : Type) where
  updated : List R
  activated : List R
  deactivated : List R
  deriving DecidableEq, Repr

/-- The loop of `resolveQueue` (`for (i = 0; i < max; i++) if (current[i] !== next[i]) break`)
as a recursion on `max - i`; the result is the final value of `i`. An index past the end of
an array reads `undefined`, here `none`. -/
def resolveQueueLoop {R : Type} [DecidableEq R] (current next : List R) : Nat → Nat → Nat
  | 0, i => i
  | n + 1, i => if current[i]? ≠ next[i]? then i else resolveQueueLoop current next n (i + 1)

/-- Source `resolveQueue(current, next)`; records are compared by identity, which is the
equality of `R`. -/
def resolveQueue {R : Type} [DecidableEq R] (current next : List R) : ResolvedQueue R :=
  let max := Nat.max current.length next.length
  let i := resolveQueueLoop current next max 0
  { updated := next.take i
    activated := next.drop i
    deactivated := current.drop i }

/-- The length of the longest common prefix of two lists. -/
def commonPrefixLength {R : Type} [DecidableEq R] : List R → List R → Nat
  | a :: as, b :: bs => if a = b then commonPrefixLength as bs + 1 else 0
  | _, _ => 0

/-! ## The routes of `examples/nested-routes/app.js` -/

/-- The `routes` of `examples/nested-routes/app.js` (lines 48 to 72). The components are
numbered: Parent 1, Default 2, Foo 3, Bar 4, Baz 5, Qux 6, Quux 7, Quuy 8, Quy 9, Zap 10; the
redirect targets are numbered 1 (`/`) and 2 (`/parent`). -/
def nestedRoutes : List RouteConfig :=
  [ RouteConfig.mk { path := [], redirect := some 1 } [],
    RouteConfig.mk { path := "/".toList, redirect := some 2 } [],
    RouteConfig.mk
      { path := "/parent".toList, alias_ := AliasConfig.many ["/app".toList, "/ass".toList],
        component := some 1 }
      [ RouteConfig.mk { path := [], component := some 2 } [],
        RouteConfig.mk { path := "foo".toList, component := some 3 } [],
        RouteConfig.mk { path := "bar".toList, component := some 4 } [],
        RouteConfig.mk { path := "/baz".toList, component := some 5 } [],
        RouteConfig.mk { path := "qux/:quxId".toList, component := some 6 }
          [ RouteConfig.mk
              { path := "quux".toList, name := some "quux".toList, component := some 7 } [],
            RouteConfig.mk
              { path := "quuy".toList, name := some "quuy".toList, component := some 8 } [] ],
        RouteConfig.mk { path := "quy/:quyId".toList, component := some 9 } [],
        RouteConfig.mk
          { name := some "zap".toList, path := "zap/:zapId?".toList, component := some 10 } [] ] ]

/-- The table compiled from the example routes. -/
def nestedRouteMap : RouteMap := createRouteMap nestedRoutes RouteMap.empty none

/-- The record of the route `/parent` of the example app. -/
def parentRecord : RouteRecord :=
  makeRecord
    { path := "/parent".toList, alias_ := AliasConfig.many ["/app".toList, "/ass".toList],
      component := some 1 }
    none none

/-- A small route tree with pairwise distinct record paths: `/parent` with the children `foo`
and `qux/:quxId` (which has the child `quux`), and `/other` with the alias `/alias` and the
child `x`. -/
def distinctRoutes : List RouteConfig :=
  [ RouteConfig.mk { path := "/parent".toList, component := some 1 }
      [ RouteConfig.mk { path := "foo".toList, component := some 3 } [],
        RouteConfig.mk { path := "qux/:quxId".toList, component := some 6 }
          [ RouteConfig.mk
              { path := "quux".toList, name := some "quux".toList, component := some 7 } [] ] ],
    RouteConfig.mk
      { path := "/other".toList, alias_ := AliasConfig.one "/alias".toList, component := some 2 }
      [ RouteConfig.mk { path := "x".toList, component := some 4 } [] ] ]

/-! ## Conditions on paths -/

/-- A path that is empty or begins with `/`. -/
def rooted (p : Str) : Bool := p.isEmpty || p.head? == some '/'

/-- A top-level route config whose path and aliases are each empty, or begin with `/`, or are
the wildcard `*` of a route without children. -/
def topLevelOk : RouteConfig → Bool
  | RouteConfig.mk o cs =>
    (o.path :: aliasList o.alias_).all (fun p => rooted p || (p == star && cs.isEmpty))

/-- Every path of `pathList` is the wildcard or is rooted, and every record of `pathMap` is
stored under its own path, which is the wildcard or is rooted. -/
def PathsRooted (t : RouteMap) : Prop :=
  (∀ p ∈ t.pathList, p = star ∨ rooted p = true)
    ∧ (∀ e ∈ t.pathMap, e.2.path = e.1 ∧ (e.1 = star ∨ rooted e.1 = true))

/-! ## The records that a route tree gives rise to -/

/-- The pair of a record's path and its parent's path, when the record has a parent. -/
def parentPair (record : RouteRecord) : List (Str × Str) :=
  match record.parent with
  | some p => [(record.path, p.path)]
  | none => []

mutual
/-- The paths of all the records that `addRouteRecord` builds for a route, in the order in
which it offers them for registration: for the route's own record and then for the record of
each alias, first the records below it and then the record itself. -/
def routePaths : RouteConfig → Option RouteRecord → Option Str → List Str
  | RouteConfig.mk o cs, parent, matchAs =>
    (childPaths cs (makeRecord o parent matchAs) matchAs ++ [(makeRecord o parent matchAs).path])
      ++ ((aliasList o.alias_).map
          (fun a =>
            childPaths cs
                (makeRecord { path := a } parent
                  (some (pathOrSlash (makeRecord o parent matchAs).path)))
                (some (pathOrSlash (makeRecord o parent matchAs).path))
              ++ [(makeRecord { path := a } parent
                  (some (pathOrSlash (makeRecord o parent matchAs).path))).path])).flatten
/-- The paths of the records built for the children of `record`. -/
def childPaths : List RouteConfig → RouteRecord → Option Str → List Str
  | [], _, _ => []
  | child :: rest, record, matchAs =>
    routePaths child (some record) (childMatchAs matchAs child.opts.path)
      ++ childPaths rest record matchAs
end

mutual
/-- The pairs (path of a record, path of its parent record) over all the records that
`addRouteRecord` builds for a route. -/
def routePairs : RouteConfig → Option RouteRecord → Option Str → List (Str × Str)
  | RouteConfig.mk o cs, parent, matchAs =>
    (parentPair (makeRecord o parent matchAs)
        ++ childPairs cs (makeRecord o parent matchAs) matchAs)
      ++ ((aliasList o.alias_).map
          (fun a =>
            parentPair
                (makeRecord { path := a } parent
                  (some (pathOrSlash (makeRecord o parent matchAs).path)))
              ++ childPairs cs
                (makeRecord { path := a } parent
                  (some (pathOrSlash (makeRecord o parent matchAs).path)))
                (some (pathOrSlash (makeRecord o parent matchAs).path)))).flatten
/-- The pairs over the records built for the children of `record`. -/
def childPairs : List RouteConfig → RouteRecord → Option Str → List (Str × Str)
  | [], _, _ => []
  | child :: rest, record, matchAs =>
    routePairs child (some record) (childMatchAs matchAs child.opts.path)
      ++ childPairs rest record matchAs
end

/-- The paths of all records of a route list compiled by `createRouteMap`. -/
def recordPaths (routes : List RouteConfig) (parentRoute : Option RouteRecord) : List Str :=
  (routes.map (fun route => routePaths route parentRoute none)).flatten

/-- The (child path, parent path) pairs of all records of a route list. -/
def recordPairs (routes : List RouteConfig) (parentRoute : Option RouteRecord) :
    List (Str × Str) :=
  (routes.map (fun route => routePairs route parentRoute none)).flatten

/-- The effect on `pathList` of offering the paths `xs` in order: a path is pushed unless it
is there already. -/
def pushNew (l : List Str) (xs : List Str) : List Str :=
  xs.foldl (fun l x => if x ∈ l then l else l ++ [x]) l

/-- The keys of `pathMap` are the entries of `pathList`, in the same order. -/
def Consistent (t : RouteMap) : Prop := t.pathMap.keys = t.pathList

/-- In `l`, a copy of `c` stands before a copy of `p`. -/
def Before (c p : Str) (l : List Str) : Prop :=
  ∃ l₁ l₂ l₃, l = l₁ ++ c :: (l₂ ++ p :: l₃)

/-! ## Guard extraction -/

/-- What a component declares under a guard option: nothing, a guard, or an array of guards.
Guards are opaque functions, represented by numbers. -/
inductive GuardOption where
  | absent
  | one (g : Nat)
  | many (gs : List Nat)
  deriving DecidableEq, Repr

/-- The guard options of a component definition (`def.options`). -/
structure ComponentDef where
  beforeRouteLeave : GuardOption := GuardOption.absent
  beforeRouteUpdate : GuardOption := GuardOption.absent
  beforeRouteEnter : GuardOption := GuardOption.absent
  deriving DecidableEq, Repr

/-- The three guard option names used by `extractGuards`. -/
inductive GuardName where
  | beforeRouteLeave
  | beforeRouteUpdate
  | beforeRouteEnter
  deriving DecidableEq, Repr

/-- An entry of the guard queue: a function that the iterator calls with `(to, from, next)`. -/
inductive Hook where
  | guard (g : Nat)
  | bound (g : Nat) (inst : Nat)
  | enter (g : Nat) (record : RouteRecord) (key : Str)
  | asyncComponents (activated : List RouteRecord)
  deriving DecidableEq, Repr

/-- The view layer as the engine sees it: the options of a component and the live instance
of a record's view slot. -/
structure Views where
  options : Option Nat → ComponentDef
  inst : RouteRecord → Str → Option Nat

/-- Source `extractGuard(def, key)`: `def.options[key]`. -/
def extractGuard (v : Views) (component : Option Nat) : GuardName → GuardOption
  | GuardName.beforeRouteLeave => (v.options component).beforeRouteLeave
  | GuardName.beforeRouteUpdate => (v.options component).beforeRouteUpdate
  | GuardName.beforeRouteEnter => (v.options component).beforeRouteEnter

/-- Modelled from the spec: `flatten` of `util/resolve-components`, not among the sources: one
level of nesting is removed. An entry that is not an array is kept as one element, which is
how a one-element list behaves here. -/
def flatten {α : Type} (arr : List (List α)) : List α := arr.flatten

/-- Modelled from the spec: `flatMapComponents` of `util/resolve-components`, not among the
sources. For each record in order, and for each of its view slots in order, `fn` receives the
component, the live instance of the slot, the record and the slot name; the results are
collected in one list. -/
def flatMapComponents {α : Type} (v : Views) (matched : List RouteRecord)
    (fn : Option Nat → Option Nat → RouteRecord → Str → α) : List α :=
  flatten (matched.map (fun m => m.fields.components.map (fun kc => fn kc.2 (v.inst m kc.1) m kc.1)))

/-- What the callback of `extractGuards` returns for one view slot: `undefined` when the
component has no such guard, the bound guard, or the array of bound guards. An entry that is
not an array is a one-element list (see `flatten`). -/
def guardsOfSlot (v : Views) (name : GuardName)
    (bind : Nat → Option Nat → RouteRecord → Str → Option Hook)
    (component inst : Option Nat) (record : RouteRecord) (key : Str) : List (Option Hook) :=
  match extractGuard v component name with
  | GuardOption.absent => [none]
  | GuardOption.one g => [bind g inst record key]
  | GuardOption.many gs => gs.map (fun g => bind g inst record key)

/-- Source `extractGuards(records, name, bind, reverse)`. -/
def extractGuards (v : Views) (records : List RouteRecord) (name : GuardName)
    (bind : Nat → Option Nat → RouteRecord → Str → Option Hook) (reverse : Bool) :
    List (Option Hook) :=
  let guards := flatMapComponents v records (guardsOfSlot v name bind)
  flatten (if reverse then guards.reverse else guards)

/-- Source `bindGuard(guard, instance)`: undefined without a live instance. -/
def bindGuard (guard : Nat) (inst : Option Nat) (_record : RouteRecord) (_key : Str) :
    Option Hook :=
  inst.map (fun i => Hook.bound guard i)

/-- Source `bindEnterGuard(guard, match, key)`, as called by `extractEnterGuards`. -/
def bindEnterGuard (guard : Nat) (_inst : Option Nat) (record : RouteRecord) (key : Str) :
    Option Hook :=
  some (Hook.enter guard record key)

/-- Source `extractLeaveGuards(deactivated)`. -/
def extractLeaveGuards (v : Views) (deactivated : List RouteRecord) : List (Option Hook) :=
  extractGuards v deactivated GuardName.beforeRouteLeave bindGuard true

/-- Source `extractUpdateHooks(updated)`. -/
def extractUpdateHooks (v : Views) (updated : List RouteRecord) : List (Option Hook) :=
  extractGuards v updated GuardName.beforeRouteUpdate bindGuard false

/-- Source `extractEnterGuards(activated)`. -/
def extractEnterGuards (v : Views) (activated : List RouteRecord) : List (Option Hook) :=
  extractGuards v activated GuardName.beforeRouteEnter bindEnterGuard false

/-! ## Routes, errors and effects -/

/-- A resolved route. Route objects are compared with `===` (`this.pending !== route`,
`prev !== START`): `id` is the identity of the object, and every route that `router.match`
returns is a new object. -/
structure Route where
  id : Nat
  fullPath : Str
  matched : List RouteRecord
  deriving DecidableEq, Repr

/-- Modelled from the spec: the sentinel `START` of `util/route`, not among the sources: the
route with path `/` and an empty matched chain. -/
def START : Route := ⟨0, ['/'], []⟩

/-- A raw location handed to `push`, `replace` or `router.match`: a string, or an object with
an optional `path`, an optional `name` and the `replace` flag. -/
inductive RawLocation where
  | str (s : Str)
  | obj (path name : Option Str) (replace : Bool)
  deriving DecidableEq, Repr

/-- Modelled from the spec: the discriminant of a navigation failure (`NavigationFailureType`
of `util/errors`, not among the sources). -/
inductive NavigationFailureType where
  | redirected
  | aborted
  | cancelled
  | duplicated
  deriving DecidableEq, Repr

/-- The values that reach `abort`: a navigation failure made by the engine, another `Error`
object, the `TypeError` of reading a property of `null`, or a thrown value that is not an
`Error` (with its truthiness). -/
inductive Err where
  | failure (type : NavigationFailureType) (from_ to_ : Route)
  | error (e : Nat)
  | typeError
  | value (truthy : Bool) (v : Nat)
  deriving DecidableEq, Repr

/-- Modelled from the spec: `isError` of `util/errors`. -/
def isError : Err → Bool
  | Err.value _ _ => false
  | _ => true

/-- Modelled from the spec: `isNavigationFailure(err)` of `util/errors`: an error made by one of
the `createNavigation...Error` functions. -/
def isNavigationFailure : Err → Bool
  | Err.failure _ _ _ => true
  | _ => false

/-- Modelled from the spec: `isNavigationFailure(err, type)` of `util/errors`. -/
def isNavigationFailureOf (err : Err) (type : NavigationFailureType) : Bool :=
  match err with
  | Err.failure t _ _ => t = type
  | _ => false

/-- The truthiness of an error value (`err &&` in the abort handler of `transitionTo`). -/
def Err.truthy : Err → Bool
  | Err.value t _ => t
  | _ => true

/-- The values a guard can pass to `next`. An `object` is a non-null object that is not an
`Error`; `path` and `name` are present when they are strings. -/
inductive NextVal where
  | undefined
  | null
  | bool (b : Bool)
  | number (n : Int)
  | string (s : Str)
  | func (f : Nat)
  | error (e : Nat)
  | object (path name : Option Str) (replace : Bool)
  deriving DecidableEq, Repr

/-- What a queue entry does when the iterator calls it: it calls `next(to)` before it returns,
it throws, or it returns without having called `next` (and may call it later). -/
inductive Reaction where
  | callsNext (to_ : NextVal)
  | throws (e : Err)
  | suspends
  deriving DecidableEq, Repr

/-- The `onComplete` closure that a caller hands to `transitionTo`: the one of
`HTML5History.push`, of `HTML5History.replace`, or of the `popstate` listener (which only
handles scrolling). -/
inductive Completion where
  | push (onComplete : Option Nat)
  | replace (onComplete : Option Nat)
  | popstate
  deriving DecidableEq, Repr

/-- The variables captured by the closures of one `transitionTo` / `confirmTransition` call:
the candidate `route`, the route that was current at the start (`prev` in `transitionTo`,
`current` in `confirmTransition`), and the caller's callbacks. -/
structure Navigation where
  route : Route
  current : Route
  completion : Completion
  onAbort : Option Nat
  deriving DecidableEq, Repr

/-- A `next` callback that a guard has kept: its navigation, the queue entry it was given to,
the entries of the queue after that one, and whether the queue is the second one. -/
structure Continuation where
  nav : Navigation
  hook : Hook
  rest : List (Option Hook)
  second : Bool
  deriving DecidableEq, Repr

/-- The observable actions of the engine, in the order of the source statements. -/
inductive Effect where
  | pending (p : Option Route)
  | current (route : Route)
  | listener (cb : Nat) (route : Route)
  | hook (hook : Hook) (to_ from_ : Route)
  | enteredCb (record : RouteRecord) (key : Str) (f : Nat)
  | onAbort (cb : Nat) (err : Err)
  | onComplete (cb : Nat) (route : Route)
  | errorCb (cb : Nat) (err : Err)
  | consoleError (err : Err)
  | ensureURL (push : Bool)
  | pushState (url : Str)
  | replaceState (url : Str)
  | push (location : RawLocation)
  | replace (location : RawLocation)
  | afterHook (hook : Nat) (to_ from_ : Route)
  | ready
  | readyCb (cb : Nat) (route : Route)
  | readyErrorCb (cb : Nat) (err : Err)
  | readyCalled (cb : Nat)
  | routeEntered (route : Route)
  | uncaught (err : Err)
  deriving DecidableEq, Repr

/-! ## The history object -/

/-- The router as the engine reads it: the matcher, the hook registries, whether an app is
attached, the view layer, what each queue entry does when called, and how the browser maps
its URL to the location that `getLocation(base)` returns. -/
structure Router where
  base : Str
  matchRoute : RawLocation → Route → Str × List RouteRecord
  beforeHooks : List Nat
  resolveHooks : List Nat
  afterHooks : List (Option Nat)
  app : Bool
  views : Views
  react : Hook → Route → Route → Reaction
  getLocation : Str → Str

/-- The state of an `HTML5History`: the fields of `History`, the URL shown by the browser, and
the bookkeeping of the embedding: the next fresh route identity, the `next` callbacks that
guards have kept, the `push` / `replace` call that a redirect has issued and that runs next,
and the log of effects, newest first. -/
structure History where
  current : Route
  pending : Option Route
  ready : Bool
  readyCbs : List Nat
  readyErrorCbs : List Nat
  errorCbs : List Nat
  cb : Option Nat
  startLocation : Str
  url : Str
  nextId : Nat
  suspended : List Continuation
  redirect : Option (RawLocation × Bool)
  log : List Effect
  deriving DecidableEq, Repr

/-- The history object after its constructor, for a browser at `url`. -/
def History.init (r : Router) (url : Str) : History :=
  { current := START, pending := none, ready := false, readyCbs := [], readyErrorCbs := [],
    errorCbs := [], cb := none, startLocation := r.getLocation url, url := url, nextId := 1,
    suspended := [], redirect := none, log := [] }

/-- An effect is added to the log. -/
def History.logged (h : History) (e : Effect) : History := { h with log := e :: h.log }

/-- The effects of `callbacks.forEach(cb => ...)`, one per callback, are added to the log. -/
def History.loggedAll (h : History) (es : List Effect) : History :=
  { h with log := es.reverse ++ h.log }

/-- The assignment `this.pending = p`. -/
def setPending (p : Option Route) (h : History) : History :=
  { h with pending := p, log := Effect.pending p :: h.log }

/-- The assignment `this.ready = true`. -/
def setReady (h : History) : History :=
  { h with ready := true, log := Effect.ready :: h.log }

/-- Source `onReady(cb, errorCb)`: when the history is ready `cb()` is called at once. -/
def onReady (h : History) (cb : Nat) (errorCb : Option Nat) : History :=
  if h.ready then h.logged (Effect.readyCalled cb)
  else
    { h with readyCbs := h.readyCbs ++ [cb]
             readyErrorCbs := h.readyErrorCbs ++ errorCb.toList }

/-- Source `onError(errorCb)`. -/
def onError (h : History) (errorCb : Nat) : History :=
  { h with errorCbs := h.errorCbs ++ [errorCb] }

/-- Source `listen(cb)`. -/
def listen (h : History) (cb : Nat) : History := { h with cb := some cb }

/-- Source `updateRoute(route)`. -/
def updateRoute (h : History) (route : Route) : History :=
  let h := { h with current := route, log := Effect.current route :: h.log }
  match h.cb with
  | some cb => h.logged (Effect.listener cb route)
  | none => h

/-- Source `HTML5History.ensureURL(push)`. -/
def ensureURL (r : Router) (h : History) (push : Bool) : History :=
  let h := h.logged (Effect.ensureURL push)
  if r.getLocation h.url ≠ h.current.fullPath then
    let current := cleanPath (r.base ++ h.current.fullPath)
    if push then { h with url := current, log := Effect.pushState current :: h.log }
    else { h with url := current, log := Effect.replaceState current :: h.log }
  else h

/-- The second statement of the abort handler of `transitionTo` (lines 96 to 106): the
ready-error callbacks are flushed `if (err && !this.ready)` and
`if (!isNavigationFailure(err, redirected) || prev !== START)`. -/
def flushReadyErrors (nav : Navigation) (h : History) (err : Err) : History :=
  if err.truthy ∧ ¬ h.ready then
    if ¬ isNavigationFailureOf err NavigationFailureType.redirected ∨ nav.current ≠ START then
      (setReady h).loggedAll (h.readyErrorCbs.map (fun cb => Effect.readyErrorCb cb err))
    else h
  else h

/-- The abort handler that `transitionTo` hands to `confirmTransition` (lines 92 to 107). -/
def transitionAborted (nav : Navigation) (h : History) (err : Err) : History :=
  let h :=
    match nav.onAbort with
    | some cb => h.logged (Effect.onAbort cb err)
    | none => h
  flushReadyErrors nav h err

/-- The closure `abort` of `confirmTransition` (lines 114 to 128), with the `onAbort` that
`transitionTo` passes. -/
def abort (nav : Navigation) (h : History) (err : Err) : History :=
  let h :=
    if ¬ isNavigationFailure err ∧ isError err then
      if h.errorCbs ≠ [] then h.loggedAll (h.errorCbs.map (fun cb => Effect.errorCb cb err))
      else h.logged (Effect.consoleError err)
    else h
  transitionAborted nav h err

/-- The caller's `onComplete` closure, as called by the completion handler of `transitionTo`. -/
def callerCompleted (r : Router) (nav : Navigation) (h : History) : History :=
  let userCb (h : History) (cb : Option Nat) : History :=
    match cb with
    | some cb => h.logged (Effect.onComplete cb nav.route)
    | none => h
  match nav.completion with
  | Completion.push cb =>
    let url := cleanPath (r.base ++ nav.route.fullPath)
    userCb { h with url := url, log := Effect.pushState url :: h.log } cb
  | Completion.replace cb =>
    let url := cleanPath (r.base ++ nav.route.fullPath)
    userCb { h with url := url, log := Effect.replaceState url :: h.log } cb
  | Completion.popstate => h

/-- The last statement of the completion handler of `transitionTo` (lines 85 to 90): the ready
callbacks are flushed `if (!this.ready)`. -/
def flushReadyCbs (nav : Navigation) (h : History) : History :=
  if ¬ h.ready then
    (setReady h).loggedAll (h.readyCbs.map (fun cb => Effect.readyCb cb nav.route))
  else h

/-- The calls `hook && hook(route, prev)` of `this.router.afterHooks.forEach`. -/
def afterHooksCalled (r : Router) (nav : Navigation) : List Effect :=
  r.afterHooks.filterMap (fun hook => hook.map (fun f => Effect.afterHook f nav.route nav.current))

/-- The completion handler that `transitionTo` hands to `confirmTransition` (lines 74 to 91). -/
def transitionCompleted (r : Router) (nav : Navigation) (h : History) : History :=
  let h := updateRoute h nav.route
  let h := callerCompleted r nav h
  let h := ensureURL r h false
  let h := h.loggedAll (afterHooksCalled r nav)
  flushReadyCbs nav h

/-- The callback of the second `runQueue` (lines 191 to 202). -/
def complete (r : Router) (nav : Navigation) (h : History) : History :=
  if h.pending ≠ some nav.route then
    abort nav h (Err.failure NavigationFailureType.cancelled nav.current nav.route)
  else
    let h := setPending none h
    let h := transitionCompleted r nav h
    if r.app then h.logged (Effect.routeEntered nav.route) else h

/-- How a call of the `next` callback ends: the navigation goes on with the rest of the
queue, the callback returns after it has ended the navigation, or it throws. -/
inductive Called where
  | continues (h : History)
  | returns (h : History)
  | throws (h : History) (e : Err)

/-- The wrapper that `bindEnterGuard` puts around `next` for an enter guard: a function
argument is recorded in `enteredCbs` of the record before it is passed on. -/
def enteredCallback (hook : Hook) (to_ : NextVal) (h : History) : History :=
  match hook, to_ with
  | Hook.enter _ record key, NextVal.func f => h.logged (Effect.enteredCb record key f)
  | _, _ => h

/-- The `next` callback that the iterator hands to a queue entry (lines 157 to 180); for an
enter guard it is wrapped by `enteredCallback`. -/
def nextCallback (r : Router) (nav : Navigation) (hook : Hook) (h : History) (to_ : NextVal) :
    Called :=
  let h := enteredCallback hook to_ h
  let redirected (location : RawLocation) (replace : Bool) : Called :=
    let h := abort nav h (Err.failure NavigationFailureType.redirected nav.current nav.route)
    Called.returns
      { h with redirect := some (location, replace)
               log := (if replace then Effect.replace location else Effect.push location) :: h.log }
  match to_ with
  | NextVal.bool false =>
    Called.returns
      (abort nav (ensureURL r h true)
        (Err.failure NavigationFailureType.aborted nav.current nav.route))
  | NextVal.error e => Called.returns (abort nav (ensureURL r h true) (Err.error e))
  | NextVal.string s => redirected (RawLocation.str s) false
  | NextVal.object path name replace =>
    if path.isSome ∨ name.isSome then redirected (RawLocation.obj path name replace) replace
    else Called.continues h
  | NextVal.null => Called.throws h Err.typeError
  | _ => Called.continues h

/-- What a call of the iterator leaves to `runQueue`: `next` was called and the queue goes
on, or the iterator has returned without it. -/
inductive Iterated where
  | next (h : History)
  | stop (h : History)

/-- The `iterator` of `confirmTransition` (lines 152 to 184), called on `hook` with `rest` the
entries that follow it in the queue. -/
def iterator (r : Router) (nav : Navigation) (second : Bool) (hook : Hook)
    (rest : List (Option Hook)) (h : History) : Iterated :=
  if h.pending ≠ some nav.route then
    Iterated.stop (abort nav h (Err.failure NavigationFailureType.cancelled nav.current nav.route))
  else
    let h := h.logged (Effect.hook hook nav.route nav.current)
    match r.react hook nav.route nav.current with
    | Reaction.suspends =>
      Iterated.stop { h with suspended := h.suspended ++ [⟨nav, hook, rest, second⟩] }
    | Reaction.throws e => Iterated.stop (abort nav h e)
    | Reaction.callsNext to_ =>
      match nextCallback r nav hook h to_ with
      | Called.continues h => Iterated.next h
      | Called.returns h => Iterated.stop h
      | Called.throws h e => Iterated.stop (abort nav h e)

/-- Modelled from the spec: `runQueue(queue, fn, cb)` of `util/async`, not among the sources,
with `fn` the iterator: the entries are taken in order, an empty entry is skipped, each other
entry is handed to the iterator and the queue goes on when `next` is called; `cb` runs after
the last entry. -/
def runQueue (r : Router) (nav : Navigation) (second : Bool) (cb : History → History) :
    List (Option Hook) → History → History
  | [], h => cb h
  | none :: rest, h => runQueue r nav second cb rest h
  | some hook :: rest, h =>
    match iterator r nav second hook rest h with
    | Iterated.next h => runQueue r nav second cb rest h
    | Iterated.stop h => h

/-- The first queue of `confirmTransition` (lines 136 to 151). -/
def firstQueue (r : Router) (nav : Navigation) : List (Option Hook) :=
  let q := resolveQueue nav.current.matched nav.route.matched
  extractLeaveGuards r.views q.deactivated
    ++ r.beforeHooks.map (fun g => some (Hook.guard g))
    ++ extractUpdateHooks r.views q.updated
    ++ q.activated.map (fun m => m.fields.beforeEnter.map Hook.guard)
    ++ [some (Hook.asyncComponents q.activated)]

/-- The second queue of `confirmTransition` (lines 188 to 190). -/
def secondQueue (r : Router) (nav : Navigation) : List (Option Hook) :=
  let q := resolveQueue nav.current.matched nav.route.matched
  extractEnterGuards r.views q.activated ++ r.resolveHooks.map (fun g => some (Hook.guard g))

/-- The callback of the first `runQueue` (lines 186 to 203): the second queue is run. -/
def runSecondQueue (r : Router) (nav : Navigation) (h : History) : History :=
  runQueue r nav true (complete r nav) (secondQueue r nav) h

/-- Source `confirmTransition(route, onComplete, onAbort)` for the navigation `nav`, whose
`current` is `this.current`. -/
def confirmTransition (r : Router) (nav : Navigation) (h : History) : History :=
  let h := setPending (some nav.route) h
  runQueue r nav false (runSecondQueue r nav) (firstQueue r nav) h

/-- Source `transitionTo(location, onComplete, onAbort)`; `router.match` returns a new route
object. -/
def transitionTo (r : Router) (h : History) (location : RawLocation) (completion : Completion)
    (onAbort : Option Nat) : History :=
  let m := r.matchRoute location h.current
  let route : Route := ⟨h.nextId, m.1, m.2⟩
  let h := { h with nextId := h.nextId + 1 }
  confirmTransition r ⟨route, h.current, completion, onAbort⟩ h

/-- A guard calls the `next` callback `k` that it has kept, with the value `to`. An exception
of the callback reaches the guard's own caller. -/
def resume (r : Router) (h : History) (k : Continuation) (to_ : NextVal) : History :=
  match nextCallback r k.nav k.hook h to_ with
  | Called.continues h =>
    if k.second then runQueue r k.nav true (complete r k.nav) k.rest h
    else runQueue r k.nav false (runSecondQueue r k.nav) k.rest h
  | Called.returns h => h
  | Called.throws h e => h.logged (Effect.uncaught e)

/-- What the environment can do to the history object: call `push` or `replace`, make the
browser go to another entry (`popstate`, with the URL the browser then shows), call a kept
`next` callback, or register callbacks. -/
inductive Event where
  | push (location : RawLocation) (onComplete onAbort : Option Nat)
  | replace (location : RawLocation) (onComplete onAbort : Option Nat)
  | popstate (url : Str)
  | next (k : Continuation) (to_ : NextVal)
  | onReady (cb : Nat) (errorCb : Option Nat)
  | onError (errorCb : Nat)
  | listen (cb : Nat)

/-- The engine's answer to an event. `push` and `replace` are those of `HTML5History`;
`popstate` is `handleRoutingEvent`. -/
def handle (r : Router) (h : History) : Event → History
  | Event.push location onComplete onAbort =>
    transitionTo r h location (Completion.push onComplete) onAbort
  | Event.replace location onComplete onAbort =>
    transitionTo r h location (Completion.replace onComplete) onAbort
  | Event.popstate url =>
    let h := { h with url := url }
    let location := r.getLocation h.url
    if h.current = START ∧ location = h.startLocation then h
    else transitionTo r h (RawLocation.str location) Completion.popstate none
  | Event.next k to_ => resume r h k to_
  | Event.onReady cb errorCb => onReady h cb errorCb
  | Event.onError errorCb => onError h errorCb
  | Event.listen cb => listen h cb

/-- One step of a run. The `push` or `replace` that a redirecting `next` callback has issued
is the last statement of that callback, so it runs before anything else; otherwise the
environment sends an event, and a `next` event calls a callback that a guard has kept. -/
inductive Step (r : Router) : History → History → Prop where
  | redirect (h : History) (location : RawLocation) (replace : Bool) :
      h.redirect = some (location, replace) →
      Step r h
        (handle r { h with redirect := none }
          (if replace then Event.replace location none none else Event.push location none none))
  | event (h : History) (ev : Event) :
      h.redirect = none →
      (∀ k to_, ev = Event.next k to_ → k ∈ h.suspended) →
      Step r h (handle r h ev)

/-- The states that a run from `h₀` reaches. -/
inductive Reaches (r : Router) (h₀ : History) : History → Prop where
  | start : Reaches r h₀ h₀
  | step (h h' : History) : Reaches r h₀ h → Step r h h' → Reaches r h₀ h'

/-! ## Traces and runs -/

/-- The values passed to `next` for which the callback takes its last branch, `next(to)`:
not `false`, not an `Error`, not a string, not an object with a string `path` or `name`, and
not `null` (for which reading `to.path` throws). -/
def continuesQueue : NextVal → Bool
  | NextVal.bool false => false
  | NextVal.error _ => false
  | NextVal.string _ => false
  | NextVal.object path name _ => !(path.isSome || name.isSome)
  | NextVal.null => false
  | _ => true

/-- The effects other than the assignments to `this.pending`, `this.current` and
`this.ready` and the calls of the ready and ready-error callbacks by a flush. -/
def Effect.quiet : Effect → Bool
  | Effect.pending _ => false
  | Effect.current _ => false
  | Effect.ready => false
  | Effect.readyCb _ _ => false
  | Effect.readyErrorCb _ _ => false
  | _ => true

/-- A change of the history object that assigns none of `pending`, `current` and `ready`,
makes no route object, leaves the two ready queues as they are, and adds only quiet effects
to the log. -/
def Quiet (h h' : History) : Prop :=
  h'.pending = h.pending ∧ h'.current = h.current ∧ h'.nextId = h.nextId
    ∧ h'.ready = h.ready ∧ h'.readyCbs = h.readyCbs ∧ h'.readyErrorCbs = h.readyErrorCbs
    ∧ ∃ es : List Effect, h'.log = es ++ h.log ∧ ∀ e ∈ es, e.quiet = true

/-- The moves of which every change of the history object is made up: a quiet change; the
start of a navigation with a new route object; the commit of the pending route; the flush of
the ready queue or of the ready-error queue of a history that is not ready; the registration
of ready callbacks with a history that is not ready. -/
inductive Move : History → History → Prop where
  | quiet (h h' : History) : Quiet h h' → Move h h'
  | start (h : History) (fullPath : Str) (matched : List RouteRecord) :
      Move h (setPending (some ⟨h.nextId, fullPath, matched⟩) { h with nextId := h.nextId + 1 })
  | commit (h : History) (route : Route) : h.pending = some route →
      Move h { h with pending := none, current := route,
                      log := Effect.current route :: Effect.pending none :: h.log }
  | flushReady (h : History) (route : Route) : h.ready = false →
      Move h ((setReady h).loggedAll (h.readyCbs.map (fun cb => Effect.readyCb cb route)))
  | flushError (h : History) (err : Err) : h.ready = false →
      Move h ((setReady h).loggedAll (h.readyErrorCbs.map (fun cb => Effect.readyErrorCb cb err)))
  | register (h : History) (cb : Nat) (errorCb : Option Nat) : h.ready = false →
      Move h { h with readyCbs := h.readyCbs ++ [cb]
                      readyErrorCbs := h.readyErrorCbs ++ errorCb.toList }

/-- A sequence of moves. -/
def Moves : History → History → Prop := Relation.ReflTransGen Move

/-- The effects that are assignments to `this.pending` or `this.current`. -/
def Effect.assigns : Effect → Bool
  | Effect.pending _ => true
  | Effect.current _ => true
  | _ => false

/-- The value of `this.pending` after the effects of a log (newest first), `p₀` being its
value before them. -/
def pendingAfter (p₀ : Option Route) : List Effect → Option Route
  | [] => p₀
  | Effect.pending p :: _ => p
  | _ :: log => pendingAfter p₀ log

/-- The value of `this.current` after the effects of a log (newest first), `c₀` being its
value before them. -/
def currentAfter (c₀ : Route) : List Effect → Route
  | [] => c₀
  | Effect.current route :: _ => route
  | _ :: log => currentAfter c₀ log

/-- In a log (newest first), every assignment `this.current = route` comes directly after the
assignment `this.pending = null`, and `this.pending` was `route` until then. -/
def CommitsGuarded (p₀ : Option Route) : List Effect → Prop
  | [] => True
  | Effect.current route :: log =>
    (∃ log', log = Effect.pending none :: log' ∧ pendingAfter p₀ log' = some route)
      ∧ CommitsGuarded p₀ log
  | _ :: log => CommitsGuarded p₀ log

/-- The state after the entries of `queue` have been called in order and each has called
`next` with a value that continues: the calls, and the callbacks recorded for enter guards,
are in the log. -/
def passHooks (r : Router) (nav : Navigation) (queue : List (Option Hook)) (h : History) :
    History :=
  queue.foldl
    (fun h entry =>
      match entry with
      | none => h
      | some hook =>
        match r.react hook nav.route nav.current with
        | Reaction.callsNext to_ =>
          enteredCallback hook to_ (h.logged (Effect.hook hook nav.route nav.current))
        | _ => h)
    h

/-- Every entry of a queue, when called for the navigation, calls `next` at once with a
value that continues. -/
def AllContinue (r : Router) (nav : Navigation) (queue : List (Option Hook)) : Prop :=
  ∀ hook, some hook ∈ queue →
    ∃ to_, r.react hook nav.route nav.current = Reaction.callsNext to_ ∧ continuesQueue to_ = true

/-- The state that a call of the `next` callback leaves. -/
def Called.state : Called → History
  | Called.continues h => h
  | Called.returns h => h
  | Called.throws h _ => h

/-- The state that a call of the iterator leaves. -/
def Iterated.state : Iterated → History
  | Iterated.next h => h
  | Iterated.stop h => h

/-- The effects that report the outcome of a navigation to its caller and to the global
after hooks: the calls of `onComplete`, of `onAbort` and of the after hooks. -/
def Effect.isReport : Effect → Bool
  | Effect.onComplete _ _ => true
  | Effect.onAbort _ _ => true
  | Effect.afterHook _ _ _ => true
  | _ => false

/-- The effects by which an abort with `err` shows: the caller's `onAbort` with `err`, the
assignment `this.ready = true` and the ready-error callbacks with `err`; the recording of an
entered callback by the wrapper of an enter guard is admitted as well. -/
def Effect.reportsOnly (err : Err) : Effect → Bool
  | Effect.onAbort _ e => e = err
  | Effect.readyErrorCb _ e => e = err
  | Effect.ready => true
  | Effect.enteredCb _ _ _ => true
  | _ => false

/-- The user callback inside the `onComplete` closure of a caller. -/
def Completion.callback : Completion → Option Nat
  | Completion.push cb => cb
  | Completion.replace cb => cb
  | Completion.popstate => none

/-- The else branch of `complete` (lines 195 to 201): `pending` is cleared, the completion
handler of `transitionTo` runs, and `handleRouteEntered` is scheduled when an app is
attached. -/
def committed (r : Router) (nav : Navigation) (h : History) : History :=
  let h := transitionCompleted r nav (setPending none h)
  if r.app then h.logged (Effect.routeEntered nav.route) else h

/-- The navigation that `transitionTo` starts in state `h` for a location. -/
def navigationOf (r : Router) (h : History) (location : RawLocation) (completion : Completion)
    (onAbort : Option Nat) : Navigation :=
  ⟨⟨h.nextId, (r.matchRoute location h.current).1, (r.matchRoute location h.current).2⟩,
    h.current, completion, onAbort⟩

/-- The change from `h` to `h'` adds the effects `es` to the log. -/
def Adds (es : List Effect) (h h' : History) : Prop := h'.log = es ++ h.log

/-- The effects that the change from `h` to `h'` has added to the log (newest first), when
the log of `h'` extends the log of `h`. -/
def newEntries (h h' : History) : List Effect :=
  h'.log.take (h'.log.length - h.log.length)

/-- The change from `h` to `h'` leaves `current` and `pending` as they are and adds effects
of which `rs` are the reports (newest first). -/
def Reports (rs : List Effect) (h h' : History) : Prop :=
  h'.current = h.current ∧ h'.pending = h.pending
    ∧ ∃ es, Adds es h h' ∧ es.filter Effect.isReport = rs

/-- The calls of the caller's `onComplete` callback with the route of the navigation. -/
def completionCalls (nav : Navigation) : List Effect :=
  nav.completion.callback.toList.map (fun cb => Effect.onComplete cb nav.route)

/-- The event that ends a navigation whose guards all continue and which is not superseded:
the call of `transitionTo` itself, when every entry of both queues calls `next` at once; or
the call of `next` with a continuing value by a suspended guard, when `pending` is still the
route of the navigation and every remaining entry calls `next` at once. -/
inductive Confirms (r : Router) (h : History) : Navigation → History → Prop where
  | direct (location : RawLocation) (completion : Completion) (onAbort : Option Nat) :
      AllContinue r (navigationOf r h location completion onAbort)
        (firstQueue r (navigationOf r h location completion onAbort)) →
      AllContinue r (navigationOf r h location completion onAbort)
        (secondQueue r (navigationOf r h location completion onAbort)) →
      Confirms r h (navigationOf r h location completion onAbort)
        (transitionTo r h location completion onAbort)
  | resumed (k : Continuation) (to_ : NextVal) :
      h.pending = some k.nav.route → continuesQueue to_ = true →
      AllContinue r k.nav k.rest →
      (k.second = false → AllContinue r k.nav (secondQueue r k.nav)) →
      Confirms r h k.nav (resume r h k to_)

/-- The queue check as a computation: every entry of the queue, when called for the
navigation, calls `next` at once with a value that continues. -/
def allContinue (r : Router) (nav : Navigation) (queue : List (Option Hook)) : Bool :=
  queue.all
    (fun entry =>
      match entry with
      | none => true
      | some hook =>
        match r.react hook nav.route nav.current with
        | Reaction.callsNext to_ => continuesQueue to_
        | _ => false)

/-! ## A small router for examples -/

/-- A router with one global before hook, numbered 7, and one after hook, numbered 9. The
location `/parent` matches the record of `/parent`, every other location matches no record.
The before hook suspends for the targets `/a` and `/c`, throws the error 5 for `/x`, calls
`next` with the error 5 for `/y`, calls `next(null)` for `/n`, and calls `next()` for every
other target. The base is empty and the browser URL is the location. -/
def demoRouter : Router :=
  { base := []
    matchRoute := fun location _ =>
      match location with
      | RawLocation.str s => (s, if s = "/parent".toList then [parentRecord] else [])
      | RawLocation.obj path _ _ => (path.getD ['/'], [])
    beforeHooks := [7]
    resolveHooks := []
    afterHooks := [some 9]
    app := false
    views := { options := fun _ => {}, inst := fun _ _ => none }
    react := fun hook to_ _ =>
      match hook with
      | Hook.guard 7 =>
        if to_.fullPath = "/a".toList ∨ to_.fullPath = "/c".toList then Reaction.suspends
        else if to_.fullPath = "/x".toList then Reaction.throws (Err.error 5)
        else if to_.fullPath = "/y".toList then Reaction.callsNext (NextVal.error 5)
        else if to_.fullPath = "/n".toList then Reaction.callsNext NextVal.null
        else Reaction.callsNext NextVal.undefined
      | _ => Reaction.callsNext NextVal.undefined
    getLocation := fun url => url }

/-- The history of the example router after its constructor, the browser being at `/`. -/
def demoStart : History := History.init demoRouter ['/']

/-- The first navigation of the examples: `push('/a', cb 100, cb 101)`. Its before hook
suspends. -/
def demoPushA : History :=
  handle demoRouter demoStart (Event.push (RawLocation.str "/a".toList) (some 100) (some 101))

/-- The route object of the first navigation. -/
def demoRouteA : Route := ⟨1, "/a".toList, []⟩

/-- The `next` callback that the before hook of the first navigation has kept. -/
def demoNextA : Continuation :=
  ⟨⟨demoRouteA, START, Completion.push (some 100), some 101⟩, Hook.guard 7,
    [some (Hook.asyncComponents [])], false⟩

/-- While the first navigation is suspended the browser goes to `/c`: a second navigation
replaces `pending`, and its before hook suspends as well. -/
def demoSuperseded : History := handle demoRouter demoPushA (Event.popstate "/c".toList)

/-- The example history after a confirmed `push('/parent', cb 100, cb 101)`. -/
def demoAtParent : History :=
  handle demoRouter demoStart
    (Event.push (RawLocation.str "/parent".toList) (some 100) (some 101))

/-- The effects of readiness: the assignment `this.ready = true` and the calls of the ready
and ready-error callbacks by a flush. -/
def Effect.isReady : Effect → Bool
  | Effect.ready => true
  | Effect.readyCb _ _ => true
  | Effect.readyErrorCb _ _ => true
  | _ => false

/-- The readiness of a history `h` that a run has reached from `h₀`, with `es` the effects
added by the run (newest first). While `h` is not ready no effect of readiness has been
added. Once it is ready, `this.ready = true` has been assigned exactly once, directly
followed by one flush, of the ready queue with a route or of the ready-error queue with an
error, in which every callback of the queue is called once, in the order of registration;
no effect of readiness stands before or after. -/
def ReadyOnce (h : History) (es : List Effect) : Prop :=
  (h.ready = false → ∀ e ∈ es, e.isReady = false)
    ∧ (h.ready = true →
        ∃ post pre flush, es = post ++ flush ++ Effect.ready :: pre
          ∧ (∀ e ∈ post, e.isReady = false) ∧ (∀ e ∈ pre, e.isReady = false)
          ∧ ((∃ route, flush = (h.readyCbs.map (fun cb => Effect.readyCb cb route)).reverse)
            ∨ ∃ err, flush = (h.readyErrorCbs.map (fun cb => Effect.readyErrorCb cb err)).reverse))

/-- A history that is not ready and has two ready-error callbacks, 5 and 6. -/
def demoWaiting : History :=
  handle demoRouter (handle demoRouter demoStart (Event.onReady 4 (some 5)))
    (Event.onReady 4 (some 6))


/-! ## Consistency of the tables, and alias records -/

/-- The `pathList` is duplicate-free and its elements are exactly the keys of `pathMap`. -/
def TableConsistent (t : RouteMap) : Prop :=
  t.pathList.Nodup ∧ ∀ p, p ∈ t.pathList ↔ p ∈ t.pathMap.keys

/-- The calls `addRouteRecord(…, route, parent, matchAs)` that
`createRouteMap(routes, …, parentRoute)` gives rise to: one for each route of `routes`, with
`parentRoute` and no matchAs (lines 18 to 20); for a call on a route, one for each of its
children, with the record of the route as parent and the `childMatchAs` (lines 107 to 114);
and one for each of its aliases, on the route `{ path: alias, children: route.children }`
with the same parent and the matchAs `record.path || '/'` (lines 126 to 143). -/
inductive Call (routes : List RouteConfig) (parentRoute : Option RouteRecord) :
    RouteConfig → Option RouteRecord → Option Str → Prop where
  | top (route : RouteConfig) : route ∈ routes → Call routes parentRoute route parentRoute none
  | child (o : RouteOptions) (cs : List RouteConfig) (parent : Option RouteRecord)
      (m : Option Str) (c : RouteConfig) :
      Call routes parentRoute (RouteConfig.mk o cs) parent m → c ∈ cs →
      Call routes parentRoute c (some (makeRecord o parent m)) (childMatchAs m c.opts.path)
  | alias_ (o : RouteOptions) (cs : List RouteConfig) (parent : Option RouteRecord)
      (m : Option Str) (a : Str) :
      Call routes parentRoute (RouteConfig.mk o cs) parent m → a ∈ aliasList o.alias_ →
      Call routes parentRoute (RouteConfig.mk { path := a } cs) parent
        (some (pathOrSlash (makeRecord o parent m).path))

/-- The record `r` with the matchAs `x` is the alias record of a route: `addRouteRecord` is
called on a route with the fields `o`, under `parent`, that declares the alias `a`; `r` is the
record compiled from `{ path: a }` alone under the same parent; and `x` is `c || '/'` for the
path `c` of the record compiled from the route itself at that call, which is a key of
`pathMap`. -/
def AliasOf (routes : List RouteConfig) (parentRoute : Option RouteRecord) (keys : List Str)
    (r : RouteRecord) (x : Str) : Prop :=
  ∃ o cs parent m a, Call routes parentRoute (RouteConfig.mk o cs) parent m
    ∧ a ∈ aliasList o.alias_
    ∧ r = makeRecord { path := a } parent (some x)
    ∧ x = pathOrSlash (makeRecord o parent m).path
    ∧ (makeRecord o parent m).path ∈ keys

/-- The record `r` with the matchAs `x` is nested under a record with a matchAs:
`addRouteRecord` is called with the matchAs `pm` on a route with the fields `o` and the child
`c`; `r` is the record compiled from `c` under the record of that route; and `x` is
`cleanPath(pm + '/' + c.path)`. -/
def NestedUnder (routes : List RouteConfig) (parentRoute : Option RouteRecord)
    (r : RouteRecord) (x : Str) : Prop :=
  ∃ o cs parent pm c, Call routes parentRoute (RouteConfig.mk o cs) parent (some pm)
    ∧ c ∈ cs
    ∧ r = makeRecord c.opts (some (makeRecord o parent (some pm))) (some x)
    ∧ x = cleanPath (pm ++ '/' :: c.opts.path)

/-- What the `matchAs` of a record is, when it has one, in the table with the given keys
that `createRouteMap(routes, …, parentRoute)` builds: it is not empty, and the record is the
alias record of a route or is nested under a record with a matchAs. -/
def MatchAsSound (routes : List RouteConfig) (parentRoute : Option RouteRecord)
    (keys : List Str) (r : RouteRecord) : Prop :=
  ∀ x, r.fields.matchAs = some x →
    x ≠ [] ∧ (AliasOf routes parentRoute keys r x ∨ NestedUnder routes parentRoute r x)

/-- Every record of `pathMap` has a sound `matchAs`. -/
def AliasSound (routes : List RouteConfig) (parentRoute : Option RouteRecord) (t : RouteMap) :
    Prop :=
  ∀ e ∈ t.pathMap, MatchAsSound routes parentRoute t.pathMap.keys e.2

/-- The route `{ path: '/', alias: '/home', component }` (component 1, meta `{ a: 1 }`) and the
route `/parent` with the alias `/app` and the child `foo/`. -/
def aliasRoutes : List RouteConfig :=
  [ RouteConfig.mk
      { path := "/".toList, alias_ := AliasConfig.one "/home".toList, component := some 1,
        meta := some [("a".toList, 1)] } [],
    RouteConfig.mk
      { path := "/parent".toList, alias_ := AliasConfig.one "/app".toList, component := some 2 }
      [ RouteConfig.mk { path := "foo/".toList, component := some 3 } [] ] ]

/-- The table compiled from `aliasRoutes`. -/
def aliasRouteMap : RouteMap := createRouteMap aliasRoutes RouteMap.empty none

/-! ## The persisted location (`history/html5.js`) -/

/-- The parts of `window.location` that `getLocation` reads. -/
structure WindowLocation where
  pathname : Str
  search : Str
  hash : Str
  deriving DecidableEq, Repr

/-- The effect of `toLowerCase()` on the letters `A` to `Z`, character by character; every
other character is kept. -/
def toLowerCase (s : Str) : Str := s.map Char.toLower

/-- Source `getLocation(base)` of `history/html5.js`, with `window.location` given as `w`.
`indexOf(x) === 0` says that `x` is a prefix, `slice(n)` drops `n` characters. -/
def getLocation (w : WindowLocation) (base : Str) : Str :=
  let path := w.pathname
  let pathLowerCase := toLowerCase path
  let baseLowerCase := toLowerCase base
  let path :=
    if base ≠ [] ∧ (pathLowerCase = baseLowerCase
        ∨ cleanPath (baseLowerCase ++ ['/']) <+: pathLowerCase) then
      path.drop base.length
    else path
  pathOrSlash path ++ w.search ++ w.hash

/-- The effect of `base.replace(/^https?:\/\/[^\/]+/, '')`: a leading `http://host` or
`https://host` is removed. -/
def stripOrigin (base : Str) : Str :=
  let rest :=
    if "https://".toList <+: base then some (base.drop 8)
    else if "http://".toList <+: base then some (base.drop 7)
    else none
  match rest with
  | some r => if r.takeWhile (fun c => c ≠ '/') ≠ [] then r.dropWhile (fun c => c ≠ '/') else base
  | none => base

/-- Source `normalizeBase(base)` of `history/base.js`. `inBrowser` and the `href` of the
`<base>` element (`none` without such an element or attribute) are given. -/
def normalizeBase (base : Option Str) (inBrowser : Bool) (baseHref : Option Str) : Str :=
  let base : Str :=
    match base with
    | some b =>
      if b ≠ [] then b
      else if inBrowser then stripOrigin (pathOrSlash (baseHref.getD [])) else ['/']
    | none => if inBrowser then stripOrigin (pathOrSlash (baseHref.getD [])) else ['/']
  let base := if base.head? ≠ some '/' then '/' :: base else base
  stripTrailingSlash base

/-- The URL that `push`, `replace` and `ensureURL` write for a route:
`cleanPath(this.base + route.fullPath)`. -/
def writtenURL (base fullPath : Str) : Str := cleanPath (base ++ fullPath)

/-- No two consecutive characters of the string are both `/`. -/
def noDoubleSlash : Str → Bool
  | c :: d :: rest => !(c = '/' && d = '/') && noDoubleSlash (d :: rest)
  | _ => true

/-! ## Locations (`util/location.js`) -/

/-- A `Dictionary<string>` such as `params` or `query`: keys with their values, in insertion
order. -/
abbrev Dict := List (Str × Str)

/-- The value of `dict[key]` (`none` for undefined). -/
def Dict.get (d : Dict) (key : Str) : Option Str :=
  (d.find? (fun e => e.1 = key)).map Prod.snd

/-- The assignment `dict[key] = value`. -/
def Dict.set (d : Dict) (key : Str) (value : Str) : Dict :=
  if (Dict.get d key).isSome then d.map (fun e => if e.1 = key then (key, value) else e)
  else d ++ [(key, value)]

/-- The keys of a dictionary. -/
def Dict.keys (d : Dict) : List Str := d.map Prod.fst

/-- Modelled from the spec: `extend(a, b)` of `util/misc`, which `location.js` imports but
which is not among the sources. The spec has the given values override: each property of `b`
is assigned to `a`, in order, and `a` is what is returned. Here `a` is the content of the
object that receives the properties. -/
def extend (a b : Dict) : Dict := b.foldl (fun acc e => acc.set e.1 e.2) a

/-- A location object: the fields of the type `Location` and the marker `_normalized`. An
absent field is `none` (`false` for a flag). `params` is a reference: the address of a
dictionary in the store. -/
structure Location where
  _normalized : Bool := false
  name : Option Str := none
  path : Option Str := none
  hash : Option Str := none
  query : Option Dict := none
  params : Option Nat := none
  append : Bool := false
  replace : Bool := false
  deriving DecidableEq, Repr

/-- The objects that `normalizeLocation` reads and writes: location objects and `params`
dictionaries, each at an address (its index). An object that is created gets the next free
address. -/
structure Store where
  locations : List Location
  dicts : List Dict
  deriving DecidableEq, Repr

namespace Store

/-- The location object at an address. -/
def location (s : Store) (a : Nat) : Location := s.locations.getD a {}

/-- The dictionary at an address. -/
def dict (s : Store) (a : Nat) : Dict := s.dicts.getD a []

/-- A new location object with the given fields; its address is `s.locations.length`. -/
def pushLocation (s : Store) (l : Location) : Store := { s with locations := s.locations ++ [l] }

/-- A new dictionary with the given content; its address is `s.dicts.length`. -/
def pushDict (s : Store) (d : Dict) : Store := { s with dicts := s.dicts ++ [d] }

/-- An assignment to fields of the location object at an address. -/
def setLocation (s : Store) (a : Nat) (l : Location) : Store :=
  { s with locations := s.locations.set a l }

/-- What a location object at an address shows field for field: its fields, with the
content of its `params` in place of the reference to them. -/
def view (s : Store) (a : Nat) : Location × Option Dict :=
  ({ s.location a with params := none }, (s.location a).params.map s.dict)

end Store

/-- The first argument of `normalizeLocation`: a string, or (a reference to) a location
object. -/
inductive RawTarget where
  | str (path : Str)
  | obj (address : Nat)
  deriving DecidableEq, Repr

/-- The fields of the current route that `normalizeLocation` reads. `params` is the address
of the route's params dictionary. -/
structure CurrentRoute where
  name : Option Str
  path : Str
  params : Nat
  matched : List RouteRecord
  deriving DecidableEq, Repr

/-- The result of `parsePath`. -/
structure ParsedPath where
  path : Str
  query : Option Str
  hash : Option Str
  deriving DecidableEq, Repr

/-- The helpers of `util/path`, `util/query` and `util/params` that `normalizeLocation`
calls. They are not among the sources and are parameters here; `resolveQuery` stands for the
call with the router's `parseQuery` option. -/
structure LocationHelpers where
  parsePath : Str → ParsedPath
  resolvePath : Str → Str → Bool → Str
  resolveQuery : Option Str → Option Dict → Dict
  fillParams : Str → Dict → Str → Str

/-- The truthiness of an optional string: present and not empty. -/
def truthy : Option Str → Bool
  | some (_ :: _) => true
  | _ => false

/-- The branch `if (next.name)` of `normalizeLocation`: the object is copied
(`extend({}, raw)`), and so are its params when it has some. -/
def copyNamed (s : Store) (loc : Location) : Nat × Store :=
  let next := s.locations.length
  let s := s.pushLocation loc
  match loc.params with
  | some pa =>
    let params := s.dicts.length
    let s := s.pushDict (extend [] (s.dict pa))
    (next, s.setLocation next { s.location next with params := some params })
  | none => (next, s)

/-- The branch `if (!next.path && next.params && current)` of `normalizeLocation`, for the
params at the address `pa` and the current route `cur`. -/
def relativeParams (ops : LocationHelpers) (s : Store) (loc : Location) (pa : Nat)
    (cur : CurrentRoute) : Nat × Store :=
  let next := s.locations.length
  let s := s.pushLocation loc
  let s := s.setLocation next { s.location next with _normalized := true }
  let params := s.dicts.length
  let s := s.pushDict (extend (extend [] (s.dict cur.params)) (s.dict pa))
  if truthy cur.name then
    (next, s.setLocation next { s.location next with name := cur.name, params := some params })
  else
    match cur.matched.getLast? with
    | some record =>
      (next, s.setLocation next
        { s.location next with
          path := some (ops.fillParams record.path (s.dict params) cur.path) })
    | none => (next, s)

/-- The last part of `normalizeLocation`, for a target given by its path. -/
def pathBased (ops : LocationHelpers) (s : Store) (loc : Location)
    (current : Option CurrentRoute) (append : Bool) : Nat × Store :=
  let parsedPath := ops.parsePath (if truthy loc.path then loc.path.getD [] else [])
  let basePath : Str :=
    match current with
    | some cur => if cur.path ≠ [] then cur.path else ['/']
    | none => ['/']
  let path :=
    if parsedPath.path ≠ [] then ops.resolvePath parsedPath.path basePath (append || loc.append)
    else basePath
  let query := ops.resolveQuery parsedPath.query loc.query
  let hash := if truthy loc.hash then loc.hash else parsedPath.hash
  let hash :=
    match hash with
    | some h => if h ≠ [] ∧ h.head? ≠ some '#' then some ('#' :: h) else some h
    | none => none
  (s.locations.length,
    s.pushLocation { _normalized := true, path := some path, query := some query, hash := hash })

/-- The body of `normalizeLocation` once `next` is an object, at the address `next`. -/
def normalizeObject (ops : LocationHelpers) (s : Store) (next : Nat)
    (current : Option CurrentRoute) (append : Bool) : Nat × Store :=
  let loc := s.location next
  if loc._normalized then (next, s)
  else if truthy loc.name then copyNamed s loc
  else
    match truthy loc.path, loc.params, current with
    | false, some pa, some cur => relativeParams ops s loc pa cur
    | _, _, _ => pathBased ops s loc current append

/-- Source `normalizeLocation(raw, current, append, router)`: the address of the location
object returned, and the store after the call. A string `raw` gives the new object
`{ path: raw }`. -/
def normalizeLocation (ops : LocationHelpers) (s : Store) (raw : RawTarget)
    (current : Option CurrentRoute) (append : Bool) : Nat × Store :=
  match raw with
  | RawTarget.str path =>
    normalizeObject ops (s.pushLocation { path := some path }) s.locations.length current append
  | RawTarget.obj next => normalizeObject ops s next current append

/-- Helpers for examples: the path is split at the first `#`, a relative path is put after
the base, the query and the path template are left as they are. -/
def demoHelpers : LocationHelpers where
  parsePath p :=
    { path := p.takeWhile (fun c => c ≠ '#'), query := none,
      hash := if (p.dropWhile (fun c => c ≠ '#')) = [] then none
        else some (p.dropWhile (fun c => c ≠ '#')) }
  resolvePath relative base _ :=
    if relative.head? = some '/' then relative else cleanPath (base ++ '/' :: relative)
  resolveQuery _ extra := extra.getD []
  fillParams path _ _ := path

/-- A store for examples: the location object `{ params: { zapId: 2 } }` of the link of the
example app at the address 0, its params at the address 0, and the params
`{ zapId: 1, x: y }` of the current route `zap` at the address 1. -/
def demoStore : Store :=
  { locations := [{ params := some 0 }]
    dicts := [[("zapId".toList, "2".toList)],
      [("zapId".toList, "1".toList), ("x".toList, "y".toList)]] }

/-- The current route of the example: the route named `zap`. -/
def demoCurrent : CurrentRoute :=
  { name := some "zap".toList, path := "/parent/zap/1".toList, params := 1, matched := [] }

/-! # Properties -/

/-! ## Lemmas on the wildcard loop -/

theorem moveWildcards_append (mid pre tail : List Str) :
    moveWildcards mid.length pre.length (pre ++ (mid ++ tail))
      = pre ++ (mid.filter (fun p => p ≠ star) ++ (tail ++ mid.filter (fun p => p = star))) := by
  induction mid generalizing pre tail with
  | nil => simp [moveWildcards]
  | cons x m ih =>
    have hget : (pre ++ (x :: m ++ tail))[pre.length]? = some x := by
      rw [List.getElem?_append_right (Nat.le_refl _)]
      simp
    simp only [List.length_cons, moveWildcards, hget]
    by_cases hx : x = star
    · subst hx
      have herase : (pre ++ (star :: m ++ tail)).eraseIdx pre.length = pre ++ (m ++ tail) := by
        rw [List.eraseIdx_append_of_length_le (Nat.le_refl _)]
        simp
      simp only [if_true, herase]
      have := ih pre (tail ++ [star])
      simp only [List.append_assoc] at this ⊢
      rw [this]
      simp
    · have hne : ¬ (some x = some star) := by simpa using hx
      simp only [hne, if_false]
      have := ih (pre ++ [x]) tail
      simp only [List.length_append, List.length_singleton, List.append_assoc,
        List.singleton_append] at this
      simp only [List.cons_append]
      rw [this]
      simp [hx]

theorem moveWildcards_eq (pathList : List Str) :
    moveWildcards pathList.length 0 pathList
      = pathList.filter (fun p => p ≠ star) ++ pathList.filter (fun p => p = star) := by
  have := moveWildcards_append pathList [] []
  simpa using this

/-- C1. The pathList returned by `createRouteMap` is the registration-order list (the incoming
pathList followed by the paths registered by this call) with the entries equal to `*` taken
out, followed by those entries: the wildcard loop is a stable partition that loses and
duplicates nothing. -/
theorem createRouteMap_pathList_wildcards_last (routes : List RouteConfig) (old : RouteMap)
    (parentRoute : Option RouteRecord) :
    (createRouteMap routes old parentRoute).pathList
      = (registrationOrder routes old parentRoute).filter (fun p => p ≠ star)
        ++ (registrationOrder routes old parentRoute).filter (fun p => p = star) := by
  simp only [createRouteMap, registrationOrder]
  exact moveWildcards_eq _

/-! ## Lemmas on `resolveQueue` -/

theorem resolveQueueLoop_cons {R : Type} [DecidableEq R] (a b : R) (as bs : List R)
    (n i : Nat) :
    resolveQueueLoop (a :: as) (b :: bs) n (i + 1) = resolveQueueLoop as bs n i + 1 := by
  induction n generalizing i with
  | zero => simp [resolveQueueLoop]
  | succ n ih =>
    simp only [resolveQueueLoop, List.getElem?_cons_succ]
    split
    · rfl
    · exact ih (i + 1)

theorem resolveQueueLoop_eq {R : Type} [DecidableEq R] (current next : List R) :
    resolveQueueLoop current next (Nat.max current.length next.length) 0
      = commonPrefixLength current next := by
  induction current generalizing next with
  | nil =>
    cases next with
    | nil => simp [resolveQueueLoop, commonPrefixLength]
    | cons b bs =>
      have : Nat.max ([] : List R).length (b :: bs).length = bs.length + 1 := by
        simp [Nat.max_def]
      rw [this]
      simp [resolveQueueLoop, commonPrefixLength]
  | cons a as ih =>
    cases next with
    | nil =>
      have : Nat.max (a :: as).length ([] : List R).length = as.length + 1 := by
        simp [Nat.max_def]
      rw [this]
      simp [resolveQueueLoop, commonPrefixLength]
    | cons b bs =>
      have : Nat.max (a :: as).length (b :: bs).length
          = Nat.max as.length bs.length + 1 := by
        simp only [List.length_cons, Nat.max_def]
        split <;> split <;> omega
      rw [this]
      simp only [resolveQueueLoop, commonPrefixLength, List.getElem?_cons_zero]
      by_cases hab : a = b
      · subst hab
        simp only [ne_eq, not_true_eq_false, if_false, if_true]
        rw [resolveQueueLoop_cons, ih]
      · have : ¬ (some a = some b) := by simpa using hab
        simp [hab]

theorem commonPrefixLength_take {R : Type} [DecidableEq R] (current next : List R) :
    current.take (commonPrefixLength current next)
      = next.take (commonPrefixLength current next) := by
  induction current generalizing next with
  | nil => simp [commonPrefixLength]
  | cons a as ih =>
    cases next with
    | nil => simp [commonPrefixLength]
    | cons b bs =>
      simp only [commonPrefixLength]
      by_cases hab : a = b
      · subst hab
        simp [ih bs]
      · simp [hab]

theorem commonPrefixLength_le_right {R : Type} [DecidableEq R] (current next : List R) :
    commonPrefixLength current next ≤ next.length := by
  induction current generalizing next with
  | nil => simp [commonPrefixLength]
  | cons a as ih =>
    cases next with
    | nil => simp [commonPrefixLength]
    | cons b bs =>
      simp only [commonPrefixLength, List.length_cons]
      split
      · exact Nat.succ_le_succ (ih bs)
      · omega

theorem commonPrefixLength_maximal {R : Type} [DecidableEq R] (current next : List R) :
    ¬ ∃ a, current[commonPrefixLength current next]? = some a
        ∧ next[commonPrefixLength current next]? = some a := by
  induction current generalizing next with
  | nil => simp [commonPrefixLength]
  | cons a as ih =>
    cases next with
    | nil => simp [commonPrefixLength]
    | cons b bs =>
      simp only [commonPrefixLength]
      by_cases hab : a = b
      · subst hab
        simpa using ih bs
      · simp only [hab, if_false, List.getElem?_cons_zero, Option.some.injEq, not_exists,
          not_and]
        intro x hx hx'
        exact hab (hx.trans hx'.symm)

/-- C2. With `k` the length of the longest common prefix of `current` and `next` (the first
`k` records agree and the records at index `k`, if both exist, differ), `resolveQueue` returns
`updated` = the first `k` records of `next`, of length `k`, `activated` = the records of `next`
from index `k` on, so that `updated ++ activated = next`, and `deactivated` = the records of
`current` from index `k` on. -/
theorem resolveQueue_partition {R : Type} [DecidableEq R] (current next : List R) :
    current.take (commonPrefixLength current next)
        = next.take (commonPrefixLength current next)
      ∧ (¬ ∃ a, current[commonPrefixLength current next]? = some a
            ∧ next[commonPrefixLength current next]? = some a)
      ∧ (resolveQueue current next).updated = next.take (commonPrefixLength current next)
      ∧ (resolveQueue current next).updated.length = commonPrefixLength current next
      ∧ (resolveQueue current next).activated = next.drop (commonPrefixLength current next)
      ∧ (resolveQueue current next).updated ++ (resolveQueue current next).activated = next
      ∧ (resolveQueue current next).deactivated
          = current.drop (commonPrefixLength current next) := by
  have hk := commonPrefixLength_take current next
  have hlen := commonPrefixLength_le_right current next
  refine ⟨hk, commonPrefixLength_maximal current next, ?_, ?_, ?_, ?_, ?_⟩
  · simp [resolveQueue, resolveQueueLoop_eq]
  · simp [resolveQueue, resolveQueueLoop_eq, hlen]
  · simp [resolveQueue, resolveQueueLoop_eq]
  · simp [resolveQueue, resolveQueueLoop_eq]
  · simp [resolveQueue, resolveQueueLoop_eq]

/-- C3, as stated, fails: for `current = [1, 2, 3]` and `next = [1]` the `deactivated` list
that `resolveQueue` returns is `[2, 3]`, the suffix in its own order, not the reversed suffix
`[3, 2]`. -/
theorem resolveQueue_deactivated_not_reversed :
    (resolveQueue [1, 2, 3] [1]).deactivated = [2, 3]
      ∧ (resolveQueue [1, 2, 3] [1]).deactivated
          ≠ ([1, 2, 3].drop (commonPrefixLength [1, 2, 3] [1])).reverse := by
  decide

/-- C3, amended. `resolveQueue` returns as `deactivated` the suffix of `current` after the
shared prefix in its own order, shallowest record first; the reversal is made by
`extractLeaveGuards`, whose result lists the leave guards of the deepest record first: it is
the flattening of the per-slot guard entries of the reversed suffix, the slots of each record
reversed as well. -/
theorem resolveQueue_deactivated_leave_guards (v : Views) (current next : List RouteRecord) :
    (resolveQueue current next).deactivated
        = current.drop (commonPrefixLength current next)
      ∧ extractLeaveGuards v (resolveQueue current next).deactivated
        = flatten (flatten
            ((current.drop (commonPrefixLength current next)).reverse.map
              (fun m =>
                (m.fields.components.map
                  (fun kc =>
                    guardsOfSlot v GuardName.beforeRouteLeave bindGuard kc.2 (v.inst m kc.1) m
                      kc.1)).reverse))) := by
  have hd : (resolveQueue current next).deactivated
      = current.drop (commonPrefixLength current next) := by
    simp [resolveQueue, resolveQueueLoop_eq]
  refine ⟨hd, ?_⟩
  rw [hd]
  simp only [extractLeaveGuards, extractGuards, flatMapComponents, flatten, if_true,
    List.reverse_flatten, List.map_reverse, List.map_map]
  rfl

/-! ## Induction over route configs -/

theorem RouteConfig.induct {P : RouteConfig → Prop}
    (h : ∀ o cs, (∀ c ∈ cs, P c) → P (RouteConfig.mk o cs)) (route : RouteConfig) : P route :=
  @RouteConfig.rec P (fun cs => ∀ c ∈ cs, P c) (fun o cs ih => h o cs ih)
    (fun c hc => by cases hc)
    (fun c cs hc hcs x hx => by
      rcases List.mem_cons.mp hx with rfl | hx
      · exact hc
      · exact hcs x hx)
    route

theorem addChildRecords_eq_foldl (cs : List RouteConfig) (t : RouteMap) (record : RouteRecord)
    (matchAs : Option Str) :
    addChildRecords t cs record matchAs
      = cs.foldl
          (fun t c => addRouteRecord t c (some record) (childMatchAs matchAs c.opts.path)) t := by
  induction cs generalizing t with
  | nil => simp [addChildRecords]
  | cons c cs ih => simp [addChildRecords, ih]

theorem addRouteRecord_eq (t : RouteMap) (o : RouteOptions) (cs : List RouteConfig)
    (parent : Option RouteRecord) (matchAs : Option Str) :
    addRouteRecord t (RouteConfig.mk o cs) parent matchAs
      = (aliasList o.alias_).foldl
          (fun t a =>
            addRecordSteps (fun t r m => addChildRecords t cs r m) t { path := a } parent
              (some (pathOrSlash (makeRecord o parent matchAs).path)))
          (addRecordSteps (fun t r m => addChildRecords t cs r m) t o parent matchAs) := by
  simp [addRouteRecord]

theorem foldl_invariant {α β : Type} (I : β → Prop) (f : β → α → β) (l : List α)
    (h : ∀ b, ∀ a ∈ l, I b → I (f b a)) (b : β) (hb : I b) : I (l.foldl f b) := by
  induction l generalizing b with
  | nil => exact hb
  | cons a l ih =>
    simp only [List.foldl_cons]
    exact ih (fun b x hx => h b x (List.mem_cons_of_mem _ hx)) _
      (h b a (List.mem_cons_self _ _) hb)

/-- An invariant `I` of the tables that every registration keeps, under a condition `Q` on the
parent that every record made under such a parent meets again, is kept by
`addRouteRecord`. -/
theorem addRouteRecord_invariant (I : RouteMap → Prop) (Q : Option RouteRecord → Prop)
    (hreg : ∀ t o parent m name, I t → Q parent →
      I (registerRecord t (makeRecord o parent m) name))
    (hQ : ∀ o parent m, Q parent → Q (some (makeRecord o parent m)))
    (route : RouteConfig) :
    ∀ t parent m, I t → Q parent → I (addRouteRecord t route parent m) := by
  induction route using RouteConfig.induct with
  | h o cs ih =>
    intro t parent m ht hp
    have hkids : ∀ t' o' m', I t' → I (addChildRecords t' cs (makeRecord o' parent m') m') := by
      intro t' o' m' ht'
      rw [addChildRecords_eq_foldl]
      exact foldl_invariant I _ cs (fun b c hc hb => ih c hc b _ _ hb (hQ o' parent m' hp)) t' ht'
    have hsteps : ∀ t' o' m', I t' →
        I (addRecordSteps (fun t r m => addChildRecords t cs r m) t' o' parent m') := by
      intro t' o' m' ht'
      simp only [addRecordSteps]
      exact hreg _ _ _ _ _ (hkids t' o' m' ht') hp
    rw [addRouteRecord_eq]
    exact foldl_invariant I _ _ (fun b a _ hb => hsteps b _ _ hb) _ (hsteps t o m ht)

theorem addChildRecords_invariant (I : RouteMap → Prop) (Q : Option RouteRecord → Prop)
    (hreg : ∀ t o parent m name, I t → Q parent →
      I (registerRecord t (makeRecord o parent m) name))
    (hQ : ∀ o parent m, Q parent → Q (some (makeRecord o parent m)))
    (cs : List RouteConfig) (t : RouteMap) (record : RouteRecord) (m : Option Str)
    (ht : I t) (hr : Q (some record)) : I (addChildRecords t cs record m) := by
  rw [addChildRecords_eq_foldl]
  exact foldl_invariant I _ cs
    (fun b c _ hb => addRouteRecord_invariant I Q hreg hQ c b _ _ hb hr) t ht

/-! ## Lemmas on dictionaries and registration -/

theorem Dictionary.get_append (d : Dictionary) (k key : Str) (record : RouteRecord) :
    Dictionary.get (d ++ [(k, record)]) key
      = (Dictionary.get d key).or (if k = key then some record else none) := by
  simp only [Dictionary.get, List.find?_append]
  cases hf : d.find? (fun e => decide (e.1 = key)) with
  | some x => simp
  | none =>
    by_cases hk : k = key
    · simp [hk]
    · simp [hk]

theorem Dictionary.set_of_absent (d : Dictionary) (k : Str) (record : RouteRecord)
    (h : (Dictionary.get d k).isNone) : Dictionary.set d k record = d ++ [(k, record)] := by
  have : ¬ (Dictionary.get d k).isSome = true := by
    cases hg : Dictionary.get d k with
    | none => simp
    | some x => simp [hg] at h
  simp [Dictionary.set, this]

theorem registerName_pathList (t : RouteMap) (record : RouteRecord) (name : Option Str) :
    (registerName t record name).pathList = t.pathList := by
  unfold registerName
  split
  · split <;> rfl
  · rfl

theorem registerName_pathMap (t : RouteMap) (record : RouteRecord) (name : Option Str) :
    (registerName t record name).pathMap = t.pathMap := by
  unfold registerName
  split
  · split <;> rfl
  · rfl

theorem registerPath_nameMap (t : RouteMap) (record : RouteRecord) :
    (registerPath t record).nameMap = t.nameMap := by
  unfold registerPath
  split <;> rfl

theorem registerRecord_pathMap_get (t : RouteMap) (record : RouteRecord) (name : Option Str)
    (key : Str) (r : RouteRecord) (h : t.pathMap.get key = some r) :
    (registerRecord t record name).pathMap.get key = some r := by
  rw [registerRecord, registerName_pathMap]
  unfold registerPath
  split
  · rename_i habs
    simp only [Dictionary.set_of_absent _ _ _ habs, Dictionary.get_append, h, Option.or_some]
  · exact h

theorem registerRecord_nameMap_get (t : RouteMap) (record : RouteRecord) (name : Option Str)
    (key : Str) (r : RouteRecord) (h : t.nameMap.get key = some r) :
    (registerRecord t record name).nameMap.get key = some r := by
  have hp : (registerPath t record).nameMap.get key = some r := by
    rw [registerPath_nameMap]
    exact h
  rw [registerRecord]
  unfold registerName
  split
  · split
    · rename_i habs
      simp only [Dictionary.set_of_absent _ _ _ habs.2, Dictionary.get_append, hp,
        Option.or_some]
    · exact hp
  · exact hp

theorem registerRecord_pathList_count (t : RouteMap) (record : RouteRecord)
    (name : Option Str) (key : Str) (r : RouteRecord) (h : t.pathMap.get key = some r) :
    (registerRecord t record name).pathList.count key = t.pathList.count key := by
  rw [registerRecord, registerName_pathList]
  unfold registerPath
  split
  · rename_i habs
    have hne : record.path ≠ key := by
      intro he
      rw [he, h] at habs
      simp at habs
    simp [List.count_append, List.count_singleton, hne]
  · rfl

theorem count_filter_partition (l : List Str) (key : Str) :
    (l.filter (fun p => p ≠ star) ++ l.filter (fun p => p = star)).count key
      = l.count key := by
  induction l with
  | nil => rfl
  | cons x l ih =>
    by_cases hx : x = star
    · simp [List.filter_cons, hx, List.count_append, List.count_cons] at ih ⊢
      omega
    · simp [List.filter_cons, hx, List.count_append, List.count_cons] at ih ⊢
      omega

theorem moveWildcards_count (pathList : List Str) (key : Str) :
    (moveWildcards pathList.length 0 pathList).count key = pathList.count key := by
  rw [moveWildcards_eq]
  exact count_filter_partition pathList key

/-! ## First writer wins -/

theorem addRouteRecord_keeps_path (key : Str) (r : RouteRecord) (c : Nat)
    (route : RouteConfig) (t : RouteMap) (parent : Option RouteRecord) (m : Option Str)
    (h : t.pathMap.get key = some r ∧ t.pathList.count key = c) :
    (addRouteRecord t route parent m).pathMap.get key = some r
      ∧ (addRouteRecord t route parent m).pathList.count key = c :=
  addRouteRecord_invariant
    (fun t => t.pathMap.get key = some r ∧ t.pathList.count key = c) (fun _ => True)
    (fun t _ _ _ _ ht _ =>
      ⟨registerRecord_pathMap_get t _ _ key r ht.1,
        (registerRecord_pathList_count t _ _ key r ht.1).trans ht.2⟩)
    (fun _ _ _ _ => trivial) route t parent m h trivial

theorem addRouteRecord_keeps_name (name : Str) (r : RouteRecord)
    (route : RouteConfig) (t : RouteMap) (parent : Option RouteRecord) (m : Option Str)
    (h : t.nameMap.get name = some r) :
    (addRouteRecord t route parent m).nameMap.get name = some r :=
  addRouteRecord_invariant (fun t => t.nameMap.get name = some r) (fun _ => True)
    (fun t _ _ _ _ ht _ => registerRecord_nameMap_get t _ _ name r ht)
    (fun _ _ _ _ => trivial) route t parent m h trivial

/-- C7. First writer wins. If `key` maps to the record `r` in `pathMap` (of any table `t`: the
old tables handed to `createRouteMap`, or the tables as an earlier registration of the same
call left them), then after `addRouteRecord` of any route, and after `createRouteMap` of any
route list, `key` still maps to `r` and `pathList` holds as many copies of `key` as before.
If `name` maps to `r'` in `nameMap`, it still does afterwards. -/
theorem first_writer_wins (t : RouteMap) (route : RouteConfig) (parent : Option RouteRecord)
    (matchAs : Option Str) (routes : List RouteConfig) (parentRoute : Option RouteRecord)
    (key name : Str) (r r' : RouteRecord) :
    (t.pathMap.get key = some r →
        (addRouteRecord t route parent matchAs).pathMap.get key = some r
        ∧ (addRouteRecord t route parent matchAs).pathList.count key = t.pathList.count key
        ∧ (createRouteMap routes t parentRoute).pathMap.get key = some r
        ∧ (createRouteMap routes t parentRoute).pathList.count key = t.pathList.count key)
      ∧ (t.nameMap.get name = some r' →
        (addRouteRecord t route parent matchAs).nameMap.get name = some r'
        ∧ (createRouteMap routes t parentRoute).nameMap.get name = some r') := by
  constructor
  · intro h
    have h1 := addRouteRecord_keeps_path key r (t.pathList.count key) route t parent matchAs
      ⟨h, rfl⟩
    have h2 := foldl_invariant
      (fun t' : RouteMap => t'.pathMap.get key = some r ∧ t'.pathList.count key = t.pathList.count key)
      (fun t' route => addRouteRecord t' route parentRoute none) routes
      (fun b a _ hb => addRouteRecord_keeps_path key r _ a b parentRoute none hb) t ⟨h, rfl⟩
    refine ⟨h1.1, h1.2, h2.1, ?_⟩
    simp only [createRouteMap]
    rw [moveWildcards_count]
    exact h2.2
  · intro h
    refine ⟨addRouteRecord_keeps_name name r' route t parent matchAs h, ?_⟩
    exact foldl_invariant (fun t' : RouteMap => t'.nameMap.get name = some r')
      (fun t' route => addRouteRecord t' route parentRoute none) routes
      (fun b a _ hb => addRouteRecord_keeps_name name r' a b parentRoute none hb) t h

set_option maxRecDepth 100000 in
/-- C7 at the table of the example routes: `/parent` and the name `quux` are taken, and a later
route `{ path: '/parent', name: 'quux' }` changes neither entry. -/
theorem first_writer_wins_witness :
    (nestedRouteMap.pathMap.get "/parent".toList).isSome
      ∧ (nestedRouteMap.nameMap.get "quux".toList).isSome
      ∧ (addRouteRecord nestedRouteMap
            (RouteConfig.mk { path := "/parent".toList, name := some "quux".toList } []) none
            none).pathMap.get "/parent".toList
          = nestedRouteMap.pathMap.get "/parent".toList
      ∧ (addRouteRecord nestedRouteMap
            (RouteConfig.mk { path := "/parent".toList, name := some "quux".toList } []) none
            none).nameMap.get "quux".toList
          = nestedRouteMap.nameMap.get "quux".toList := by
  have hp : ∃ r, nestedRouteMap.pathMap.get "/parent".toList = some r :=
    Option.isSome_iff_exists.mp (by decide)
  have hn : ∃ r, nestedRouteMap.nameMap.get "quux".toList = some r :=
    Option.isSome_iff_exists.mp (by decide)
  obtain ⟨r, hr⟩ := hp
  obtain ⟨r', hr'⟩ := hn
  have h := first_writer_wins nestedRouteMap
    (RouteConfig.mk { path := "/parent".toList, name := some "quux".toList } []) none none []
    none "/parent".toList "quux".toList r r'
  refine ⟨by rw [hr]; rfl, by rw [hr']; rfl, ?_, ?_⟩
  · rw [(h.1 hr).1, hr]
  · rw [(h.2 hr').1, hr']

/-! ## Lemmas on paths -/

theorem cleanPath_cons_ne_nil (c : Char) (rest : Str) : cleanPath (c :: rest) ≠ [] := by
  induction rest generalizing c with
  | nil => simp [cleanPath]
  | cons d r ih =>
    simp only [cleanPath]
    split
    · exact ih d
    · simp

theorem cleanPath_head (c : Char) (rest : Str) : (cleanPath (c :: rest)).head? = some c := by
  induction rest generalizing c with
  | nil => simp [cleanPath]
  | cons d r ih =>
    simp only [cleanPath]
    split
    · rename_i h
      rw [ih d, h.2, h.1]
    · simp

theorem cleanPath_getLast (s : Str) : (cleanPath s).getLast? = s.getLast? := by
  cases s with
  | nil => simp [cleanPath]
  | cons c rest =>
    induction rest generalizing c with
    | nil => simp [cleanPath]
    | cons d r ih =>
      simp only [cleanPath]
      split
      · rw [ih d]
        simp [List.getLast?_cons_cons]
      · obtain ⟨x, xs, hx⟩ := List.exists_cons_of_ne_nil (cleanPath_cons_ne_nil d r)
        rw [hx, List.getLast?_cons_cons, ← hx, ih d, List.getLast?_cons_cons]

theorem makeRecord_path (o : RouteOptions) (parent : Option RouteRecord) (m : Option Str) :
    (makeRecord o parent m).path
      = normalizePath o.path parent (o.pathToRegexpOptions.getD {}).strict := by
  cases parent <;> rfl

theorem rooted_iff (p : Str) : rooted p = true ↔ p = [] ∨ p.head? = some '/' := by
  cases p with
  | nil => simp [rooted]
  | cons c r => simp [rooted]

theorem rooted_stripTrailingSlash (p : Str) (h : rooted p = true) :
    rooted (stripTrailingSlash p) = true := by
  unfold stripTrailingSlash
  split
  · cases p with
    | nil => simp [rooted]
    | cons c r =>
      cases r with
      | nil => simp [rooted]
      | cons d r' =>
        simp only [rooted_iff] at h ⊢
        right
        rcases h with h | h
        · cases h
        · simpa [List.dropLast] using h
  · exact h

theorem rooted_join (q : Str) (p : RouteRecord) (hp : rooted p.path = true) :
    rooted (if q.head? = some '/' then q else cleanPath (p.path ++ '/' :: q)) = true := by
  split
  · rename_i h
    exact (rooted_iff _).mpr (Or.inr h)
  · rcases (rooted_iff _).mp hp with h | h
    · rw [h, List.nil_append]
      exact (rooted_iff _).mpr (Or.inr (cleanPath_head _ _))
    · obtain ⟨c, r, hc⟩ : ∃ c r, p.path = c :: r := by
        cases hpp : p.path with
        | nil => rw [hpp] at h; cases h
        | cons c r => exact ⟨c, r, rfl⟩
      rw [hc] at h ⊢
      rw [List.cons_append]
      refine (rooted_iff _).mpr (Or.inr ?_)
      rw [cleanPath_head]
      simpa using h

theorem rooted_normalizePath_child (path : Str) (p : RouteRecord) (strict : Bool)
    (hp : rooted p.path = true) : rooted (normalizePath path (some p) strict) = true := by
  simp only [normalizePath]
  exact rooted_join _ p hp

theorem rooted_normalizePath_top (path : Str) (strict : Bool) (hp : rooted path = true) :
    rooted (normalizePath path none strict) = true := by
  simp only [normalizePath]
  cases strict
  · exact rooted_stripTrailingSlash path hp
  · exact hp

theorem normalizePath_star_top (strict : Bool) : normalizePath star none strict = star := by
  cases strict <;> decide

/-! ## Leading slashes -/

theorem Dictionary.mem_of_get (d : Dictionary) (key : Str) (r : RouteRecord)
    (h : Dictionary.get d key = some r) : (key, r) ∈ d := by
  unfold Dictionary.get at h
  cases he : d.find? (fun e => e.1 = key) with
  | none => rw [he] at h; cases h
  | some e =>
    rw [he] at h
    have hk := List.find?_some he
    have hm := List.mem_of_find?_eq_some he
    cases e with
    | mk a b =>
      simp only [Option.map_some', Option.some.injEq] at h
      simp only [decide_eq_true_eq] at hk
      rw [← hk, ← h]
      exact hm

theorem registerRecord_pathsRooted (t : RouteMap) (record : RouteRecord) (name : Option Str)
    (ht : PathsRooted t) (hr : record.path = star ∨ rooted record.path = true) :
    PathsRooted (registerRecord t record name) := by
  unfold PathsRooted
  rw [registerRecord, registerName_pathList, registerName_pathMap]
  unfold registerPath
  split
  · rename_i habs
    simp only [Dictionary.set_of_absent _ _ _ habs]
    constructor
    · intro p hp
      rcases List.mem_append.mp hp with hp | hp
      · exact ht.1 p hp
      · rw [List.mem_singleton.mp hp]
        exact hr
    · intro e he
      rcases List.mem_append.mp he with he | he
      · exact ht.2 e he
      · rw [List.mem_singleton.mp he]
        exact ⟨rfl, hr⟩
  · exact ht

theorem addChildRecords_pathsRooted (cs : List RouteConfig) (t : RouteMap)
    (record : RouteRecord) (m : Option Str) (ht : PathsRooted t)
    (hr : rooted record.path = true) : PathsRooted (addChildRecords t cs record m) :=
  addChildRecords_invariant PathsRooted (fun parent => ∃ p, parent = some p ∧ rooted p.path = true)
    (fun t o parent m name ht hp => by
      obtain ⟨p, rfl, hp⟩ := hp
      refine registerRecord_pathsRooted t _ name ht (Or.inr ?_)
      rw [makeRecord_path]
      exact rooted_normalizePath_child _ p _ hp)
    (fun o parent m hp => by
      obtain ⟨p, rfl, hp⟩ := hp
      refine ⟨_, rfl, ?_⟩
      rw [makeRecord_path]
      exact rooted_normalizePath_child _ p _ hp)
    cs t record m ht ⟨record, rfl, hr⟩

theorem addRecordSteps_top_pathsRooted (cs : List RouteConfig) (t : RouteMap)
    (o : RouteOptions) (m : Option Str) (ht : PathsRooted t)
    (ho : rooted o.path = true ∨ (o.path = star ∧ cs = [])) :
    PathsRooted (addRecordSteps (fun t r m => addChildRecords t cs r m) t o none m) := by
  simp only [addRecordSteps]
  rcases ho with ho | ⟨ho, hcs⟩
  · have hr : rooted (makeRecord o none m).path = true := by
      rw [makeRecord_path]
      exact rooted_normalizePath_top _ _ ho
    exact registerRecord_pathsRooted _ _ _
      (addChildRecords_pathsRooted cs t _ m ht hr) (Or.inr hr)
  · subst hcs
    have hr : (makeRecord o none m).path = star := by
      rw [makeRecord_path, ho]
      exact normalizePath_star_top _
    simp only [addChildRecords]
    exact registerRecord_pathsRooted _ _ _ ht (Or.inl hr)

theorem addRouteRecord_top_pathsRooted (route : RouteConfig) (t : RouteMap)
    (ht : PathsRooted t) (h : topLevelOk route = true) :
    PathsRooted (addRouteRecord t route none none) := by
  cases route with
  | mk o cs =>
    have hall : ∀ p ∈ o.path :: aliasList o.alias_,
        rooted p = true ∨ (p = star ∧ cs = []) := by
      intro p hp
      simp only [topLevelOk, List.all_eq_true] at h
      have := h p hp
      simpa using this
    rw [addRouteRecord_eq]
    refine foldl_invariant PathsRooted _ _ (fun b a ha hb => ?_) _ ?_
    · exact addRecordSteps_top_pathsRooted cs b { path := a } _ hb
        (hall a (List.mem_cons_of_mem _ ha))
    · exact addRecordSteps_top_pathsRooted cs t o none ht (hall _ (List.mem_cons_self _ _))

theorem createRouteMap_pathsRooted (routes : List RouteConfig)
    (h : ∀ route ∈ routes, topLevelOk route = true) :
    PathsRooted (createRouteMap routes RouteMap.empty none) := by
  have hfold : PathsRooted
      (routes.foldl (fun t route => addRouteRecord t route none none) RouteMap.empty) := by
    refine foldl_invariant PathsRooted _ routes (fun b a ha hb => ?_) _ ?_
    · exact addRouteRecord_top_pathsRooted a b hb (h a ha)
    · exact ⟨by simp [RouteMap.empty], by simp [RouteMap.empty]⟩
  refine ⟨?_, hfold.2⟩
  intro p hp
  simp only [createRouteMap] at hp
  rw [moveWildcards_eq] at hp
  rcases List.mem_append.mp hp with hp | hp
  · exact hfold.1 p (List.mem_filter.mp hp).1
  · exact hfold.1 p (List.mem_filter.mp hp).1

set_option maxRecDepth 100000 in
/-- C9, as stated, fails on the routes of the example app: the first route `{ path: '' }`
(and `{ path: '/' }` after the removal of its trailing slash) compiles to the empty path, so
`pathList` holds a path that is not the wildcard and does not begin with `/`, and `pathMap`
holds a record with that path. -/
theorem createRouteMap_leading_slash_counterexample :
    (¬ ∀ p ∈ nestedRouteMap.pathList, p ≠ star → p.head? = some '/')
      ∧ (¬ ∀ key r, nestedRouteMap.pathMap.get key = some r → key ≠ star →
            r.path.head? = some '/') := by
  constructor
  · intro h
    exact absurd (h [] (by decide) (by decide)) (by decide)
  · intro h
    have hr : ∃ r, nestedRouteMap.pathMap.get [] = some r ∧ r.path = [] :=
      ⟨makeRecord { path := [], redirect := some 1 } none none, by decide, by decide⟩
    obtain ⟨r, hr, hp⟩ := hr
    have := h [] r hr (by decide)
    rw [hp] at this
    exact absurd this (by decide)

/-- C9, amended. For route configs compiled into empty tables whose top-level paths and
aliases are each empty, or begin with `/`, or are the wildcard `*` of a route without
children, every path in the returned `pathList` other than `*` is empty or begins with `/`,
and every record in `pathMap` under a key other than `*` has that key as its path, which is
empty or begins with `/`. (The configs `''` and `/` compile to the empty path.) -/
theorem createRouteMap_paths_rooted (routes : List RouteConfig)
    (h : ∀ route ∈ routes, topLevelOk route = true) :
    (∀ p ∈ (createRouteMap routes RouteMap.empty none).pathList, p ≠ star →
        p = [] ∨ p.head? = some '/')
      ∧ (∀ key r, (createRouteMap routes RouteMap.empty none).pathMap.get key = some r →
          key ≠ star → r.path = key ∧ (r.path = [] ∨ r.path.head? = some '/')) := by
  have hI := createRouteMap_pathsRooted routes h
  constructor
  · intro p hp hne
    rcases hI.1 p hp with hs | hr
    · exact absurd hs hne
    · exact (rooted_iff p).mp hr
  · intro key r hget hne
    have hm := hI.2 (key, r) (Dictionary.mem_of_get _ _ _ hget)
    refine ⟨hm.1, ?_⟩
    rcases hm.2 with hs | hr
    · exact absurd hs hne
    · rw [hm.1]
      exact (rooted_iff key).mp hr

set_option maxRecDepth 100000 in
/-- C9, amended, at the routes of the example app, whose top-level paths are `''`, `/` and
`/parent` with the aliases `/app` and `/ass`. -/
theorem createRouteMap_paths_rooted_witness :
    (∀ route ∈ nestedRoutes, topLevelOk route = true)
      ∧ (∀ p ∈ nestedRouteMap.pathList, p ≠ star → p = [] ∨ p.head? = some '/') :=
  ⟨by decide, (createRouteMap_paths_rooted nestedRoutes (by decide)).1⟩

/-! ## Trailing slashes -/

theorem getLast?_append_cons {α : Type} (l : List α) (a : α) (q : List α) :
    (l ++ a :: q).getLast? = (a :: q).getLast? := by
  induction l with
  | nil => rfl
  | cons x l ih =>
    cases hl : l ++ a :: q with
    | nil => simp at hl
    | cons y ys =>
      rw [List.cons_append, hl, List.getLast?_cons_cons, ← hl, ih]

theorem normalizePath_trailing_slash (path : Str) (parent : Option RouteRecord) :
    (normalizePath path parent false).getLast? = some '/'
      ↔ (stripTrailingSlash path).getLast? = some '/'
        ∨ (stripTrailingSlash path = [] ∧ parent.isSome = true) := by
  simp only [normalizePath, Bool.not_false, if_true]
  generalize stripTrailingSlash path = q
  cases parent with
  | none => simp
  | some p =>
    simp only [Option.isSome_some, and_true]
    split
    · rename_i h
      have hq : q ≠ [] := by
        intro hq
        rw [hq] at h
        cases h
      simp [hq]
    · rw [cleanPath_getLast, getLast?_append_cons]
      cases q with
      | nil => simp
      | cons c r => simp [List.getLast?_cons_cons]

/-- C10, as stated, fails on the example app: the default child `{ path: '' }` of `/parent`,
compiled without the strict option, has the path `/parent/`, which ends with `/` and is in
the compiled `pathList`. -/
theorem compiled_path_trailing_slash_counterexample :
    (({ path := [], component := some 2 } : RouteOptions).pathToRegexpOptions.getD {}).strict
        = false
      ∧ (makeRecord { path := [], component := some 2 } (some parentRecord) none).path
        = "/parent/".toList
      ∧ (makeRecord { path := [], component := some 2 } (some parentRecord) none).path.getLast?
        = some '/'
      ∧ "/parent/".toList ∈ nestedRouteMap.pathList := by
  refine ⟨by decide, by decide, by decide, ?_⟩
  set_option maxRecDepth 100000 in decide

/-- C10, amended. For a route config compiled without the strict option, at any depth and
under any parent, one trailing slash is removed from the configured path before the path is
joined to the parent's. The record's path ends with `/` exactly when the configured path
still ends with `/` after that removal, or is then empty and the route has a parent (the
record's path is then `cleanPath` of the parent's path followed by `/`); otherwise it does
not end with `/`. -/
theorem compiled_path_trailing_slash (o : RouteOptions) (parent : Option RouteRecord)
    (matchAs : Option Str) (hstrict : (o.pathToRegexpOptions.getD {}).strict = false) :
    (makeRecord o parent matchAs).path.getLast? = some '/'
      ↔ (stripTrailingSlash o.path).getLast? = some '/'
        ∨ (stripTrailingSlash o.path = [] ∧ parent.isSome = true) := by
  rw [makeRecord_path, hstrict]
  exact normalizePath_trailing_slash o.path parent

/-- C10, amended, at the child `{ path: 'foo/' }` of `/parent`: the trailing slash is removed
and the compiled path `/parent/foo` does not end with `/`. -/
theorem compiled_path_trailing_slash_witness :
    (({ path := "foo/".toList } : RouteOptions).pathToRegexpOptions.getD {}).strict = false
      ∧ (makeRecord { path := "foo/".toList } (some parentRecord) none).path.getLast?
        ≠ some '/' := by
  refine ⟨rfl, fun h => ?_⟩
  have h' :=
    (compiled_path_trailing_slash { path := "foo/".toList } (some parentRecord) none rfl).mp h
  revert h'
  decide

/-! ## The order of registration -/

theorem pushNew_append (l xs ys : List Str) :
    pushNew l (xs ++ ys) = pushNew (pushNew l xs) ys := by
  simp [pushNew, List.foldl_append]

theorem pushNew_of_nodup (l xs : List Str) (h : (l ++ xs).Nodup) : pushNew l xs = l ++ xs := by
  induction xs generalizing l with
  | nil => simp [pushNew]
  | cons x xs ih =>
    have hx : x ∉ l := by
      intro hx
      have := List.nodup_append.mp h
      exact this.2.2 hx (List.mem_cons_self _ _)
    have h' : ((l ++ [x]) ++ xs).Nodup := by simpa using h
    have := ih (l ++ [x]) h'
    simp only [pushNew, List.foldl_cons, hx, if_false] at this ⊢
    rw [this]
    simp

theorem Dictionary.get_cons (e : Str × RouteRecord) (d : Dictionary) (key : Str) :
    Dictionary.get (e :: d) key = if e.1 = key then some e.2 else Dictionary.get d key := by
  unfold Dictionary.get
  rw [List.find?_cons]
  by_cases he : e.1 = key
  · have : decide (e.1 = key) = true := by simpa using he
    rw [this, if_pos he]
    rfl
  · have : decide (e.1 = key) = false := by simpa using he
    rw [this, if_neg he]

theorem Dictionary.get_isNone_iff (d : Dictionary) (key : Str) :
    (Dictionary.get d key).isNone = true ↔ key ∉ Dictionary.keys d := by
  induction d with
  | nil => simp [Dictionary.get, Dictionary.keys]
  | cons e d ih =>
    rw [Dictionary.get_cons]
    have hk : Dictionary.keys (e :: d) = e.1 :: Dictionary.keys d := rfl
    rw [hk, List.mem_cons, not_or]
    by_cases he : e.1 = key
    · rw [if_pos he]
      constructor
      · intro h
        cases h
      · intro h
        exact absurd he.symm h.1
    · rw [if_neg he]
      constructor
      · intro h
        exact ⟨fun hh => he hh.symm, ih.mp h⟩
      · intro h
        exact ih.mpr h.2

theorem registerRecord_consistent (t : RouteMap) (record : RouteRecord) (name : Option Str)
    (ht : Consistent t) :
    Consistent (registerRecord t record name)
      ∧ (registerRecord t record name).pathList = pushNew t.pathList [record.path] := by
  unfold Consistent
  rw [registerRecord, registerName_pathList, registerName_pathMap]
  unfold registerPath
  have hiff := Dictionary.get_isNone_iff t.pathMap record.path
  rw [ht] at hiff
  split
  · rename_i habs
    have hmem := hiff.mp habs
    simp only [Dictionary.set_of_absent _ _ _ habs]
    constructor
    · simp only [Dictionary.keys, List.map_append, List.map_cons, List.map_nil]
      rw [show t.pathMap.map Prod.fst = t.pathList from ht]
    · simp [pushNew, hmem]
  · rename_i habs
    have hmem : record.path ∈ t.pathList := by
      by_contra hc
      exact habs (hiff.mpr hc)
    exact ⟨ht, by simp [pushNew, hmem]⟩

theorem foldl_pushNew {α : Type} (f : RouteMap → α → RouteMap) (g : α → List Str)
    (l : List α)
    (h : ∀ a ∈ l, ∀ t, Consistent t →
      Consistent (f t a) ∧ (f t a).pathList = pushNew t.pathList (g a)) :
    ∀ t, Consistent t →
      Consistent (l.foldl f t)
        ∧ (l.foldl f t).pathList = pushNew t.pathList ((l.map g).flatten) := by
  induction l with
  | nil =>
    intro t ht
    exact ⟨ht, by simp [pushNew]⟩
  | cons a l ih =>
    intro t ht
    have ha := h a (List.mem_cons_self _ _) t ht
    have hl := ih (fun b hb => h b (List.mem_cons_of_mem _ hb)) (f t a) ha.1
    simp only [List.foldl_cons, List.map_cons, List.flatten_cons, pushNew_append]
    exact ⟨hl.1, by rw [hl.2, ha.2]⟩

theorem childPaths_eq (cs : List RouteConfig) (record : RouteRecord) (m : Option Str) :
    childPaths cs record m
      = (cs.map (fun c => routePaths c (some record) (childMatchAs m c.opts.path))).flatten := by
  induction cs with
  | nil => simp [childPaths]
  | cons c cs ih => simp [childPaths, ih]

theorem childPairs_eq (cs : List RouteConfig) (record : RouteRecord) (m : Option Str) :
    childPairs cs record m
      = (cs.map (fun c => routePairs c (some record) (childMatchAs m c.opts.path))).flatten := by
  induction cs with
  | nil => simp [childPairs]
  | cons c cs ih => simp [childPairs, ih]

/-- The tables stay consistent under `addRouteRecord`, and `pathList` receives the paths of
the route's records in order, each unless it is there already. -/
theorem addRouteRecord_pathList (route : RouteConfig) :
    ∀ t parent m, Consistent t →
      Consistent (addRouteRecord t route parent m)
        ∧ (addRouteRecord t route parent m).pathList
            = pushNew t.pathList (routePaths route parent m) := by
  induction route using RouteConfig.induct with
  | h o cs ih =>
    intro t parent m ht
    have hkids : ∀ t' record m', Consistent t' →
        Consistent (addChildRecords t' cs record m')
          ∧ (addChildRecords t' cs record m').pathList
              = pushNew t'.pathList (childPaths cs record m') := by
      intro t' record m' ht'
      rw [addChildRecords_eq_foldl, childPaths_eq]
      exact foldl_pushNew
        (fun t c => addRouteRecord t c (some record) (childMatchAs m' c.opts.path))
        (fun c => routePaths c (some record) (childMatchAs m' c.opts.path)) cs
        (fun c hc t'' ht'' => ih c hc t'' _ _ ht'') t' ht'
    have hsteps : ∀ t' o' m', Consistent t' →
        Consistent (addRecordSteps (fun t r m => addChildRecords t cs r m) t' o' parent m')
          ∧ (addRecordSteps (fun t r m => addChildRecords t cs r m) t' o' parent m').pathList
              = pushNew t'.pathList
                  (childPaths cs (makeRecord o' parent m') m' ++ [(makeRecord o' parent m').path]) := by
      intro t' o' m' ht'
      have hk := hkids t' (makeRecord o' parent m') m' ht'
      have hr := registerRecord_consistent _ (makeRecord o' parent m') o'.name hk.1
      simp only [addRecordSteps]
      exact ⟨hr.1, by rw [hr.2, hk.2, pushNew_append]⟩
    have h0 := hsteps t o m ht
    have hal := foldl_pushNew
      (fun t a =>
        addRecordSteps (fun t r m => addChildRecords t cs r m) t { path := a } parent
          (some (pathOrSlash (makeRecord o parent m).path)))
      (fun a =>
        childPaths cs
            (makeRecord { path := a } parent (some (pathOrSlash (makeRecord o parent m).path)))
            (some (pathOrSlash (makeRecord o parent m).path))
          ++ [(makeRecord { path := a } parent
              (some (pathOrSlash (makeRecord o parent m).path))).path])
      (aliasList o.alias_) (fun a _ t' ht' => hsteps t' _ _ ht') _ h0.1
    rw [addRouteRecord_eq]
    refine ⟨hal.1, ?_⟩
    rw [hal.2, h0.2]
    simp only [routePaths, pushNew_append]

theorem createRouteMap_registrationOrder (routes : List RouteConfig) (old : RouteMap)
    (parentRoute : Option RouteRecord) (h : Consistent old) :
    registrationOrder routes old parentRoute
      = pushNew old.pathList (recordPaths routes parentRoute) := by
  have := foldl_pushNew (fun t route => addRouteRecord t route parentRoute none)
    (fun route => routePaths route parentRoute none) routes
    (fun a _ t ht => addRouteRecord_pathList a t parentRoute none ht) old h
  exact this.2

/-! ## Children before parents -/

theorem Before.append_left {c p : Str} {l : List Str} (a : List Str) (h : Before c p l) :
    Before c p (a ++ l) := by
  obtain ⟨l₁, l₂, l₃, rfl⟩ := h
  exact ⟨a ++ l₁, l₂, l₃, by simp⟩

theorem Before.append_right {c p : Str} {l : List Str} (b : List Str) (h : Before c p l) :
    Before c p (l ++ b) := by
  obtain ⟨l₁, l₂, l₃, rfl⟩ := h
  exact ⟨l₁, l₂, l₃ ++ b, by simp⟩

theorem Before.of_mem {c p : Str} {l : List Str} (h : c ∈ l) (b : List Str) :
    Before c p (l ++ p :: b) := by
  obtain ⟨l₁, l₂, rfl⟩ := List.append_of_mem h
  exact ⟨l₁, l₂, b, by simp⟩

theorem Before.flatten {c p : Str} {seg : List Str} {L : List (List Str)} (hs : seg ∈ L)
    (h : Before c p seg) : Before c p L.flatten := by
  obtain ⟨L₁, L₂, rfl⟩ := List.append_of_mem hs
  rw [List.flatten_append, List.flatten_cons]
  exact Before.append_left _ (Before.append_right _ h)

theorem Before.indices {c p : Str} {l : List Str} (h : Before c p l) :
    ∃ i j : Nat, i < j ∧ l[i]? = some c ∧ l[j]? = some p := by
  obtain ⟨l₁, l₂, l₃, rfl⟩ := h
  refine ⟨l₁.length, l₁.length + (l₂.length + 1), by omega, ?_, ?_⟩
  · rw [List.getElem?_append_right (Nat.le_refl _)]
    simp
  · rw [List.getElem?_append_right (by omega)]
    have : l₁.length + (l₂.length + 1) - l₁.length = l₂.length + 1 := by omega
    rw [this, List.getElem?_cons_succ, List.getElem?_append_right (Nat.le_refl _)]
    simp

theorem makeRecord_parent (o : RouteOptions) (parent : Option RouteRecord) (m : Option Str) :
    (makeRecord o parent m).parent = parent := by
  cases parent <;> rfl

theorem childPairs_before (cs : List RouteConfig)
    (ih : ∀ c ∈ cs, ∀ parent m, ∀ cp ∈ routePairs c parent m,
      Before cp.1 cp.2 (routePaths c parent m)
        ∨ ∃ P, parent = some P ∧ cp.2 = P.path ∧ cp.1 ∈ routePaths c parent m)
    (record : RouteRecord) (m : Option Str) :
    ∀ cp ∈ childPairs cs record m,
      Before cp.1 cp.2 (childPaths cs record m)
        ∨ (cp.2 = record.path ∧ cp.1 ∈ childPaths cs record m) := by
  intro cp hcp
  rw [childPairs_eq] at hcp
  rw [childPaths_eq]
  obtain ⟨seg, hseg, hmem⟩ := List.mem_flatten.mp hcp
  obtain ⟨c, hc, rfl⟩ := List.mem_map.mp hseg
  have hin : routePaths c (some record) (childMatchAs m c.opts.path)
      ∈ cs.map (fun c => routePaths c (some record) (childMatchAs m c.opts.path)) :=
    List.mem_map.mpr ⟨c, hc, rfl⟩
  rcases ih c hc _ _ cp hmem with h | ⟨P, hP, h2, h1⟩
  · exact Or.inl (Before.flatten hin h)
  · cases hP
    exact Or.inr ⟨h2, List.mem_flatten.mpr ⟨_, hin, h1⟩⟩

theorem segmentPairs_before (cs : List RouteConfig)
    (ih : ∀ c ∈ cs, ∀ parent m, ∀ cp ∈ routePairs c parent m,
      Before cp.1 cp.2 (routePaths c parent m)
        ∨ ∃ P, parent = some P ∧ cp.2 = P.path ∧ cp.1 ∈ routePaths c parent m)
    (o : RouteOptions) (parent : Option RouteRecord) (m : Option Str) :
    ∀ cp ∈ parentPair (makeRecord o parent m) ++ childPairs cs (makeRecord o parent m) m,
      Before cp.1 cp.2 (childPaths cs (makeRecord o parent m) m ++ [(makeRecord o parent m).path])
        ∨ ∃ P, parent = some P ∧ cp.2 = P.path
            ∧ cp.1 ∈ childPaths cs (makeRecord o parent m) m ++ [(makeRecord o parent m).path] := by
  intro cp hcp
  rcases List.mem_append.mp hcp with h | h
  · right
    unfold parentPair at h
    rw [makeRecord_parent] at h
    cases parent with
    | none => cases h
    | some P =>
      simp only [List.mem_singleton] at h
      subst h
      exact ⟨P, rfl, rfl, by simp⟩
  · left
    rcases childPairs_before cs ih _ m cp h with h | ⟨h2, h1⟩
    · exact Before.append_right _ h
    · rw [h2]
      exact Before.of_mem h1 []

/-- Every (child, parent) pair of a route's records is in order inside the route's own
paths, unless the parent is the record outside, and then the child is among the paths. -/
theorem routePairs_before (route : RouteConfig) :
    ∀ parent m, ∀ cp ∈ routePairs route parent m,
      Before cp.1 cp.2 (routePaths route parent m)
        ∨ ∃ P, parent = some P ∧ cp.2 = P.path ∧ cp.1 ∈ routePaths route parent m := by
  induction route using RouteConfig.induct with
  | h o cs ih =>
    intro parent m cp hcp
    simp only [routePairs, routePaths] at hcp ⊢
    rcases List.mem_append.mp hcp with h | h
    · rcases segmentPairs_before cs ih o parent m cp h with h | ⟨P, hP, h2, h1⟩
      · exact Or.inl (Before.append_right _ h)
      · exact Or.inr ⟨P, hP, h2, List.mem_append_left _ h1⟩
    · obtain ⟨seg, hseg, hmem⟩ := List.mem_flatten.mp h
      obtain ⟨a, ha, rfl⟩ := List.mem_map.mp hseg
      have hin : childPaths cs
            (makeRecord { path := a } parent (some (pathOrSlash (makeRecord o parent m).path)))
            (some (pathOrSlash (makeRecord o parent m).path))
          ++ [(makeRecord { path := a } parent
              (some (pathOrSlash (makeRecord o parent m).path))).path]
          ∈ (aliasList o.alias_).map
            (fun a =>
              childPaths cs
                  (makeRecord { path := a } parent
                    (some (pathOrSlash (makeRecord o parent m).path)))
                  (some (pathOrSlash (makeRecord o parent m).path))
                ++ [(makeRecord { path := a } parent
                    (some (pathOrSlash (makeRecord o parent m).path))).path]) :=
        List.mem_map.mpr ⟨a, ha, rfl⟩
      rcases segmentPairs_before cs ih { path := a } parent _ cp hmem with h | ⟨P, hP, h2, h1⟩
      · exact Or.inl (Before.append_left _ (Before.flatten hin h))
      · exact Or.inr ⟨P, hP, h2,
          List.mem_append_right _ (List.mem_flatten.mpr ⟨_, hin, h1⟩)⟩

theorem recordPairs_before (routes : List RouteConfig) :
    ∀ cp ∈ recordPairs routes none, Before cp.1 cp.2 (recordPaths routes none) := by
  intro cp hcp
  obtain ⟨seg, hseg, hmem⟩ := List.mem_flatten.mp hcp
  obtain ⟨route, hr, rfl⟩ := List.mem_map.mp hseg
  have hin : routePaths route none none
      ∈ routes.map (fun route => routePaths route none none) :=
    List.mem_map.mpr ⟨route, hr, rfl⟩
  rcases routePairs_before route none none cp hmem with h | ⟨P, hP, _, _⟩
  · exact Before.flatten hin h
  · cases hP

theorem createRouteMap_pathList_of_nodup (routes : List RouteConfig)
    (hd : (recordPaths routes none).Nodup) (hs : star ∉ recordPaths routes none) :
    (createRouteMap routes RouteMap.empty none).pathList = recordPaths routes none := by
  have hreg : registrationOrder routes RouteMap.empty none = recordPaths routes none := by
    rw [createRouteMap_registrationOrder routes RouteMap.empty none rfl]
    exact (pushNew_of_nodup [] _ (by simpa using hd)).trans (by simp [RouteMap.empty])
  have h1 : (createRouteMap routes RouteMap.empty none).pathList
      = (registrationOrder routes RouteMap.empty none).filter (fun p => p ≠ star)
        ++ (registrationOrder routes RouteMap.empty none).filter (fun p => p = star) := by
    simp only [createRouteMap, registrationOrder]
    exact moveWildcards_eq _
  rw [h1, hreg]
  have hall : (recordPaths routes none).filter (fun p => p ≠ star) = recordPaths routes none := by
    apply List.filter_eq_self.mpr
    intro p hp
    have : p ≠ star := fun h => hs (h ▸ hp)
    simpa using this
  have hnone : (recordPaths routes none).filter (fun p => p = star) = [] := by
    apply List.filter_eq_nil_iff.mpr
    intro p hp
    have : p ≠ star := fun h => hs (h ▸ hp)
    simpa using this
  rw [hall, hnone, List.append_nil]

/-- C8. For a route tree compiled by `createRouteMap` into empty tables, in which the
normalized paths of all records are pairwise distinct and none is `*`: `pathList` is the list
of the record paths in the order of their making, the path of every child record stands in
`pathList` at a smaller index than the path of its parent record, and so the path of every
descendant stands at a smaller index than the path of each of its ancestors. -/
theorem children_before_parents (routes : List RouteConfig)
    (hd : (recordPaths routes none).Nodup) (hs : star ∉ recordPaths routes none) :
    (createRouteMap routes RouteMap.empty none).pathList = recordPaths routes none
      ∧ (∀ c p, (c, p) ∈ recordPairs routes none →
          ∃ i j : Nat, i < j ∧ (createRouteMap routes RouteMap.empty none).pathList[i]? = some c
            ∧ (createRouteMap routes RouteMap.empty none).pathList[j]? = some p)
      ∧ (∀ d a, Relation.TransGen (fun c p => (c, p) ∈ recordPairs routes none) d a →
          ∃ i j : Nat, i < j ∧ (createRouteMap routes RouteMap.empty none).pathList[i]? = some d
            ∧ (createRouteMap routes RouteMap.empty none).pathList[j]? = some a) := by
  have hl := createRouteMap_pathList_of_nodup routes hd hs
  rw [hl]
  have hpair : ∀ c p, (c, p) ∈ recordPairs routes none →
      ∃ i j : Nat, i < j ∧ (recordPaths routes none)[i]? = some c
        ∧ (recordPaths routes none)[j]? = some p :=
    fun c p h => Before.indices (recordPairs_before routes (c, p) h)
  refine ⟨rfl, hpair, ?_⟩
  intro d a hda
  induction hda with
  | single h => exact hpair _ _ h
  | tail _ h ih =>
    obtain ⟨i, j, hij, hi, hj⟩ := ih
    obtain ⟨i', j', hij', hi', hj'⟩ := hpair _ _ h
    have hlt : j < (recordPaths routes none).length := by
      by_contra hc
      rw [List.getElem?_eq_none (by omega)] at hj
      cases hj
    have : j = i' := List.getElem?_inj hlt hd (hj.trans hi'.symm)
    exact ⟨i, j', by omega, hi, hj'⟩

/-- C8 at a route tree with distinct paths: `/parent` with two children and a grandchild, and
`/other` with an alias and a child. -/
theorem children_before_parents_witness :
    (recordPaths distinctRoutes none).Nodup ∧ star ∉ recordPaths distinctRoutes none
      ∧ (createRouteMap distinctRoutes RouteMap.empty none).pathList
        = recordPaths distinctRoutes none :=
  ⟨by decide, by decide, (children_before_parents distinctRoutes (by decide) (by decide)).1⟩

/-! ## Quiet changes of the history object -/

theorem Quiet.quiet_refl (h : History) : Quiet h h :=
  ⟨rfl, rfl, rfl, rfl, rfl, rfl, [], rfl, fun _ he => by cases he⟩

theorem Quiet.quiet_trans {h₁ h₂ h₃ : History} (a : Quiet h₁ h₂) (b : Quiet h₂ h₃) : Quiet h₁ h₃ := by
  obtain ⟨p1, c1, n1, r1, rc1, re1, es1, l1, q1⟩ := a
  obtain ⟨p2, c2, n2, r2, rc2, re2, es2, l2, q2⟩ := b
  refine ⟨p2.trans p1, c2.trans c1, n2.trans n1, r2.trans r1, rc2.trans rc1, re2.trans re1,
    es2 ++ es1, ?_, ?_⟩
  · rw [l2, l1, List.append_assoc]
  · intro e he
    rcases List.mem_append.mp he with he | he
    · exact q2 e he
    · exact q1 e he

theorem Quiet.logged (h : History) (e : Effect) (he : e.quiet = true) : Quiet h (h.logged e) :=
  ⟨rfl, rfl, rfl, rfl, rfl, rfl, [e], rfl, fun x hx => by rw [List.mem_singleton.mp hx]; exact he⟩

theorem Quiet.loggedAll (h : History) (es : List Effect) (hes : ∀ e ∈ es, e.quiet = true) :
    Quiet h (h.loggedAll es) :=
  ⟨rfl, rfl, rfl, rfl, rfl, rfl, es.reverse, rfl, fun x hx => hes x (List.mem_reverse.mp hx)⟩

theorem Quiet.quiet_ite {h : History} (c : Prop) [Decidable c] {a b : History} (ha : Quiet h a)
    (hb : Quiet h b) : Quiet h (if c then a else b) := by
  split
  · exact ha
  · exact hb

theorem ensureURL_quiet (r : Router) (h : History) (push : Bool) :
    Quiet h (ensureURL r h push) := by
  unfold ensureURL
  have h1 : Quiet h (h.logged (Effect.ensureURL push)) := Quiet.logged h _ rfl
  refine Quiet.quiet_trans h1 ?_
  refine Quiet.quiet_ite _ (Quiet.quiet_ite _ ?_ ?_) (Quiet.quiet_refl _)
  · exact ⟨rfl, rfl, rfl, rfl, rfl, rfl, [Effect.pushState _], rfl,
      fun x hx => by rw [List.mem_singleton.mp hx]; rfl⟩
  · exact ⟨rfl, rfl, rfl, rfl, rfl, rfl, [Effect.replaceState _], rfl,
      fun x hx => by rw [List.mem_singleton.mp hx]; rfl⟩

theorem callerCompleted_quiet (r : Router) (nav : Navigation) (h : History) :
    Quiet h (callerCompleted r nav h) := by
  have huser : ∀ (h' : History) (cb : Option Nat), Quiet h'
      (match cb with
        | some cb => h'.logged (Effect.onComplete cb nav.route)
        | none => h') := by
    intro h' cb
    cases cb with
    | none => exact Quiet.quiet_refl h'
    | some cb => exact Quiet.logged h' _ rfl
  unfold callerCompleted
  cases nav.completion with
  | push cb =>
    refine Quiet.quiet_trans ?_ (huser _ cb)
    exact ⟨rfl, rfl, rfl, rfl, rfl, rfl, [Effect.pushState _], rfl,
      fun x hx => by rw [List.mem_singleton.mp hx]; rfl⟩
  | replace cb =>
    refine Quiet.quiet_trans ?_ (huser _ cb)
    exact ⟨rfl, rfl, rfl, rfl, rfl, rfl, [Effect.replaceState _], rfl,
      fun x hx => by rw [List.mem_singleton.mp hx]; rfl⟩
  | popstate => exact Quiet.quiet_refl h

theorem enteredCallback_quiet (hook : Hook) (to_ : NextVal) (h : History) :
    Quiet h (enteredCallback hook to_ h) := by
  unfold enteredCallback
  split
  · exact Quiet.logged h _ rfl
  · exact Quiet.quiet_refl h

/-! ## Every change of the history object is a sequence of moves -/

theorem Moves.moves_refl (h : History) : Moves h h := Relation.ReflTransGen.refl

theorem Moves.moves_trans {h₁ h₂ h₃ : History} (a : Moves h₁ h₂) (b : Moves h₂ h₃) : Moves h₁ h₃ :=
  Relation.ReflTransGen.trans a b

theorem Moves.of_move {h h' : History} (m : Move h h') : Moves h h' :=
  Relation.ReflTransGen.single m

theorem Moves.of_quiet {h h' : History} (q : Quiet h h') : Moves h h' :=
  Moves.of_move (Move.quiet h h' q)

theorem Moves.moves_ite {h : History} (c : Prop) [Decidable c] {a b : History} (ha : Moves h a)
    (hb : Moves h b) : Moves h (if c then a else b) := by
  split
  · exact ha
  · exact hb

theorem Moves.invariant (I : History → Prop) (hI : ∀ h h', Move h h' → I h → I h')
    {h h' : History} (m : Moves h h') (hh : I h) : I h' := by
  induction m with
  | refl => exact hh
  | tail _ hm ih => exact hI _ _ hm ih

theorem flushReadyErrors_moves (nav : Navigation) (h : History) (err : Err) :
    Moves h (flushReadyErrors nav h err) := by
  unfold flushReadyErrors
  split
  · rename_i hc
    split
    · refine Moves.of_move (Move.flushError _ err ?_)
      simpa using hc.2
    · exact Moves.moves_refl _
  · exact Moves.moves_refl _

theorem transitionAborted_moves (nav : Navigation) (h : History) (err : Err) :
    Moves h (transitionAborted nav h err) := by
  unfold transitionAborted
  have h1 : Quiet h
      (match nav.onAbort with
        | some cb => h.logged (Effect.onAbort cb err)
        | none => h) := by
    cases nav.onAbort with
    | none => exact Quiet.quiet_refl h
    | some cb => exact Quiet.logged h _ rfl
  exact Moves.moves_trans (Moves.of_quiet h1) (flushReadyErrors_moves nav _ err)

theorem abort_moves (nav : Navigation) (h : History) (err : Err) :
    Moves h (abort nav h err) := by
  unfold abort
  refine Moves.moves_trans (Moves.of_quiet ?_) (transitionAborted_moves nav _ err)
  refine Quiet.quiet_ite _ (Quiet.quiet_ite _ ?_ (Quiet.logged h _ rfl)) (Quiet.quiet_refl _)
  exact Quiet.loggedAll h _ (fun x hx => by
    obtain ⟨cb, _, rfl⟩ := List.mem_map.mp hx
    rfl)

theorem flushReadyCbs_moves (nav : Navigation) (h : History) :
    Moves h (flushReadyCbs nav h) := by
  unfold flushReadyCbs
  split
  · rename_i hc
    refine Moves.of_move (Move.flushReady _ nav.route ?_)
    simpa using hc
  · exact Moves.moves_refl _

theorem afterHooksCalled_quiet (r : Router) (nav : Navigation) :
    ∀ e ∈ afterHooksCalled r nav, e.quiet = true := by
  intro e he
  unfold afterHooksCalled at he
  obtain ⟨hook, _, hh⟩ := List.mem_filterMap.mp he
  cases hook with
  | none => cases hh
  | some f =>
    simp only [Option.map_some', Option.some.injEq] at hh
    rw [← hh]
    rfl

theorem updateRoute_commit (h : History) (route : Route) (hp : h.pending = some route) :
    Moves h (updateRoute (setPending none h) route) := by
  have m1 := Moves.of_move (Move.commit h route hp)
  refine Moves.moves_trans m1 ?_
  unfold updateRoute setPending
  dsimp only
  cases h.cb with
  | none => exact Moves.moves_refl _
  | some cb => exact Moves.of_quiet (Quiet.logged _ _ rfl)

theorem transitionCompleted_moves (r : Router) (nav : Navigation) (h : History)
    (hp : h.pending = some nav.route) :
    Moves h (transitionCompleted r nav (setPending none h)) := by
  unfold transitionCompleted
  refine Moves.moves_trans (updateRoute_commit h nav.route hp) ?_
  refine Moves.moves_trans (Moves.of_quiet (callerCompleted_quiet r nav _)) ?_
  refine Moves.moves_trans (Moves.of_quiet (ensureURL_quiet r _ false)) ?_
  refine Moves.moves_trans (Moves.of_quiet (Quiet.loggedAll _ _ (afterHooksCalled_quiet r nav))) ?_
  exact flushReadyCbs_moves nav _

theorem complete_moves (r : Router) (nav : Navigation) (h : History) :
    Moves h (complete r nav h) := by
  unfold complete
  split
  · exact abort_moves nav h _
  · rename_i hp
    have hp' : h.pending = some nav.route := by
      by_contra hc
      exact hp hc
    refine Moves.moves_trans (transitionCompleted_moves r nav h hp') ?_
    exact Moves.moves_ite _ (Moves.of_quiet (Quiet.logged _ _ rfl)) (Moves.moves_refl _)

theorem nextCallback_moves (r : Router) (nav : Navigation) (hook : Hook) (h : History)
    (to_ : NextVal) : Moves h (nextCallback r nav hook h to_).state := by
  have he := Moves.of_quiet (enteredCallback_quiet hook to_ h)
  have hred : ∀ (location : RawLocation) (replace : Bool), Moves h
      (Called.returns
        { abort nav (enteredCallback hook to_ h)
            (Err.failure NavigationFailureType.redirected nav.current nav.route) with
          redirect := some (location, replace)
          log := (if replace then Effect.replace location else Effect.push location)
            :: (abort nav (enteredCallback hook to_ h)
              (Err.failure NavigationFailureType.redirected nav.current nav.route)).log }).state := by
    intro location replace
    refine Moves.moves_trans he (Moves.moves_trans (abort_moves nav _
      (Err.failure NavigationFailureType.redirected nav.current nav.route)) (Moves.of_quiet ?_))
    refine ⟨rfl, rfl, rfl, rfl, rfl, rfl, [_], rfl, fun x hx => ?_⟩
    rw [List.mem_singleton.mp hx]
    cases replace <;> rfl
  have hab : ∀ err, Moves h (abort nav (ensureURL r (enteredCallback hook to_ h) true) err) :=
    fun err => Moves.moves_trans he
      (Moves.moves_trans (Moves.of_quiet (ensureURL_quiet r _ true)) (abort_moves nav _ err))
  unfold nextCallback
  cases to_ with
  | undefined => exact he
  | null => exact he
  | bool b =>
    cases b with
    | false => exact hab _
    | true => exact he
  | number n => exact he
  | string s => exact hred _ _
  | func f => exact he
  | error e => exact hab _
  | object path name replace =>
    dsimp only
    split
    · exact hred _ _
    · exact he

theorem iterator_moves (r : Router) (nav : Navigation) (second : Bool) (hook : Hook)
    (rest : List (Option Hook)) (h : History) :
    Moves h (iterator r nav second hook rest h).state := by
  unfold iterator
  split
  · exact abort_moves nav h _
  · have hl : Moves h (h.logged (Effect.hook hook nav.route nav.current)) :=
      Moves.of_quiet (Quiet.logged _ _ rfl)
    dsimp only
    split
    · refine Moves.moves_trans hl (Moves.of_quiet ?_)
      exact ⟨rfl, rfl, rfl, rfl, rfl, rfl, [], rfl, fun _ hx => by cases hx⟩
    · exact Moves.moves_trans hl (abort_moves nav _ _)
    · rename_i to_ _
      have hn := nextCallback_moves r nav hook
        (h.logged (Effect.hook hook nav.route nav.current)) to_
      split
      · rename_i h' heq
        rw [heq] at hn
        exact Moves.moves_trans hl hn
      · rename_i h' heq
        rw [heq] at hn
        exact Moves.moves_trans hl hn
      · rename_i h' e heq
        rw [heq] at hn
        exact Moves.moves_trans hl (Moves.moves_trans hn (abort_moves nav _ _))

theorem runQueue_moves (r : Router) (nav : Navigation) (second : Bool)
    (cb : History → History) (hcb : ∀ h, Moves h (cb h)) (queue : List (Option Hook)) :
    ∀ h, Moves h (runQueue r nav second cb queue h) := by
  induction queue with
  | nil => intro h; exact hcb h
  | cons entry rest ih =>
    intro h
    cases entry with
    | none => exact ih h
    | some hook =>
      have hi := iterator_moves r nav second hook rest h
      simp only [runQueue]
      split
      · rename_i h' heq
        rw [heq] at hi
        exact Moves.moves_trans hi (ih h')
      · rename_i h' heq
        rw [heq] at hi
        exact hi

theorem runSecondQueue_moves (r : Router) (nav : Navigation) (h : History) :
    Moves h (runSecondQueue r nav h) :=
  runQueue_moves r nav true _ (complete_moves r nav) _ h

theorem transitionTo_moves (r : Router) (h : History) (location : RawLocation)
    (completion : Completion) (onAbort : Option Nat) :
    Moves h (transitionTo r h location completion onAbort) := by
  unfold transitionTo confirmTransition
  refine Moves.moves_trans (Moves.of_move
    (Move.start h (r.matchRoute location h.current).1 (r.matchRoute location h.current).2)) ?_
  exact runQueue_moves r _ false _ (runSecondQueue_moves r _) _ _

theorem resume_moves (r : Router) (h : History) (k : Continuation) (to_ : NextVal) :
    Moves h (resume r h k to_) := by
  have hn := nextCallback_moves r k.nav k.hook h to_
  unfold resume
  split
  · rename_i h' heq
    rw [heq] at hn
    refine Moves.moves_trans hn ?_
    split
    · exact runQueue_moves r _ true _ (complete_moves r _) _ _
    · exact runQueue_moves r _ false _ (runSecondQueue_moves r _) _ _
  · rename_i h' heq
    rw [heq] at hn
    exact hn
  · rename_i h' e heq
    rw [heq] at hn
    exact Moves.moves_trans hn (Moves.of_quiet (Quiet.logged _ _ rfl))

theorem handle_moves (r : Router) (h : History) (ev : Event) : Moves h (handle r h ev) := by
  cases ev with
  | push location onComplete onAbort => exact transitionTo_moves r h _ _ _
  | replace location onComplete onAbort => exact transitionTo_moves r h _ _ _
  | popstate url =>
    have hq : Quiet h { h with url := url } :=
      ⟨rfl, rfl, rfl, rfl, rfl, rfl, [], rfl, fun _ hx => by cases hx⟩
    simp only [handle]
    split
    · exact Moves.of_quiet hq
    · exact Moves.moves_trans (Moves.of_quiet hq) (transitionTo_moves r _ _ _ _)
  | next k to_ => exact resume_moves r h k to_
  | onReady cb errorCb =>
    simp only [handle, onReady]
    split
    · exact Moves.of_quiet (Quiet.logged _ _ rfl)
    · rename_i hr
      exact Moves.of_move (Move.register h cb errorCb (by simpa using hr))
  | onError errorCb =>
    exact Moves.of_quiet ⟨rfl, rfl, rfl, rfl, rfl, rfl, [], rfl, fun _ hx => by cases hx⟩
  | listen cb =>
    exact Moves.of_quiet ⟨rfl, rfl, rfl, rfl, rfl, rfl, [], rfl, fun _ hx => by cases hx⟩

theorem step_moves (r : Router) {h h' : History} (s : Step r h h') : Moves h h' := by
  cases s with
  | redirect location replace hr =>
    have hq : Quiet h { h with redirect := none } :=
      ⟨rfl, rfl, rfl, rfl, rfl, rfl, [], rfl, fun _ hx => by cases hx⟩
    exact Moves.moves_trans (Moves.of_quiet hq) (handle_moves r _ _)
  | event ev _ _ => exact handle_moves r h ev

theorem reaches_moves (r : Router) {h₀ h : History} (run : Reaches r h₀ h) : Moves h₀ h := by
  induction run with
  | start => exact Moves.moves_refl _
  | step h h' _ s ih => exact Moves.moves_trans ih (step_moves r s)

/-! ## A superseded navigation -/

theorem nextCallback_continues (r : Router) (nav : Navigation) (hook : Hook) (h : History)
    (to_ : NextVal) (hto : continuesQueue to_ = true) :
    nextCallback r nav hook h to_ = Called.continues (enteredCallback hook to_ h) := by
  cases to_ with
  | undefined => rfl
  | null => cases hto
  | bool b =>
    cases b with
    | false => cases hto
    | true => rfl
  | number n => rfl
  | string s => cases hto
  | func f => rfl
  | error e => cases hto
  | object path name replace =>
    have hc : ¬ (path.isSome = true ∨ name.isSome = true) := by
      simpa [continuesQueue] using hto
    simp only [nextCallback, hc, if_false]

theorem enteredCallback_pending (hook : Hook) (to_ : NextVal) (h : History) :
    (enteredCallback hook to_ h).pending = h.pending :=
  (enteredCallback_quiet hook to_ h).1

theorem complete_superseded (r : Router) (nav : Navigation) (h : History)
    (hp : h.pending ≠ some nav.route) :
    complete r nav h
      = abort nav h (Err.failure NavigationFailureType.cancelled nav.current nav.route) := by
  simp only [complete, hp, ne_eq, not_false_eq_true, if_true]

theorem runQueue_superseded (r : Router) (nav : Navigation) (second : Bool)
    (cb : History → History)
    (hcb : ∀ h, h.pending ≠ some nav.route →
      cb h = abort nav h (Err.failure NavigationFailureType.cancelled nav.current nav.route))
    (queue : List (Option Hook)) :
    ∀ h, h.pending ≠ some nav.route →
      runQueue r nav second cb queue h
        = abort nav h (Err.failure NavigationFailureType.cancelled nav.current nav.route) := by
  induction queue with
  | nil => intro h hp; exact hcb h hp
  | cons entry rest ih =>
    intro h hp
    cases entry with
    | none => exact ih h hp
    | some hook => simp only [runQueue, iterator, hp, ne_eq, not_false_eq_true, if_true]

theorem resume_superseded (r : Router) (h : History) (k : Continuation) (to_ : NextVal)
    (hsup : h.pending ≠ some k.nav.route) (hto : continuesQueue to_ = true) :
    resume r h k to_
      = abort k.nav (enteredCallback k.hook to_ h)
          (Err.failure NavigationFailureType.cancelled k.nav.current k.nav.route) := by
  have hp : (enteredCallback k.hook to_ h).pending ≠ some k.nav.route := by
    rw [enteredCallback_pending]
    exact hsup
  simp only [resume, nextCallback_continues r k.nav k.hook h to_ hto]
  split
  · exact runQueue_superseded r k.nav true _ (fun h' hp' => complete_superseded r k.nav h' hp')
      _ _ hp
  · refine runQueue_superseded r k.nav false _ (fun h' hp' => ?_) _ _ hp
    exact runQueue_superseded r k.nav true _
      (fun h'' hp'' => complete_superseded r k.nav h'' hp'') _ _ hp'

theorem abort_failure (nav : Navigation) (h : History) (type : NavigationFailureType)
    (a b : Route) :
    abort nav h (Err.failure type a b) = transitionAborted nav h (Err.failure type a b) := by
  simp [abort, isNavigationFailure]

theorem flushReadyErrors_frame (nav : Navigation) (h : History) (err : Err) :
    (flushReadyErrors nav h err).current = h.current
      ∧ (flushReadyErrors nav h err).pending = h.pending
      ∧ (flushReadyErrors nav h err).url = h.url
      ∧ (flushReadyErrors nav h err).redirect = h.redirect
      ∧ (flushReadyErrors nav h err).nextId = h.nextId
      ∧ (flushReadyErrors nav h err).suspended = h.suspended
      ∧ ∃ es, (flushReadyErrors nav h err).log = es ++ h.log
          ∧ ∀ e ∈ es, Effect.reportsOnly err e = true := by
  unfold flushReadyErrors
  split
  · split
    · refine ⟨rfl, rfl, rfl, rfl, rfl, rfl,
        (h.readyErrorCbs.map (fun cb => Effect.readyErrorCb cb err)).reverse ++ [Effect.ready],
        by simp [History.loggedAll, setReady], ?_⟩
      intro e he
      rcases List.mem_append.mp he with he | he
      · obtain ⟨cb, _, rfl⟩ := List.mem_map.mp (List.mem_reverse.mp he)
        simp [Effect.reportsOnly]
      · rw [List.mem_singleton.mp he]
        rfl
    · exact ⟨rfl, rfl, rfl, rfl, rfl, rfl, [], rfl, fun _ he => by cases he⟩
  · exact ⟨rfl, rfl, rfl, rfl, rfl, rfl, [], rfl, fun _ he => by cases he⟩

theorem transitionAborted_frame (nav : Navigation) (h : History) (err : Err) :
    (transitionAborted nav h err).current = h.current
      ∧ (transitionAborted nav h err).pending = h.pending
      ∧ (transitionAborted nav h err).url = h.url
      ∧ (transitionAborted nav h err).redirect = h.redirect
      ∧ (transitionAborted nav h err).nextId = h.nextId
      ∧ (transitionAborted nav h err).suspended = h.suspended
      ∧ ∃ es, (transitionAborted nav h err).log = es ++ h.log
          ∧ ∀ e ∈ es, Effect.reportsOnly err e = true := by
  unfold transitionAborted
  cases nav.onAbort with
  | none => exact flushReadyErrors_frame nav h err
  | some cb =>
    obtain ⟨c, p, u, rd, n, s, es, hl, hes⟩ :=
      flushReadyErrors_frame nav (h.logged (Effect.onAbort cb err)) err
    refine ⟨c, p, u, rd, n, s, es ++ [Effect.onAbort cb err], ?_, ?_⟩
    · dsimp only
      rw [hl]
      simp [History.logged]
    · intro e he
      rcases List.mem_append.mp he with he | he
      · exact hes e he
      · rw [List.mem_singleton.mp he]
        simp [Effect.reportsOnly]

theorem enteredCallback_frame (hook : Hook) (to_ : NextVal) (h : History) (err : Err) :
    (enteredCallback hook to_ h).current = h.current
      ∧ (enteredCallback hook to_ h).pending = h.pending
      ∧ (enteredCallback hook to_ h).url = h.url
      ∧ (enteredCallback hook to_ h).redirect = h.redirect
      ∧ (enteredCallback hook to_ h).nextId = h.nextId
      ∧ (enteredCallback hook to_ h).suspended = h.suspended
      ∧ ∃ es, (enteredCallback hook to_ h).log = es ++ h.log
          ∧ ∀ e ∈ es, Effect.reportsOnly err e = true := by
  unfold enteredCallback
  split
  · refine ⟨rfl, rfl, rfl, rfl, rfl, rfl, [_], rfl, fun e he => ?_⟩
    rw [List.mem_singleton.mp he]
    rfl
  · exact ⟨rfl, rfl, rfl, rfl, rfl, rfl, [], rfl, fun _ he => by cases he⟩

set_option maxRecDepth 100000 in
/-- C6, as stated, fails. In the example run the navigation to `/a` is suspended in its
before hook and is superseded by a navigation to `/c`. When the hook of the first navigation
then calls `next(false)`, the callback runs `ensureURL(true)`, which pushes `/` over the
browser's `/c`, and reports an aborted (not a cancelled) failure; when it calls
`next('/login')` instead, the callback reports a redirected failure and calls `push`, and
that navigation replaces the pending one and is confirmed. -/
theorem superseded_next_counterexample :
    demoNextA ∈ demoPushA.suspended
      ∧ demoNextA ∈ demoSuperseded.suspended
      ∧ demoSuperseded.pending = some ⟨2, "/c".toList, []⟩
      ∧ demoSuperseded.pending ≠ some demoNextA.nav.route
      ∧ demoSuperseded.url = "/c".toList
      ∧ (resume demoRouter demoSuperseded demoNextA (NextVal.bool false)).url = ['/']
      ∧ (resume demoRouter demoSuperseded demoNextA (NextVal.bool false)).log
        = [Effect.ready,
            Effect.onAbort 101 (Err.failure NavigationFailureType.aborted START demoRouteA),
            Effect.pushState ['/'], Effect.ensureURL true] ++ demoSuperseded.log
      ∧ (resume demoRouter demoSuperseded demoNextA (NextVal.string "/login".toList)).log
        = [Effect.push (RawLocation.str "/login".toList),
            Effect.onAbort 101 (Err.failure NavigationFailureType.redirected START demoRouteA)]
          ++ demoSuperseded.log
      ∧ (resume demoRouter demoSuperseded demoNextA (NextVal.string "/login".toList)).redirect
        = some (RawLocation.str "/login".toList, false)
      ∧ (handle demoRouter
          { resume demoRouter demoSuperseded demoNextA (NextVal.string "/login".toList) with
            redirect := none }
          (Event.push (RawLocation.str "/login".toList) none none)).current
        = ⟨3, "/login".toList, []⟩ := by
  decide

/-- C6, amended. When a navigation has been superseded (`pending` is no longer its route) and
one of its guards then calls `next` with a value that continues the queue (not `false`, not an
`Error`, not a location, not `null`), the call ends as cancelled: the result is the abort of
the navigation with a cancelled failure, `current`, `pending`, the browser URL and the
pending redirect call are unchanged, and the only effects are the report of the cancelled
failure to `onAbort` and to the ready-error callbacks (and, for an enter guard called with a
function, the recording of that function): no `ensureURL`, no `pushState` or `replaceState`,
no `push` or `replace`. -/
theorem superseded_next_cancelled (r : Router) (h : History) (k : Continuation) (to_ : NextVal)
    (hsup : h.pending ≠ some k.nav.route) (hto : continuesQueue to_ = true) :
    resume r h k to_
        = abort k.nav (enteredCallback k.hook to_ h)
            (Err.failure NavigationFailureType.cancelled k.nav.current k.nav.route)
      ∧ (resume r h k to_).current = h.current
      ∧ (resume r h k to_).pending = h.pending
      ∧ (resume r h k to_).url = h.url
      ∧ (resume r h k to_).redirect = h.redirect
      ∧ ∃ es, (resume r h k to_).log = es ++ h.log
          ∧ ∀ e ∈ es,
            Effect.reportsOnly
              (Err.failure NavigationFailureType.cancelled k.nav.current k.nav.route) e = true := by
  have hres := resume_superseded r h k to_ hsup hto
  obtain ⟨c1, p1, u1, rd1, _, _, es1, l1, q1⟩ := enteredCallback_frame k.hook to_ h
    (Err.failure NavigationFailureType.cancelled k.nav.current k.nav.route)
  obtain ⟨c2, p2, u2, rd2, _, _, es2, l2, q2⟩ := transitionAborted_frame k.nav
    (enteredCallback k.hook to_ h)
    (Err.failure NavigationFailureType.cancelled k.nav.current k.nav.route)
  rw [← abort_failure] at c2 p2 u2 rd2 l2
  rw [hres]
  refine ⟨rfl, c2.trans c1, p2.trans p1, u2.trans u1, rd2.trans rd1, es2 ++ es1, ?_, ?_⟩
  · rw [l2, l1, List.append_assoc]
  · intro e he
    rcases List.mem_append.mp he with he | he
    · exact q2 e he
    · exact q1 e he

set_option maxRecDepth 100000 in
/-- C6, amended, in the example run: the superseded first navigation's hook calls `next()`,
and only the cancelled failure is reported. -/
theorem superseded_next_cancelled_witness :
    demoSuperseded.pending ≠ some demoNextA.nav.route
      ∧ continuesQueue NextVal.undefined = true
      ∧ (resume demoRouter demoSuperseded demoNextA NextVal.undefined).url = demoSuperseded.url
      ∧ (resume demoRouter demoSuperseded demoNextA NextVal.undefined).pending
        = demoSuperseded.pending :=
  ⟨by decide, rfl,
    (superseded_next_cancelled demoRouter demoSuperseded demoNextA NextVal.undefined
      (by decide) rfl).2.2.2.1,
    (superseded_next_cancelled demoRouter demoSuperseded demoNextA NextVal.undefined
      (by decide) rfl).2.2.1⟩

/-! ## Latest request wins -/

theorem Effect.assigns_of_quiet (e : Effect) (he : e.quiet = true) : e.assigns = false := by
  cases e <;> first | rfl | cases he

theorem trace_extend (p₀ : Option Route) (c₀ : Route) (es' es : List Effect)
    (hna : ∀ e ∈ es', e.assigns = false) :
    (CommitsGuarded p₀ (es' ++ es) ↔ CommitsGuarded p₀ es)
      ∧ pendingAfter p₀ (es' ++ es) = pendingAfter p₀ es
      ∧ currentAfter c₀ (es' ++ es) = currentAfter c₀ es := by
  induction es' with
  | nil => exact ⟨Iff.rfl, rfl, rfl⟩
  | cons e es' ih =>
    have he := hna e (List.mem_cons_self _ _)
    have ih' := ih (fun x hx => hna x (List.mem_cons_of_mem _ hx))
    cases e <;> first | exact ih' | exact absurd he (by simp [Effect.assigns])

/-- The trace of a run from `h₀`: the effects added since, with every commit guarded, and
with the logged assignments giving the values of `pending` and `current`. -/
theorem trace_invariant (h₀ : History) {h h' : History} (m : Move h h')
    (hh : ∃ es, h.log = es ++ h₀.log ∧ CommitsGuarded h₀.pending es
      ∧ pendingAfter h₀.pending es = h.pending ∧ currentAfter h₀.current es = h.current) :
    ∃ es, h'.log = es ++ h₀.log ∧ CommitsGuarded h₀.pending es
      ∧ pendingAfter h₀.pending es = h'.pending ∧ currentAfter h₀.current es = h'.current := by
  obtain ⟨es, hl, hg, hp, hc⟩ := hh
  have ext : ∀ es' : List Effect, (∀ e ∈ es', e.assigns = false) →
      CommitsGuarded h₀.pending (es' ++ es)
        ∧ pendingAfter h₀.pending (es' ++ es) = h.pending
        ∧ currentAfter h₀.current (es' ++ es) = h.current := by
    intro es' hna
    obtain ⟨a, b, c⟩ := trace_extend h₀.pending h₀.current es' es hna
    exact ⟨a.mpr hg, b.trans hp, c.trans hc⟩
  cases m with
  | quiet _ q =>
    obtain ⟨qp, qc, _, _, _, _, es', ql, qq⟩ := q
    obtain ⟨a, b, c⟩ := ext es' (fun e he => Effect.assigns_of_quiet e (qq e he))
    exact ⟨es' ++ es, by rw [ql, hl, List.append_assoc], a, b.trans qp.symm, c.trans qc.symm⟩
  | start fullPath matched =>
    exact ⟨Effect.pending (some ⟨h.nextId, fullPath, matched⟩) :: es,
      by simp [setPending, hl], hg, rfl, hc⟩
  | commit route hpr =>
    refine ⟨Effect.current route :: Effect.pending none :: es, by simp [hl], ?_, rfl, rfl⟩
    exact ⟨⟨es, rfl, hp.trans hpr⟩, hg⟩
  | flushReady route hr =>
    obtain ⟨a, b, c⟩ := ext
      ((h.readyCbs.map (fun cb => Effect.readyCb cb route)).reverse ++ [Effect.ready])
      (fun e he => by
        rcases List.mem_append.mp he with he | he
        · obtain ⟨cb, _, rfl⟩ := List.mem_map.mp (List.mem_reverse.mp he)
          rfl
        · rw [List.mem_singleton.mp he]
          rfl)
    exact ⟨_, by simp [History.loggedAll, setReady, hl], a, b, c⟩
  | flushError err hr =>
    obtain ⟨a, b, c⟩ := ext
      ((h.readyErrorCbs.map (fun cb => Effect.readyErrorCb cb err)).reverse ++ [Effect.ready])
      (fun e he => by
        rcases List.mem_append.mp he with he | he
        · obtain ⟨cb, _, rfl⟩ := List.mem_map.mp (List.mem_reverse.mp he)
          rfl
        · rw [List.mem_singleton.mp he]
          rfl)
    exact ⟨_, by simp [History.loggedAll, setReady, hl], a, b, c⟩
  | register cb errorCb hr => exact ⟨es, hl, hg, hp, hc⟩

/-- Once a route object is not pending and is older than every route object still to be
made, it is never pending again and is never assigned to `current`. -/
theorem superseded_invariant (h₀ : History) (route : Route) {h h' : History} (m : Move h h')
    (hh : h.pending ≠ some route ∧ route.id < h.nextId
      ∧ ∃ es, h.log = es ++ h₀.log ∧ Effect.current route ∉ es) :
    h'.pending ≠ some route ∧ route.id < h'.nextId
      ∧ ∃ es, h'.log = es ++ h₀.log ∧ Effect.current route ∉ es := by
  obtain ⟨hp, hn, es, hl, hc⟩ := hh
  cases m with
  | quiet _ q =>
    obtain ⟨qp, _, qn, _, _, _, es', ql, qq⟩ := q
    refine ⟨by rw [qp]; exact hp, by rw [qn]; exact hn, es' ++ es,
      by rw [ql, hl, List.append_assoc], ?_⟩
    intro hmem
    rcases List.mem_append.mp hmem with hm | hm
    · exact absurd (qq _ hm) (by simp [Effect.quiet])
    · exact hc hm
  | start fullPath matched =>
    refine ⟨?_, Nat.lt_succ_of_lt hn, Effect.pending (some ⟨h.nextId, fullPath, matched⟩) :: es,
      by simp [setPending, hl], ?_⟩
    · intro heq
      simp only [setPending, Option.some.injEq] at heq
      rw [← heq] at hn
      exact Nat.lt_irrefl _ hn
    · intro hmem
      rcases List.mem_cons.mp hmem with hm | hm
      · cases hm
      · exact hc hm
  | commit route' hpr =>
    refine ⟨by simp, hn, Effect.current route' :: Effect.pending none :: es, by simp [hl], ?_⟩
    intro hmem
    rcases List.mem_cons.mp hmem with hm | hm
    · have : route = route' := by
        injection hm
      rw [this] at hp
      exact hp hpr
    · rcases List.mem_cons.mp hm with hm | hm
      · cases hm
      · exact hc hm
  | flushReady route' hr =>
    refine ⟨hp, hn,
      (h.readyCbs.map (fun cb => Effect.readyCb cb route')).reverse ++ Effect.ready :: es,
      by simp [History.loggedAll, setReady, hl], ?_⟩
    intro hmem
    rcases List.mem_append.mp hmem with hm | hm
    · obtain ⟨cb, _, hcb⟩ := List.mem_map.mp (List.mem_reverse.mp hm)
      cases hcb
    · rcases List.mem_cons.mp hm with hm | hm
      · cases hm
      · exact hc hm
  | flushError err hr =>
    refine ⟨hp, hn,
      (h.readyErrorCbs.map (fun cb => Effect.readyErrorCb cb err)).reverse ++ Effect.ready :: es,
      by simp [History.loggedAll, setReady, hl], ?_⟩
    intro hmem
    rcases List.mem_append.mp hmem with hm | hm
    · obtain ⟨cb, _, hcb⟩ := List.mem_map.mp (List.mem_reverse.mp hm)
      cases hcb
    · rcases List.mem_cons.mp hm with hm | hm
      · cases hm
      · exact hc hm
  | register cb errorCb hr => exact ⟨hp, hn, es, hl, hc⟩

theorem enteredCallback_undefined (hook : Hook) (h : History) :
    enteredCallback hook NextVal.undefined h = h := by
  cases hook <;> rfl

theorem abort_current (nav : Navigation) (h : History) (type : NavigationFailureType)
    (a b : Route) : (abort nav h (Err.failure type a b)).current = h.current := by
  rw [abort_failure]
  exact (transitionAborted_frame nav h _).1

/-- C5. Latest request wins. In every run of the engine from any state `h₀`, the log of the
assignments shows that `current` is set to a route only directly after `pending`, which was
that same route, has been cleared by the completion check (nothing happens between the check
`pending === route`, the assignment `pending = null` and the assignment `current = route`).
Hence a navigation that has been superseded in `h₀` (its route is no longer pending) is never
pending again and never sets `current` in the rest of the run, and when a suspended guard of
it calls `next()` the navigation ends as cancelled and `current` is unchanged. -/
theorem latest_request_wins (r : Router) (h₀ h : History) (run : Reaches r h₀ h) :
    (∃ es, h.log = es ++ h₀.log ∧ CommitsGuarded h₀.pending es
        ∧ pendingAfter h₀.pending es = h.pending ∧ currentAfter h₀.current es = h.current)
      ∧ ∀ k : Continuation, h₀.pending ≠ some k.nav.route → k.nav.route.id < h₀.nextId →
          h.pending ≠ some k.nav.route
            ∧ (∃ es, h.log = es ++ h₀.log ∧ Effect.current k.nav.route ∉ es)
            ∧ resume r h k NextVal.undefined
              = abort k.nav h
                  (Err.failure NavigationFailureType.cancelled k.nav.current k.nav.route)
            ∧ (resume r h k NextVal.undefined).current = h.current := by
  have hm := reaches_moves r run
  constructor
  · exact Moves.invariant _ (fun _ _ m hh => trace_invariant h₀ m hh) hm
      ⟨[], rfl, trivial, rfl, rfl⟩
  · intro k hk hid
    have hs := Moves.invariant _ (fun _ _ m hh => superseded_invariant h₀ k.nav.route m hh) hm
      ⟨hk, hid, [], rfl, by simp⟩
    have hres := resume_superseded r h k NextVal.undefined hs.1 rfl
    rw [enteredCallback_undefined] at hres
    refine ⟨hs.1, hs.2.2, hres, ?_⟩
    rw [hres]
    exact abort_current _ _ _ _ _

set_option maxRecDepth 100000 in
/-- C5 in the example run, from the state in which the navigation to `/a` has been superseded
by the navigation to `/c`, after one more event (a listener is registered). -/
theorem latest_request_wins_witness :
    Reaches demoRouter demoSuperseded (handle demoRouter demoSuperseded (Event.listen 3))
      ∧ demoSuperseded.pending ≠ some demoNextA.nav.route
      ∧ demoNextA.nav.route.id < demoSuperseded.nextId
      ∧ (resume demoRouter (handle demoRouter demoSuperseded (Event.listen 3)) demoNextA
          NextVal.undefined).current
        = (handle demoRouter demoSuperseded (Event.listen 3)).current :=
  have run : Reaches demoRouter demoSuperseded
      (handle demoRouter demoSuperseded (Event.listen 3)) :=
    Reaches.step _ _ Reaches.start
      (Step.event demoSuperseded (Event.listen 3) (by decide) (fun _ _ hev => by cases hev))
  ⟨run, by decide, by decide,
    ((latest_request_wins demoRouter demoSuperseded _ run).2 demoNextA (by decide)
      (by decide)).2.2.2⟩

/-! ## A navigation whose guards all continue -/

theorem Adds.adds_trans {es₁ es₂ : List Effect} {h₁ h₂ h₃ : History} (a : Adds es₁ h₁ h₂)
    (b : Adds es₂ h₂ h₃) : Adds (es₂ ++ es₁) h₁ h₃ := by
  unfold Adds at *
  rw [b, a, List.append_assoc]

theorem Adds.entries_eq {es : List Effect} {h h' : History} (a : Adds es h h') :
    newEntries h h' = es := by
  unfold Adds at a
  unfold VueRouter.newEntries
  rw [a]
  simp

theorem enteredCallback_adds (hook : Hook) (to_ : NextVal) (h : History) :
    ∃ es, Adds es h (enteredCallback hook to_ h) ∧ es.filter Effect.isReport = [] := by
  unfold enteredCallback
  split
  · exact ⟨[_], rfl, rfl⟩
  · exact ⟨[], rfl, rfl⟩

theorem passStep_facts (r : Router) (nav : Navigation) (entry : Option Hook) (h : History) :
    ∃ es, Adds es h
        (match entry with
          | none => h
          | some hook =>
            match r.react hook nav.route nav.current with
            | Reaction.callsNext to_ =>
              enteredCallback hook to_ (h.logged (Effect.hook hook nav.route nav.current))
            | _ => h)
      ∧ es.filter Effect.isReport = []
      ∧ (∀ hook to_, entry = some hook →
          r.react hook nav.route nav.current = Reaction.callsNext to_ →
          Effect.hook hook nav.route nav.current ∈ es) := by
  cases entry with
  | none => exact ⟨[], rfl, rfl, fun _ _ he => by cases he⟩
  | some hook =>
    dsimp only
    cases hr : r.react hook nav.route nav.current with
    | suspends => exact ⟨[], rfl, rfl, fun hk to_ he hre => by cases he; rw [hr] at hre; cases hre⟩
    | throws e => exact ⟨[], rfl, rfl, fun hk to_ he hre => by cases he; rw [hr] at hre; cases hre⟩
    | callsNext to_ =>
      dsimp only
      obtain ⟨es0, a0, f0⟩ := enteredCallback_adds hook to_
        (h.logged (Effect.hook hook nav.route nav.current))
      refine ⟨es0 ++ [Effect.hook hook nav.route nav.current], ?_, ?_, ?_⟩
      · unfold Adds at *
        rw [a0]
        simp [History.logged]
      · rw [List.filter_append, f0]
        rfl
      · intro hk _ he _
        cases he
        simp

theorem passHooks_cons (r : Router) (nav : Navigation) (entry : Option Hook)
    (rest : List (Option Hook)) (h : History) :
    passHooks r nav (entry :: rest) h
      = passHooks r nav rest
          (match entry with
            | none => h
            | some hook =>
              match r.react hook nav.route nav.current with
              | Reaction.callsNext to_ =>
                enteredCallback hook to_ (h.logged (Effect.hook hook nav.route nav.current))
              | _ => h) := rfl

theorem passHooks_facts (r : Router) (nav : Navigation) (queue : List (Option Hook)) :
    ∀ h, ∃ es, Adds es h (passHooks r nav queue h)
      ∧ es.filter Effect.isReport = []
      ∧ (AllContinue r nav queue → ∀ hook, some hook ∈ queue →
          Effect.hook hook nav.route nav.current ∈ es) := by
  induction queue with
  | nil => intro h; exact ⟨[], rfl, rfl, fun _ _ hm => by cases hm⟩
  | cons entry rest ih =>
    intro h
    obtain ⟨es1, a1, f1, m1⟩ := passStep_facts r nav entry h
    obtain ⟨es2, a2, f2, m2⟩ := ih _
    rw [passHooks_cons]
    refine ⟨es2 ++ es1, Adds.adds_trans a1 a2, by rw [List.filter_append, f1, f2]; rfl, ?_⟩
    intro hall hook hm
    rcases List.mem_cons.mp hm with hm | hm
    · obtain ⟨to_, hre, _⟩ := hall hook (List.mem_cons.mpr (Or.inl hm))
      exact List.mem_append_right _ (m1 hook to_ hm.symm hre)
    · exact List.mem_append_left _
        (m2 (fun hk hkm => hall hk (List.mem_cons_of_mem _ hkm)) hook hm)

theorem passHooks_quiet (r : Router) (nav : Navigation) (queue : List (Option Hook)) :
    ∀ h, Quiet h (passHooks r nav queue h) := by
  induction queue with
  | nil => intro h; exact Quiet.quiet_refl h
  | cons entry rest ih =>
    intro h
    rw [passHooks_cons]
    refine Quiet.quiet_trans ?_ (ih _)
    cases entry with
    | none => exact Quiet.quiet_refl h
    | some hook =>
      dsimp only
      split
      · exact Quiet.quiet_trans (Quiet.logged h (Effect.hook hook nav.route nav.current) rfl)
          (enteredCallback_quiet _ _ _)
      · exact Quiet.quiet_refl h

theorem runQueue_passHooks (r : Router) (nav : Navigation) (second : Bool)
    (cb : History → History) (queue : List (Option Hook)) :
    ∀ h, h.pending = some nav.route → AllContinue r nav queue →
      runQueue r nav second cb queue h = cb (passHooks r nav queue h) := by
  induction queue with
  | nil => intro h _ _; rfl
  | cons entry rest ih =>
    intro h hp hall
    have hrest : AllContinue r nav rest := fun hk hkm => hall hk (List.mem_cons_of_mem _ hkm)
    rw [passHooks_cons]
    cases entry with
    | none => exact ih h hp hrest
    | some hook =>
      obtain ⟨to_, hre, hto⟩ := hall hook (List.mem_cons_self _ _)
      have hp' : (enteredCallback hook to_
          (h.logged (Effect.hook hook nav.route nav.current))).pending = some nav.route := by
        rw [enteredCallback_pending]
        exact hp
      have hit : iterator r nav second hook rest h
          = Iterated.next (enteredCallback hook to_
              (h.logged (Effect.hook hook nav.route nav.current))) := by
        simp only [iterator, hp, ne_eq, not_true_eq_false, if_false, hre,
          nextCallback_continues r nav hook _ to_ hto]
      simp only [runQueue, hit, hre]
      exact ih _ hp' hrest

theorem complete_of_pending (r : Router) (nav : Navigation) (h : History)
    (hp : h.pending = some nav.route) : complete r nav h = committed r nav h := by
  simp only [complete, hp, ne_eq, not_true_eq_false, if_false, committed]

theorem transitionTo_allContinue (r : Router) (h : History) (location : RawLocation)
    (completion : Completion) (onAbort : Option Nat)
    (h1 : AllContinue r (navigationOf r h location completion onAbort)
      (firstQueue r (navigationOf r h location completion onAbort)))
    (h2 : AllContinue r (navigationOf r h location completion onAbort)
      (secondQueue r (navigationOf r h location completion onAbort))) :
    transitionTo r h location completion onAbort
      = committed r (navigationOf r h location completion onAbort)
          (passHooks r (navigationOf r h location completion onAbort)
            (secondQueue r (navigationOf r h location completion onAbort))
            (passHooks r (navigationOf r h location completion onAbort)
              (firstQueue r (navigationOf r h location completion onAbort))
              (setPending (some (navigationOf r h location completion onAbort).route)
                { h with nextId := h.nextId + 1 }))) := by
  have hq1 := passHooks_quiet r (navigationOf r h location completion onAbort)
    (firstQueue r (navigationOf r h location completion onAbort))
    (setPending (some (navigationOf r h location completion onAbort).route)
      { h with nextId := h.nextId + 1 })
  have hq2 := passHooks_quiet r (navigationOf r h location completion onAbort)
    (secondQueue r (navigationOf r h location completion onAbort))
    (passHooks r (navigationOf r h location completion onAbort)
      (firstQueue r (navigationOf r h location completion onAbort))
      (setPending (some (navigationOf r h location completion onAbort).route)
        { h with nextId := h.nextId + 1 }))
  have e1 := runQueue_passHooks r (navigationOf r h location completion onAbort) false
    (runSecondQueue r (navigationOf r h location completion onAbort))
    (firstQueue r (navigationOf r h location completion onAbort))
    (setPending (some (navigationOf r h location completion onAbort).route)
      { h with nextId := h.nextId + 1 }) rfl h1
  have e2 := runQueue_passHooks r (navigationOf r h location completion onAbort) true
    (complete r (navigationOf r h location completion onAbort))
    (secondQueue r (navigationOf r h location completion onAbort)) _ (hq1.1.trans rfl) h2
  have e3 := complete_of_pending r (navigationOf r h location completion onAbort) _
    (hq2.1.trans (hq1.1.trans rfl))
  show confirmTransition r (navigationOf r h location completion onAbort)
    { h with nextId := h.nextId + 1 } = _
  unfold confirmTransition
  rw [e1]
  unfold runSecondQueue
  rw [e2, e3]

theorem Reports.reports_trans {rs₁ rs₂ : List Effect} {h₁ h₂ h₃ : History} (a : Reports rs₁ h₁ h₂)
    (b : Reports rs₂ h₂ h₃) : Reports (rs₂ ++ rs₁) h₁ h₃ := by
  obtain ⟨c1, p1, es1, a1, f1⟩ := a
  obtain ⟨c2, p2, es2, a2, f2⟩ := b
  exact ⟨c2.trans c1, p2.trans p1, es2 ++ es1, Adds.adds_trans a1 a2,
    by rw [List.filter_append, f1, f2]⟩

theorem Reports.reports_refl (h : History) : Reports [] h h := ⟨rfl, rfl, [], rfl, rfl⟩

theorem passHooks_reports (r : Router) (nav : Navigation) (queue : List (Option Hook))
    (h : History) : Reports [] h (passHooks r nav queue h) := by
  obtain ⟨es, a, f, _⟩ := passHooks_facts r nav queue h
  have q := passHooks_quiet r nav queue h
  exact ⟨q.2.1, q.1, es, a, f⟩

theorem enteredCallback_reports (hook : Hook) (to_ : NextVal) (h : History) :
    Reports [] h (enteredCallback hook to_ h) := by
  obtain ⟨es, a, f⟩ := enteredCallback_adds hook to_ h
  have q := enteredCallback_quiet hook to_ h
  exact ⟨q.2.1, q.1, es, a, f⟩

theorem callerCompleted_reports (r : Router) (nav : Navigation) (h : History) :
    Reports (completionCalls nav) h (callerCompleted r nav h) := by
  have q := callerCompleted_quiet r nav h
  refine ⟨q.2.1, q.1, ?_⟩
  unfold callerCompleted completionCalls Completion.callback
  cases nav.completion with
  | push cb =>
    cases cb with
    | none => exact ⟨[Effect.pushState _], rfl, rfl⟩
    | some cb => exact ⟨[Effect.onComplete cb nav.route, Effect.pushState _], rfl, rfl⟩
  | replace cb =>
    cases cb with
    | none => exact ⟨[Effect.replaceState _], rfl, rfl⟩
    | some cb => exact ⟨[Effect.onComplete cb nav.route, Effect.replaceState _], rfl, rfl⟩
  | popstate => exact ⟨[], rfl, rfl⟩

theorem ensureURL_reports (r : Router) (h : History) (push : Bool) :
    Reports [] h (ensureURL r h push) := by
  have q := ensureURL_quiet r h push
  refine ⟨q.2.1, q.1, ?_⟩
  unfold ensureURL
  dsimp only
  split
  · split
    · exact ⟨[Effect.pushState _, Effect.ensureURL push], rfl, rfl⟩
    · exact ⟨[Effect.replaceState _, Effect.ensureURL push], rfl, rfl⟩
  · exact ⟨[Effect.ensureURL push], rfl, rfl⟩

theorem afterHooksCalled_filter (r : Router) (nav : Navigation) :
    (afterHooksCalled r nav).reverse.filter Effect.isReport
      = (afterHooksCalled r nav).reverse := by
  apply List.filter_eq_self.mpr
  intro e he
  unfold afterHooksCalled at he
  obtain ⟨hook, _, hh⟩ := List.mem_filterMap.mp (List.mem_reverse.mp he)
  cases hook with
  | none => cases hh
  | some f =>
    simp only [Option.map_some', Option.some.injEq] at hh
    rw [← hh]
    rfl

theorem afterHooks_reports (r : Router) (nav : Navigation) (h : History) :
    Reports (afterHooksCalled r nav).reverse h (h.loggedAll (afterHooksCalled r nav)) :=
  ⟨rfl, rfl, (afterHooksCalled r nav).reverse, rfl, afterHooksCalled_filter r nav⟩

theorem flushReadyCbs_reports (nav : Navigation) (h : History) :
    Reports [] h (flushReadyCbs nav h) := by
  unfold flushReadyCbs
  split
  · refine ⟨rfl, rfl, (h.readyCbs.map (fun cb => Effect.readyCb cb nav.route)).reverse
      ++ [Effect.ready], by simp [Adds, History.loggedAll, setReady], ?_⟩
    apply List.filter_eq_nil_iff.mpr
    intro e he
    rcases List.mem_append.mp he with he | he
    · obtain ⟨cb, _, rfl⟩ := List.mem_map.mp (List.mem_reverse.mp he)
      simp [Effect.isReport]
    · rw [List.mem_singleton.mp he]
      simp [Effect.isReport]
  · exact Reports.reports_refl h

/-- What a commit does: `current` is the route of the navigation, `pending` is null, and the
reports are the caller's `onComplete` followed by the after hooks in their order. -/
theorem committed_facts (r : Router) (nav : Navigation) (h : History) :
    (committed r nav h).current = nav.route ∧ (committed r nav h).pending = none
      ∧ ∃ es, Adds es h (committed r nav h)
        ∧ es.filter Effect.isReport = (afterHooksCalled r nav).reverse ++ completionCalls nav := by
  have s1 : (updateRoute (setPending none h) nav.route).current = nav.route
      ∧ (updateRoute (setPending none h) nav.route).pending = none
      ∧ ∃ es, Adds es h (updateRoute (setPending none h) nav.route)
        ∧ es.filter Effect.isReport = [] := by
    unfold updateRoute setPending
    dsimp only
    cases h.cb with
    | none => exact ⟨rfl, rfl, [_, _], rfl, rfl⟩
    | some cb => exact ⟨rfl, rfl, [_, _, _], rfl, rfl⟩
  have s2 := callerCompleted_reports r nav (updateRoute (setPending none h) nav.route)
  have s3 := ensureURL_reports r
    (callerCompleted r nav (updateRoute (setPending none h) nav.route)) false
  have s4 := afterHooks_reports r nav
    (ensureURL r (callerCompleted r nav (updateRoute (setPending none h) nav.route)) false)
  have s5 := flushReadyCbs_reports nav
    ((ensureURL r (callerCompleted r nav (updateRoute (setPending none h) nav.route))
      false).loggedAll (afterHooksCalled r nav))
  have s6 : Reports []
      (transitionCompleted r nav (setPending none h)) (committed r nav h) := by
    unfold committed
    dsimp only
    split
    · exact ⟨rfl, rfl, [_], rfl, rfl⟩
    · exact Reports.reports_refl _
  have chain : Reports ([] ++ ([] ++ ((afterHooksCalled r nav).reverse ++ ([] ++ completionCalls nav))))
      (updateRoute (setPending none h) nav.route) (committed r nav h) :=
    Reports.reports_trans (Reports.reports_trans (Reports.reports_trans (Reports.reports_trans s2 s3) s4) s5) s6
  simp only [List.nil_append] at chain
  obtain ⟨c, p, es, a, f⟩ := chain
  obtain ⟨c1, p1, es1, a1, f1⟩ := s1
  refine ⟨c.trans c1, p.trans p1, es ++ es1, Adds.adds_trans a1 a, ?_⟩
  rw [List.filter_append, f, f1, List.append_nil]

theorem resume_allContinue (r : Router) (h : History) (k : Continuation) (to_ : NextVal)
    (hp : h.pending = some k.nav.route) (hto : continuesQueue to_ = true)
    (hrest : AllContinue r k.nav k.rest)
    (hsec : k.second = false → AllContinue r k.nav (secondQueue r k.nav)) :
    ∃ h', Reports [] h h' ∧ h'.pending = some k.nav.route
      ∧ resume r h k to_ = committed r k.nav h' := by
  have r0 := enteredCallback_reports k.hook to_ h
  have hp0 : (enteredCallback k.hook to_ h).pending = some k.nav.route := r0.2.1.trans hp
  have r1 := passHooks_reports r k.nav k.rest (enteredCallback k.hook to_ h)
  have hp1 := r1.2.1.trans hp0
  simp only [resume, nextCallback_continues r k.nav k.hook h to_ hto]
  cases hs : k.second with
  | true =>
    simp only [if_true]
    rw [runQueue_passHooks r k.nav true _ k.rest _ hp0 hrest,
      complete_of_pending r k.nav _ hp1]
    exact ⟨_, Reports.reports_trans r0 r1, hp1, rfl⟩
  | false =>
    have r2 := passHooks_reports r k.nav (secondQueue r k.nav)
      (passHooks r k.nav k.rest (enteredCallback k.hook to_ h))
    have hp2 := r2.2.1.trans hp1
    simp only [Bool.false_eq_true, if_false]
    rw [runQueue_passHooks r k.nav false _ k.rest _ hp0 hrest]
    unfold runSecondQueue
    rw [runQueue_passHooks r k.nav true _ _ _ hp1 (hsec hs),
      complete_of_pending r k.nav _ hp2]
    exact ⟨_, Reports.reports_trans (Reports.reports_trans r0 r1) r2, hp2, rfl⟩

theorem committed_after (r : Router) (nav : Navigation) (h h' : History)
    (hr : ∃ es, Adds es h h' ∧ es.filter Effect.isReport = []) :
    (committed r nav h').current = nav.route ∧ (committed r nav h').pending = none
      ∧ (newEntries h (committed r nav h')).filter Effect.isReport
          = (afterHooksCalled r nav).reverse ++ completionCalls nav := by
  obtain ⟨es0, a0, f0⟩ := hr
  obtain ⟨c, p, es, a, f⟩ := committed_facts r nav h'
  refine ⟨c, p, ?_⟩
  rw [Adds.entries_eq (Adds.adds_trans a0 a), List.filter_append, f, f0, List.append_nil]

theorem AllContinue.of_check (r : Router) (nav : Navigation) (queue : List (Option Hook))
    (h : allContinue r nav queue = true) : AllContinue r nav queue := by
  intro hook hm
  unfold allContinue at h
  have := List.all_eq_true.mp h (some hook) hm
  dsimp only at this
  cases hr : r.react hook nav.route nav.current with
  | callsNext to_ =>
    rw [hr] at this
    exact ⟨to_, rfl, this⟩
  | throws e => rw [hr] at this; cases this
  | suspends => rw [hr] at this; cases this

theorem startNavigation_adds (h : History) (route : Route) :
    ∃ es, Adds es h (setPending (some route) { h with nextId := h.nextId + 1 })
      ∧ es.filter Effect.isReport = [] :=
  ⟨[Effect.pending (some route)], rfl, rfl⟩

theorem confirmed_navigation_of_allContinue (r : Router) (h : History)
    (location : RawLocation) (completion : Completion) (onAbort : Option Nat)
    (h1 : AllContinue r (navigationOf r h location completion onAbort)
      (firstQueue r (navigationOf r h location completion onAbort)))
    (h2 : AllContinue r (navigationOf r h location completion onAbort)
      (secondQueue r (navigationOf r h location completion onAbort))) :
    (transitionTo r h location completion onAbort).current
        = (navigationOf r h location completion onAbort).route
      ∧ (transitionTo r h location completion onAbort).pending = none
      ∧ (newEntries h (transitionTo r h location completion onAbort)).filter Effect.isReport
          = (afterHooksCalled r (navigationOf r h location completion onAbort)).reverse
            ++ completionCalls (navigationOf r h location completion onAbort) := by
  rw [transitionTo_allContinue r h location completion onAbort h1 h2]
  apply committed_after
  obtain ⟨es0, a0, f0⟩ := startNavigation_adds h
    (navigationOf r h location completion onAbort).route
  obtain ⟨es1, a1, f1, _⟩ := passHooks_facts r (navigationOf r h location completion onAbort)
    (firstQueue r (navigationOf r h location completion onAbort))
    (setPending (some (navigationOf r h location completion onAbort).route)
      { h with nextId := h.nextId + 1 })
  obtain ⟨es2, a2, f2, _⟩ := passHooks_facts r (navigationOf r h location completion onAbort)
    (secondQueue r (navigationOf r h location completion onAbort))
    (passHooks r (navigationOf r h location completion onAbort)
      (firstQueue r (navigationOf r h location completion onAbort))
      (setPending (some (navigationOf r h location completion onAbort).route)
        { h with nextId := h.nextId + 1 }))
  exact ⟨_, Adds.adds_trans (Adds.adds_trans a0 a1) a2,
    by rw [List.filter_append, List.filter_append, f0, f1, f2]; rfl⟩

/-- C17. When a navigation is ended by an event of the kind `Confirms` (all guards of both
queues continue, either at once within `transitionTo` or, for the last suspended guard, by a
call of `next` while the navigation is still pending), then afterwards `current` is the
candidate route and `pending` is null, and the reports made by the event are, in the order
of time: one call of the caller's `onComplete` with the candidate (when the caller gave
one), then one call of every registered after hook, in the order of registration, with the
candidate and the route that was current when `transitionTo` started; no `onAbort`. -/
theorem confirmed_navigation (r : Router) (h h' : History) (nav : Navigation)
    (hc : Confirms r h nav h') :
    h'.current = nav.route ∧ h'.pending = none
      ∧ (newEntries h h').filter Effect.isReport
          = (afterHooksCalled r nav).reverse ++ completionCalls nav := by
  cases hc with
  | direct location completion onAbort h1 h2 =>
    exact confirmed_navigation_of_allContinue r h location completion onAbort h1 h2
  | resumed k to_ hp hto hrest hsec =>
    obtain ⟨hq, rq, _, heq⟩ := resume_allContinue r h k to_ hp hto hrest hsec
    rw [heq]
    apply committed_after
    exact rq.2.2

set_option maxRecDepth 100000 in
/-- C17 in the example run: `push('/parent', cb 100, cb 101)` from the start; the before
hook continues, the navigation is confirmed, `onComplete` 100 and then the after hook 9 are
called. -/
theorem confirmed_navigation_witness :
    Confirms demoRouter demoStart
        (navigationOf demoRouter demoStart (RawLocation.str "/parent".toList)
          (Completion.push (some 100)) (some 101))
        demoAtParent
      ∧ demoAtParent.current = ⟨1, "/parent".toList, [parentRecord]⟩
      ∧ demoAtParent.pending = none
      ∧ (newEntries demoStart demoAtParent).filter Effect.isReport
        = [Effect.afterHook 9 ⟨1, "/parent".toList, [parentRecord]⟩ START,
            Effect.onComplete 100 ⟨1, "/parent".toList, [parentRecord]⟩] :=
  have hc : Confirms demoRouter demoStart
      (navigationOf demoRouter demoStart (RawLocation.str "/parent".toList)
        (Completion.push (some 100)) (some 101))
      demoAtParent :=
    Confirms.direct _ _ _ (AllContinue.of_check _ _ _ (by decide))
      (AllContinue.of_check _ _ _ (by decide))
  ⟨hc, (confirmed_navigation demoRouter demoStart demoAtParent _ hc).1,
    (confirmed_navigation demoRouter demoStart demoAtParent _ hc).2.1,
    (confirmed_navigation demoRouter demoStart demoAtParent _ hc).2.2⟩

/-! ## Navigation to the current route -/

theorem commonPrefixLength_self {R : Type} [DecidableEq R] (l : List R) :
    commonPrefixLength l l = l.length := by
  induction l with
  | nil => rfl
  | cons a l ih => simp [commonPrefixLength, ih]

theorem resolveQueue_self {R : Type} [DecidableEq R] (l : List R) :
    resolveQueue l l = { updated := l, activated := [], deactivated := [] } := by
  unfold resolveQueue
  dsimp only
  rw [resolveQueueLoop_eq, commonPrefixLength_self]
  simp

theorem firstQueue_same (r : Router) (nav : Navigation)
    (hm : nav.route.matched = nav.current.matched) :
    firstQueue r nav
      = r.beforeHooks.map (fun g => some (Hook.guard g))
        ++ extractUpdateHooks r.views nav.current.matched
        ++ [some (Hook.asyncComponents [])] := by
  unfold firstQueue
  rw [hm, resolveQueue_self]
  simp [extractLeaveGuards, extractGuards, flatMapComponents, flatten]

theorem secondQueue_same (r : Router) (nav : Navigation)
    (hm : nav.route.matched = nav.current.matched) :
    secondQueue r nav = r.resolveHooks.map (fun g => some (Hook.guard g)) := by
  unfold secondQueue
  rw [hm, resolveQueue_self]
  simp [extractEnterGuards, extractGuards, flatMapComponents, flatten]

set_option maxRecDepth 100000 in
/-- C4, as stated, fails: `confirmTransition` has no check for a navigation to the current
route. In the example run the current route is `/parent`; after `push('/parent', cb 200,
cb 201)`, whose candidate has the same path and the same matched chain, the before hook 7 has
been run, `onComplete` 200 and the after hook 9 have been called, no `onAbort` has been
called, and `current` is the new route object. -/
theorem duplicate_navigation_counterexample :
    demoRouter.matchRoute (RawLocation.str "/parent".toList) demoAtParent.current
        = (demoAtParent.current.fullPath, demoAtParent.current.matched)
      ∧ demoAtParent.current = ⟨1, "/parent".toList, [parentRecord]⟩
      ∧ (handle demoRouter demoAtParent
          (Event.push (RawLocation.str "/parent".toList) (some 200) (some 201))).current
        = ⟨2, "/parent".toList, [parentRecord]⟩
      ∧ (newEntries demoAtParent
          (handle demoRouter demoAtParent
            (Event.push (RawLocation.str "/parent".toList) (some 200)
              (some 201)))).filter Effect.isReport
        = [Effect.afterHook 9 ⟨2, "/parent".toList, [parentRecord]⟩
              ⟨1, "/parent".toList, [parentRecord]⟩,
            Effect.onComplete 200 ⟨2, "/parent".toList, [parentRecord]⟩]
      ∧ Effect.hook (Hook.guard 7) ⟨2, "/parent".toList, [parentRecord]⟩
          ⟨1, "/parent".toList, [parentRecord]⟩
        ∈ (handle demoRouter demoAtParent
            (Event.push (RawLocation.str "/parent".toList) (some 200) (some 201))).log := by
  decide

/-- C4, amended. A `transitionTo` whose matched candidate has the path and the matched chain
of the current route is treated like any other navigation; no duplicated failure is made.
The diff gives no deactivated and no activated record, so the first queue holds the global
before hooks, the update guards of the matched chain and the resolver of async components,
and the second queue holds the global resolve hooks. When all of these continue, every one
of them is run, the navigation is confirmed, `current` becomes the candidate (a new route
object equal to the old one in path and matched chain), `pending` is null, and the reports
are `onComplete` and the after hooks: `onAbort` is not called. -/
theorem same_route_navigation (r : Router) (h : History) (location : RawLocation)
    (completion : Completion) (onAbort : Option Nat)
    (hsame : r.matchRoute location h.current = (h.current.fullPath, h.current.matched))
    (h1 : AllContinue r (navigationOf r h location completion onAbort)
      (firstQueue r (navigationOf r h location completion onAbort)))
    (h2 : AllContinue r (navigationOf r h location completion onAbort)
      (secondQueue r (navigationOf r h location completion onAbort))) :
    firstQueue r (navigationOf r h location completion onAbort)
        = r.beforeHooks.map (fun g => some (Hook.guard g))
          ++ extractUpdateHooks r.views h.current.matched
          ++ [some (Hook.asyncComponents [])]
      ∧ secondQueue r (navigationOf r h location completion onAbort)
        = r.resolveHooks.map (fun g => some (Hook.guard g))
      ∧ (transitionTo r h location completion onAbort).current
        = ⟨h.nextId, h.current.fullPath, h.current.matched⟩
      ∧ (transitionTo r h location completion onAbort).pending = none
      ∧ (newEntries h (transitionTo r h location completion onAbort)).filter Effect.isReport
        = (afterHooksCalled r (navigationOf r h location completion onAbort)).reverse
          ++ completionCalls (navigationOf r h location completion onAbort)
      ∧ ∀ hook,
          some hook ∈ firstQueue r (navigationOf r h location completion onAbort)
              ++ secondQueue r (navigationOf r h location completion onAbort) →
          Effect.hook hook ⟨h.nextId, h.current.fullPath, h.current.matched⟩ h.current
            ∈ newEntries h (transitionTo r h location completion onAbort) := by
  have hroute : (navigationOf r h location completion onAbort).route
      = ⟨h.nextId, h.current.fullPath, h.current.matched⟩ := by
    simp [navigationOf, hsame]
  have hm : (navigationOf r h location completion onAbort).route.matched
      = (navigationOf r h location completion onAbort).current.matched := by
    rw [hroute]
    rfl
  have hconf := confirmed_navigation_of_allContinue r h location completion onAbort h1 h2
  obtain ⟨es0, a0, _⟩ := startNavigation_adds h
    (navigationOf r h location completion onAbort).route
  obtain ⟨es1, a1, _, m1⟩ := passHooks_facts r (navigationOf r h location completion onAbort)
    (firstQueue r (navigationOf r h location completion onAbort))
    (setPending (some (navigationOf r h location completion onAbort).route)
      { h with nextId := h.nextId + 1 })
  obtain ⟨es2, a2, _, m2⟩ := passHooks_facts r (navigationOf r h location completion onAbort)
    (secondQueue r (navigationOf r h location completion onAbort))
    (passHooks r (navigationOf r h location completion onAbort)
      (firstQueue r (navigationOf r h location completion onAbort))
      (setPending (some (navigationOf r h location completion onAbort).route)
        { h with nextId := h.nextId + 1 }))
  obtain ⟨_, _, es3, a3, _⟩ := committed_facts r (navigationOf r h location completion onAbort)
    (passHooks r (navigationOf r h location completion onAbort)
      (secondQueue r (navigationOf r h location completion onAbort))
      (passHooks r (navigationOf r h location completion onAbort)
        (firstQueue r (navigationOf r h location completion onAbort))
        (setPending (some (navigationOf r h location completion onAbort).route)
          { h with nextId := h.nextId + 1 })))
  have hnew := Adds.entries_eq (Adds.adds_trans (Adds.adds_trans (Adds.adds_trans a0 a1) a2) a3)
  rw [← transitionTo_allContinue r h location completion onAbort h1 h2] at hnew
  refine ⟨firstQueue_same r _ hm, secondQueue_same r _ hm, ?_, hconf.2.1, hconf.2.2, ?_⟩
  · rw [hconf.1, hroute]
  · intro hook hmem
    rw [hnew, ← hroute]
    rcases List.mem_append.mp hmem with hq | hq
    · exact List.mem_append_right _
        (List.mem_append_right _ (List.mem_append_left _ (m1 h1 hook hq)))
    · exact List.mem_append_right _ (List.mem_append_left _ (m2 h2 hook hq))

set_option maxRecDepth 100000 in
/-- C4, amended, in the example run: the second `push('/parent')` is confirmed. -/
theorem same_route_navigation_witness :
    demoRouter.matchRoute (RawLocation.str "/parent".toList) demoAtParent.current
        = (demoAtParent.current.fullPath, demoAtParent.current.matched)
      ∧ (transitionTo demoRouter demoAtParent (RawLocation.str "/parent".toList)
          (Completion.push (some 200)) (some 201)).pending = none :=
  ⟨by decide,
    (same_route_navigation demoRouter demoAtParent (RawLocation.str "/parent".toList)
      (Completion.push (some 200)) (some 201) (by decide)
      (AllContinue.of_check _ _ _ (by decide))
      (AllContinue.of_check _ _ _ (by decide))).2.2.2.1⟩

/-! ## Errors thrown by a guard, and `next(null)` -/

set_option maxRecDepth 100000 in
/-- C15 on the code. The browser goes to `/x` while the route `/` is current, and the before
hook throws the error 5: the navigation is aborted with the error (it reaches the error
channel, `current` stays, the rest of the queue is not run), but `ensureURL` is not called
and the browser stays at `/x`, which is not the location of `current`. On the sibling path,
where the hook calls `next` with the error (target `/y`), `ensureURL(true)` is called and
the browser is put back to `/`. -/
theorem thrown_error_without_ensureURL :
    (handle demoRouter demoStart (Event.popstate "/x".toList)).log
        = [Effect.ready, Effect.consoleError (Err.error 5),
            Effect.hook (Hook.guard 7) ⟨1, "/x".toList, []⟩ START,
            Effect.pending (some ⟨1, "/x".toList, []⟩)]
      ∧ (handle demoRouter demoStart (Event.popstate "/x".toList)).current = START
      ∧ (handle demoRouter demoStart (Event.popstate "/x".toList)).url = "/x".toList
      ∧ demoRouter.getLocation (handle demoRouter demoStart (Event.popstate "/x".toList)).url
        ≠ (handle demoRouter demoStart (Event.popstate "/x".toList)).current.fullPath
      ∧ (handle demoRouter demoStart (Event.popstate "/y".toList)).log
        = [Effect.ready, Effect.consoleError (Err.error 5), Effect.pushState ['/'],
            Effect.ensureURL true,
            Effect.hook (Hook.guard 7) ⟨1, "/y".toList, []⟩ START,
            Effect.pending (some ⟨1, "/y".toList, []⟩)]
      ∧ (handle demoRouter demoStart (Event.popstate "/y".toList)).url = ['/'] := by
  decide

set_option maxRecDepth 100000 in
/-- C16 on the code. For `next(null)` the callback throws a `TypeError` (`typeof null` is
`'object'`, and reading `to.path` of `null` throws), in every state. In the example run,
where the before hook of `push('/n', cb 1, cb 2)` calls `next(null)` at once, the `catch` of
the iterator aborts the navigation with that error: `onAbort` 2 is called, `onComplete` 1 is
not, the rest of the queue is not run and `current` stays; when a kept `next` is called with
`null` later, the exception reaches the caller. -/
theorem next_null_throws :
    (∀ (r : Router) (nav : Navigation) (hook : Hook) (h : History),
        nextCallback r nav hook h NextVal.null = Called.throws h Err.typeError)
      ∧ (handle demoRouter demoStart
          (Event.push (RawLocation.str "/n".toList) (some 1) (some 2))).log
        = [Effect.ready, Effect.onAbort 2 Err.typeError, Effect.consoleError Err.typeError,
            Effect.hook (Hook.guard 7) ⟨1, "/n".toList, []⟩ START,
            Effect.pending (some ⟨1, "/n".toList, []⟩)]
      ∧ (handle demoRouter demoStart
          (Event.push (RawLocation.str "/n".toList) (some 1) (some 2))).current = START
      ∧ (resume demoRouter demoPushA demoNextA NextVal.null).log
        = Effect.uncaught Err.typeError :: demoPushA.log := by
  refine ⟨fun r nav hook h => ?_, by decide, by decide, by decide⟩
  cases hook <;> rfl

/-! ## Readiness -/

set_option maxRecDepth 100000 in
/-- C19, as stated, fails in both directions. With two ready-error callbacks waiting and the
history not ready, a redirected failure of a navigation that started from `START` flushes
nothing and leaves the history not ready (the claim has it flushed), and a redirected
failure of a navigation that started from another route flushes the callbacks (the claim has
it skipped). -/
theorem ready_error_flush_counterexample :
    demoWaiting.ready = false ∧ demoWaiting.readyErrorCbs = [5, 6]
      ∧ flushReadyErrors ⟨demoRouteA, START, Completion.popstate, none⟩ demoWaiting
          (Err.failure NavigationFailureType.redirected START demoRouteA)
        = demoWaiting
      ∧ (flushReadyErrors ⟨⟨2, "/c".toList, []⟩, demoRouteA, Completion.popstate, none⟩
          demoWaiting
          (Err.failure NavigationFailureType.redirected demoRouteA ⟨2, "/c".toList, []⟩)).ready
        = true
      ∧ (flushReadyErrors ⟨⟨2, "/c".toList, []⟩, demoRouteA, Completion.popstate, none⟩
          demoWaiting
          (Err.failure NavigationFailureType.redirected demoRouteA ⟨2, "/c".toList, []⟩)).log
        = [Effect.readyErrorCb 6
              (Err.failure NavigationFailureType.redirected demoRouteA ⟨2, "/c".toList, []⟩),
            Effect.readyErrorCb 5
              (Err.failure NavigationFailureType.redirected demoRouteA ⟨2, "/c".toList, []⟩),
            Effect.ready] ++ demoWaiting.log := by
  decide

/-- C19, amended. For a navigation that fails with a truthy error while the history is not
yet ready, the abort handler of `transitionTo` calls `onAbort` and then flushes the
ready-error callbacks (and sets `ready`) if and only if the failure is not a redirected
failure of a navigation that started from `START`: the flush is skipped exactly for a
redirect from the initial route, and then the history stays not ready. -/
theorem ready_error_flush (nav : Navigation) (h : History) (err : Err)
    (htruthy : err.truthy = true) (hready : h.ready = false) :
    (¬ (isNavigationFailureOf err NavigationFailureType.redirected = true ∧ nav.current = START) →
        flushReadyErrors nav h err
            = (setReady h).loggedAll (h.readyErrorCbs.map (fun cb => Effect.readyErrorCb cb err))
          ∧ (transitionAborted nav h err).ready = true)
      ∧ ((isNavigationFailureOf err NavigationFailureType.redirected = true ∧ nav.current = START) →
        flushReadyErrors nav h err = h ∧ (transitionAborted nav h err).ready = false
          ∧ ∀ e ∈ newEntries h (transitionAborted nav h err), e.isReady = false) := by
  have hc : err.truthy = true ∧ ¬ h.ready = true := ⟨htruthy, by simp [hready]⟩
  constructor
  · intro hn
    have hd : ¬ isNavigationFailureOf err NavigationFailureType.redirected = true
        ∨ nav.current ≠ START := by
      by_cases h1 : isNavigationFailureOf err NavigationFailureType.redirected = true
      · exact Or.inr (fun h2 => hn ⟨h1, h2⟩)
      · exact Or.inl h1
    have hf : ∀ h' : History, h'.ready = false → flushReadyErrors nav h' err
        = (setReady h').loggedAll (h'.readyErrorCbs.map (fun cb => Effect.readyErrorCb cb err)) := by
      intro h' hr'
      have hc' : err.truthy = true ∧ ¬ h'.ready = true := ⟨htruthy, by simp [hr']⟩
      unfold flushReadyErrors
      rw [if_pos hc', if_pos hd]
    refine ⟨hf h hready, ?_⟩
    unfold transitionAborted
    cases nav.onAbort with
    | none => dsimp only; rw [hf h hready]; rfl
    | some cb => dsimp only; rw [hf (h.logged (Effect.onAbort cb err)) hready]; rfl
  · intro hy
    have hd : ¬ (¬ isNavigationFailureOf err NavigationFailureType.redirected = true
        ∨ nav.current ≠ START) := by
      intro hd
      rcases hd with hd | hd
      · exact hd hy.1
      · exact hd hy.2
    have hf : ∀ h' : History, flushReadyErrors nav h' err = h' := by
      intro h'
      unfold flushReadyErrors
      by_cases hc2 : err.truthy = true ∧ ¬ h'.ready = true
      · rw [if_pos hc2, if_neg hd]
      · rw [if_neg hc2]
    refine ⟨hf h, ?_, ?_⟩
    · unfold transitionAborted
      cases nav.onAbort with
      | none => dsimp only; rw [hf]; exact hready
      | some cb => dsimp only; rw [hf]; exact hready
    · unfold transitionAborted
      cases nav.onAbort with
      | none =>
        dsimp only
        rw [hf]
        intro e he
        simp [newEntries] at he
      | some cb =>
        dsimp only
        rw [hf]
        intro e he
        have : newEntries h (h.logged (Effect.onAbort cb err)) = [Effect.onAbort cb err] :=
          @Adds.entries_eq [Effect.onAbort cb err] _ _ rfl
        rw [this] at he
        rw [List.mem_singleton.mp he]
        rfl

set_option maxRecDepth 100000 in
/-- C19, amended, for an aborted failure of a navigation from `START` while two ready-error
callbacks wait: they are flushed. -/
theorem ready_error_flush_witness :
    (Err.failure NavigationFailureType.aborted START demoRouteA).truthy = true
      ∧ demoWaiting.ready = false
      ∧ (transitionAborted ⟨demoRouteA, START, Completion.popstate, none⟩ demoWaiting
          (Err.failure NavigationFailureType.aborted START demoRouteA)).ready = true :=
  ⟨rfl, by decide,
    ((ready_error_flush ⟨demoRouteA, START, Completion.popstate, none⟩ demoWaiting
      (Err.failure NavigationFailureType.aborted START demoRouteA) rfl (by decide)).1
      (by decide)).2⟩

theorem Effect.isReady_of_quiet (e : Effect) (he : e.quiet = true) : e.isReady = false := by
  cases e <;> first | rfl | cases he

theorem readyOnce_extend (h h' : History) (es es' : List Effect) (hr : h'.ready = h.ready)
    (hrc : h'.readyCbs = h.readyCbs) (hre : h'.readyErrorCbs = h.readyErrorCbs)
    (hes : ∀ e ∈ es', e.isReady = false) (hh : ReadyOnce h es) : ReadyOnce h' (es' ++ es) := by
  constructor
  · intro hf e he
    rcases List.mem_append.mp he with he | he
    · exact hes e he
    · exact hh.1 (hr ▸ hf) e he
  · intro ht
    obtain ⟨post, pre, flush, heq, hpost, hpre, hfl⟩ := hh.2 (hr ▸ ht)
    refine ⟨es' ++ post, pre, flush, by rw [heq]; simp, ?_, hpre, ?_⟩
    · intro e he
      rcases List.mem_append.mp he with he | he
      · exact hes e he
      · exact hpost e he
    · rw [hrc, hre]
      exact hfl

theorem readyOnce_invariant (h₀ : History) {h h' : History} (m : Move h h')
    (hh : ∃ es, h.log = es ++ h₀.log ∧ ReadyOnce h es) :
    ∃ es, h'.log = es ++ h₀.log ∧ ReadyOnce h' es := by
  obtain ⟨es, hl, ho⟩ := hh
  cases m with
  | quiet _ q =>
    obtain ⟨_, _, _, qr, qrc, qre, es', ql, qq⟩ := q
    exact ⟨es' ++ es, by rw [ql, hl, List.append_assoc],
      readyOnce_extend h h' es es' qr qrc qre (fun e he => Effect.isReady_of_quiet e (qq e he)) ho⟩
  | start fullPath matched =>
    refine ⟨[Effect.pending (some ⟨h.nextId, fullPath, matched⟩)] ++ es,
      by simp [setPending, hl], ?_⟩
    exact readyOnce_extend h _ es _ rfl rfl rfl
      (fun e he => by rw [List.mem_singleton.mp he]; rfl) ho
  | commit route hp =>
    refine ⟨[Effect.current route, Effect.pending none] ++ es, by simp [hl], ?_⟩
    exact readyOnce_extend h _ es _ rfl rfl rfl
      (fun e he => by
        rcases List.mem_cons.mp he with he | he
        · rw [he]; rfl
        · rw [List.mem_singleton.mp he]; rfl) ho
  | flushReady route hr =>
    refine ⟨(h.readyCbs.map (fun cb => Effect.readyCb cb route)).reverse ++ Effect.ready :: es,
      by simp [History.loggedAll, setReady, hl], ?_, ?_⟩
    · intro hf
      cases hf
    · intro _
      exact ⟨[], es, (h.readyCbs.map (fun cb => Effect.readyCb cb route)).reverse, by simp,
        (fun _ he => by cases he), ho.1 hr, Or.inl ⟨route, rfl⟩⟩
  | flushError err hr =>
    refine ⟨(h.readyErrorCbs.map (fun cb => Effect.readyErrorCb cb err)).reverse
        ++ Effect.ready :: es,
      by simp [History.loggedAll, setReady, hl], ?_, ?_⟩
    · intro hf
      cases hf
    · intro _
      exact ⟨[], es, (h.readyErrorCbs.map (fun cb => Effect.readyErrorCb cb err)).reverse,
        by simp, (fun _ he => by cases he), ho.1 hr, Or.inr ⟨err, rfl⟩⟩
  | register cb errorCb hr =>
    refine ⟨es, hl, fun _ => ho.1 hr, fun ht => ?_⟩
    rw [show ({ h with readyCbs := h.readyCbs ++ [cb]
                       readyErrorCbs := h.readyErrorCbs ++ errorCb.toList } : History).ready
        = h.ready from rfl, hr] at ht
    cases ht

theorem stayReady_invariant (h₀ : History) {h h' : History} (m : Move h h')
    (hh : h.ready = true ∧ ∃ es, h.log = es ++ h₀.log ∧ ∀ e ∈ es, e.isReady = false) :
    h'.ready = true ∧ ∃ es, h'.log = es ++ h₀.log ∧ ∀ e ∈ es, e.isReady = false := by
  obtain ⟨hr, es, hl, hes⟩ := hh
  have ext : ∀ es' : List Effect, (∀ e ∈ es', e.isReady = false) →
      ∀ e ∈ es' ++ es, e.isReady = false := by
    intro es' h1 e he
    rcases List.mem_append.mp he with he | he
    · exact h1 e he
    · exact hes e he
  cases m with
  | quiet _ q =>
    obtain ⟨_, _, _, qr, _, _, es', ql, qq⟩ := q
    exact ⟨qr.trans hr, es' ++ es, by rw [ql, hl, List.append_assoc],
      ext es' (fun e he => Effect.isReady_of_quiet e (qq e he))⟩
  | start fullPath matched =>
    exact ⟨hr, [Effect.pending (some ⟨h.nextId, fullPath, matched⟩)] ++ es,
      by simp [setPending, hl], ext _ (fun e he => by rw [List.mem_singleton.mp he]; rfl)⟩
  | commit route hp =>
    exact ⟨hr, [Effect.current route, Effect.pending none] ++ es, by simp [hl],
      ext _ (fun e he => by
        rcases List.mem_cons.mp he with he | he
        · rw [he]; rfl
        · rw [List.mem_singleton.mp he]; rfl)⟩
  | flushReady route hf => rw [hr] at hf; cases hf
  | flushError err hf => rw [hr] at hf; cases hf
  | register cb errorCb hf => rw [hr] at hf; cases hf

theorem filter_ready_nil (es : List Effect) (h : ∀ e ∈ es, e.isReady = false) :
    es.filter (fun e => decide (e = Effect.ready)) = [] := by
  apply List.filter_eq_nil_iff.mpr
  intro e he
  have := h e he
  simp only [decide_eq_true_eq]
  intro heq
  rw [heq] at this
  cases this

theorem readyOnce_count (h : History) (es : List Effect) (ho : ReadyOnce h es) :
    (es.filter (fun e => decide (e = Effect.ready))).length ≤ 1 := by
  cases hr : h.ready with
  | false => rw [filter_ready_nil es (ho.1 hr)]; simp
  | true =>
    obtain ⟨post, pre, flush, heq, hpost, hpre, hfl⟩ := ho.2 hr
    have hflush : flush.filter (fun e => decide (e = Effect.ready)) = [] := by
      apply List.filter_eq_nil_iff.mpr
      intro e he
      simp only [decide_eq_true_eq]
      rcases hfl with ⟨route, rfl⟩ | ⟨err, rfl⟩
      · obtain ⟨cb, _, rfl⟩ := List.mem_map.mp (List.mem_reverse.mp he)
        intro hc
        cases hc
      · obtain ⟨cb, _, rfl⟩ := List.mem_map.mp (List.mem_reverse.mp he)
        intro hc
        cases hc
    rw [heq, List.filter_append, List.filter_append, filter_ready_nil post hpost, hflush,
      List.filter_cons, filter_ready_nil pre hpre]
    simp

/-- C18. Readiness is one-shot. In every run from a history that is not ready, the state
reached satisfies `ReadyOnce`: while it is not ready nothing has been flushed; once it is
ready, `ready` has been set exactly once and exactly one of the two queues has been flushed,
once, each of its callbacks being called once. So `ready` is set at most once in total. In
every run from a history that is ready, the history stays ready and no queue is flushed. -/
theorem readiness_one_shot (r : Router) (h₀ h : History) (run : Reaches r h₀ h) :
    (h₀.ready = false →
        ReadyOnce h (newEntries h₀ h)
          ∧ ((newEntries h₀ h).filter (fun e => decide (e = Effect.ready))).length ≤ 1)
      ∧ (h₀.ready = true → h.ready = true ∧ ∀ e ∈ newEntries h₀ h, e.isReady = false) := by
  have hm := reaches_moves r run
  constructor
  · intro hr
    obtain ⟨es, hl, ho⟩ := Moves.invariant _
      (fun _ _ m hh => readyOnce_invariant h₀ m hh) hm
      ⟨[], rfl, And.intro (fun _ _ he => by cases he) (fun ht => by rw [hr] at ht; cases ht)⟩
    rw [@Adds.entries_eq es h₀ h hl]
    exact ⟨ho, readyOnce_count h es ho⟩
  · intro hr
    obtain ⟨hr', es, hl, hes⟩ := Moves.invariant _
      (fun _ _ m hh => stayReady_invariant h₀ m hh) hm
      ⟨hr, [], rfl, fun _ he => by cases he⟩
    rw [@Adds.entries_eq es h₀ h hl]
    exact ⟨hr', hes⟩

set_option maxRecDepth 100000 in
/-- C18 in the example run from the start to the confirmed navigation to `/parent`, and from
there through a second navigation. -/
theorem readiness_one_shot_witness :
    Reaches demoRouter demoStart demoAtParent
      ∧ demoStart.ready = false
      ∧ ((newEntries demoStart demoAtParent).filter
          (fun e => decide (e = Effect.ready))).length ≤ 1
      ∧ demoAtParent.ready = true
      ∧ (handle demoRouter demoAtParent
          (Event.push (RawLocation.str "/b".toList) none none)).ready = true :=
  have run : Reaches demoRouter demoStart demoAtParent :=
    Reaches.step _ _ Reaches.start
      (Step.event demoStart
        (Event.push (RawLocation.str "/parent".toList) (some 100) (some 101)) (by decide)
        (fun _ _ hev => by cases hev))
  have run2 : Reaches demoRouter demoAtParent
      (handle demoRouter demoAtParent (Event.push (RawLocation.str "/b".toList) none none)) :=
    Reaches.step _ _ Reaches.start
      (Step.event demoAtParent (Event.push (RawLocation.str "/b".toList) none none)
        (by decide) (fun _ _ hev => by cases hev))
  ⟨run, by decide, ((readiness_one_shot demoRouter demoStart demoAtParent run).1 (by decide)).2,
    by decide, ((readiness_one_shot demoRouter demoAtParent _ run2).2 (by decide)).1⟩

/-! ## Consistency of the tables -/

theorem Dictionary.mem_keys_iff (d : Dictionary) (key : Str) :
    key ∈ Dictionary.keys d ↔ (Dictionary.get d key).isSome = true := by
  have h := Dictionary.get_isNone_iff d key
  cases hg : Dictionary.get d key with
  | none =>
    rw [hg] at h
    simp only [Option.isNone_none, true_iff] at h
    simp [h]
  | some r =>
    rw [hg] at h
    simp only [Option.isNone_some, Bool.false_eq_true, false_iff, not_not] at h
    simp [h]

theorem registerRecord_tableConsistent (t : RouteMap) (record : RouteRecord)
    (name : Option Str) (ht : TableConsistent t) :
    TableConsistent (registerRecord t record name) := by
  unfold TableConsistent
  rw [registerRecord, registerName_pathList, registerName_pathMap]
  unfold registerPath
  have hiff := Dictionary.get_isNone_iff t.pathMap record.path
  split
  · rename_i habs
    have hk : record.path ∉ t.pathMap.keys := hiff.mp habs
    have hl : record.path ∉ t.pathList := fun h => hk ((ht.2 _).mp h)
    simp only [Dictionary.set_of_absent _ _ _ habs]
    constructor
    · exact List.nodup_append.mpr
        ⟨ht.1, List.nodup_singleton _, by
          intro a ha hb
          rw [List.mem_singleton.mp hb] at ha
          exact hl ha⟩
    · intro p
      simp only [Dictionary.keys, List.map_append, List.map_cons, List.map_nil,
        List.mem_append, List.mem_singleton]
      rw [ht.2 p]
      rfl
  · exact ht

theorem addRouteRecord_tableConsistent (route : RouteConfig) (t : RouteMap)
    (parent : Option RouteRecord) (m : Option Str) (ht : TableConsistent t) :
    TableConsistent (addRouteRecord t route parent m) :=
  addRouteRecord_invariant TableConsistent (fun _ => True)
    (fun t _ _ _ name h _ => registerRecord_tableConsistent t _ name h)
    (fun _ _ _ _ => trivial) route t parent m ht trivial

/-- C21. Table consistency is preserved by `createRouteMap`: if the incoming `pathList` is
duplicate-free and its elements are exactly the keys of the incoming `pathMap`, then for
every route list (and parent route) the returned `pathList` is duplicate-free and its
elements are exactly the keys of the returned `pathMap`, so every path of the returned
`pathList` has a record in `pathMap`. -/
theorem createRouteMap_table_consistent (routes : List RouteConfig) (old : RouteMap)
    (parentRoute : Option RouteRecord) (h : TableConsistent old) :
    TableConsistent (createRouteMap routes old parentRoute)
      ∧ ∀ p ∈ (createRouteMap routes old parentRoute).pathList,
          ∃ record, (createRouteMap routes old parentRoute).pathMap.get p = some record := by
  have hfold : TableConsistent
      (routes.foldl (fun t route => addRouteRecord t route parentRoute none) old) :=
    foldl_invariant TableConsistent _ routes
      (fun b a _ hb => addRouteRecord_tableConsistent a b parentRoute none hb) old h
  have hperm : ∀ l : List Str,
      (l.filter (fun p => p ≠ star) ++ l.filter (fun p => p = star)).Perm l := by
    intro l
    have := List.filter_append_perm (fun p => decide (p ≠ star)) l
    have heq : l.filter (fun p => !decide (p ≠ star)) = l.filter (fun p => decide (p = star)) := by
      congr 1
      funext p
      simp
    rw [heq] at this
    exact this
  have hcons : TableConsistent (createRouteMap routes old parentRoute) := by
    unfold TableConsistent
    simp only [createRouteMap]
    rw [moveWildcards_eq]
    exact ⟨(hperm _).nodup_iff.mpr hfold.1, fun p => ((hperm _).mem_iff).trans (hfold.2 p)⟩
  refine ⟨hcons, fun p hp => ?_⟩
  exact Option.isSome_iff_exists.mp ((Dictionary.mem_keys_iff _ _).mp ((hcons.2 p).mp hp))

set_option maxRecDepth 100000 in
/-- C21 at the empty tables, which are consistent, and the routes of the example app. -/
theorem createRouteMap_table_consistent_witness :
    TableConsistent RouteMap.empty ∧ TableConsistent nestedRouteMap :=
  ⟨⟨List.nodup_nil, fun _ => Iff.rfl⟩,
    (createRouteMap_table_consistent nestedRoutes RouteMap.empty none
      ⟨List.nodup_nil, fun _ => Iff.rfl⟩).1⟩

/-! ## Alias records -/

theorem makeRecord_matchAs (o : RouteOptions) (parent : Option RouteRecord) (m : Option Str) :
    (makeRecord o parent m).fields.matchAs = m := by
  cases parent <;> rfl

theorem MatchAsSound.mono {routes : List RouteConfig} {parentRoute : Option RouteRecord}
    {keys keys' : List Str} {r : RouteRecord} (hs : keys ⊆ keys')
    (h : MatchAsSound routes parentRoute keys r) : MatchAsSound routes parentRoute keys' r := by
  intro x hx
  obtain ⟨hne, hc⟩ := h x hx
  refine ⟨hne, ?_⟩
  rcases hc with ⟨o, cs, parent, m, a, hcall, ha, hr, hxc, hk⟩ | hn
  · exact Or.inl ⟨o, cs, parent, m, a, hcall, ha, hr, hxc, hs hk⟩
  · exact Or.inr hn

theorem registerRecord_aliasSound (routes : List RouteConfig)
    (parentRoute : Option RouteRecord) (t : RouteMap) (record : RouteRecord)
    (name : Option Str) (ht : AliasSound routes parentRoute t)
    (hr : MatchAsSound routes parentRoute t.pathMap.keys record) :
    AliasSound routes parentRoute (registerRecord t record name)
      ∧ t.pathMap.keys ⊆ (registerRecord t record name).pathMap.keys
      ∧ record.path ∈ (registerRecord t record name).pathMap.keys := by
  unfold AliasSound
  rw [registerRecord, registerName_pathMap]
  unfold registerPath
  split
  · rename_i habs
    simp only [Dictionary.set_of_absent _ _ _ habs]
    have hsub : t.pathMap.keys ⊆ Dictionary.keys (t.pathMap ++ [(record.path, record)]) := by
      intro k hk
      simp only [Dictionary.keys, List.map_append, List.mem_append]
      exact Or.inl hk
    refine ⟨?_, hsub, ?_⟩
    · intro e he
      rcases List.mem_append.mp he with he | he
      · exact (ht e he).mono hsub
      · rw [List.mem_singleton.mp he]
        exact hr.mono hsub
    · simp only [Dictionary.keys, List.map_append, List.map_cons, List.map_nil,
        List.mem_append, List.mem_singleton]
      exact Or.inr trivial
  · rename_i habs
    refine ⟨ht, fun _ h => h, ?_⟩
    by_contra hc
    exact habs ((Dictionary.get_isNone_iff _ _).mpr hc)

theorem pathOrSlash_ne_nil (p : Str) : pathOrSlash p ≠ [] := by
  unfold pathOrSlash
  split
  · simp
  · assumption

theorem childMatchAs_sound (routes : List RouteConfig) (parentRoute : Option RouteRecord)
    (keys : List Str) (o : RouteOptions) (cs : List RouteConfig) (c : RouteConfig)
    (parent : Option RouteRecord) (m : Option Str)
    (hcall : Call routes parentRoute (RouteConfig.mk o cs) parent m) (hc : c ∈ cs) :
    MatchAsSound routes parentRoute keys
      (makeRecord c.opts (some (makeRecord o parent m)) (childMatchAs m c.opts.path)) := by
  intro y hy
  rw [makeRecord_matchAs] at hy
  cases m with
  | none => simp [childMatchAs] at hy
  | some x =>
    simp only [childMatchAs] at hy
    split at hy
    · rename_i hx
      have hy' := (Option.some.inj hy).symm
      constructor
      · rw [hy']
        cases x with
        | nil => exact absurd rfl hx
        | cons c rest => exact cleanPath_cons_ne_nil c _
      · have hcm : childMatchAs (some x) c.opts.path = some y := by
          simp only [childMatchAs, if_pos hx]
          exact hy
        refine Or.inr ⟨o, cs, parent, x, c, hcall, hc, ?_, hy'⟩
        rw [hcm]
    · cases hy

/-- The tables keep sound `matchAs` fields under a call of `addRouteRecord` that
`createRouteMap` gives rise to, when the record of the route itself is sound; and no key of
`pathMap` is lost. -/
theorem addRouteRecord_aliasSound (routes : List RouteConfig)
    (parentRoute : Option RouteRecord) (route : RouteConfig) :
    ∀ t parent m, Call routes parentRoute route parent m →
      AliasSound routes parentRoute t →
      MatchAsSound routes parentRoute t.pathMap.keys (makeRecord route.opts parent m) →
      AliasSound routes parentRoute (addRouteRecord t route parent m)
        ∧ t.pathMap.keys ⊆ (addRouteRecord t route parent m).pathMap.keys := by
  induction route using RouteConfig.induct with
  | h o cs ih =>
    intro t parent m hcall ht hm
    have hkids : ∀ t' o' m', Call routes parentRoute (RouteConfig.mk o' cs) parent m' →
        AliasSound routes parentRoute t' →
        AliasSound routes parentRoute (addChildRecords t' cs (makeRecord o' parent m') m')
          ∧ t'.pathMap.keys ⊆ (addChildRecords t' cs (makeRecord o' parent m') m').pathMap.keys := by
      intro t' o' m' hcall' ht'
      rw [addChildRecords_eq_foldl]
      exact foldl_invariant
        (fun t'' : RouteMap =>
          AliasSound routes parentRoute t'' ∧ t'.pathMap.keys ⊆ t''.pathMap.keys) _ cs
        (fun b c hc hb =>
          have h := ih c hc b (some (makeRecord o' parent m')) (childMatchAs m' c.opts.path)
            (Call.child o' cs parent m' c hcall' hc) hb.1
            (childMatchAs_sound routes parentRoute _ o' cs c parent m' hcall' hc)
          ⟨h.1, fun k hk => h.2 (hb.2 hk)⟩)
        t' ⟨ht', fun _ h => h⟩
    have hsteps : ∀ t' o' m', Call routes parentRoute (RouteConfig.mk o' cs) parent m' →
        AliasSound routes parentRoute t' →
        MatchAsSound routes parentRoute t'.pathMap.keys (makeRecord o' parent m') →
        AliasSound routes parentRoute
            (addRecordSteps (fun t r m => addChildRecords t cs r m) t' o' parent m')
          ∧ t'.pathMap.keys
              ⊆ (addRecordSteps (fun t r m => addChildRecords t cs r m) t' o' parent m').pathMap.keys
          ∧ (makeRecord o' parent m').path
              ∈ (addRecordSteps (fun t r m => addChildRecords t cs r m) t' o' parent m').pathMap.keys := by
      intro t' o' m' hcall' ht' hm'
      have hk := hkids t' o' m' hcall' ht'
      have hr := registerRecord_aliasSound routes parentRoute _ (makeRecord o' parent m')
        o'.name hk.1 (hm'.mono hk.2)
      simp only [addRecordSteps]
      exact ⟨hr.1, fun k h => hr.2.1 (hk.2 h), hr.2.2⟩
    have h0 := hsteps t o m hcall ht hm
    rw [addRouteRecord_eq]
    have hfold := foldl_invariant
      (fun t'' : RouteMap => AliasSound routes parentRoute t'' ∧ t.pathMap.keys ⊆ t''.pathMap.keys
        ∧ (makeRecord o parent m).path ∈ t''.pathMap.keys) _ (aliasList o.alias_)
      (fun b a ha hb =>
        have h := hsteps b { path := a } (some (pathOrSlash (makeRecord o parent m).path))
          (Call.alias_ o cs parent m a hcall ha) hb.1
          (by
            intro x hx
            rw [makeRecord_matchAs] at hx
            have hx' := (Option.some.inj hx).symm
            refine ⟨by rw [hx']; exact pathOrSlash_ne_nil _,
              Or.inl ⟨o, cs, parent, m, a, hcall, ha, ?_, hx', hb.2.2⟩⟩
            rw [hx'])
        ⟨h.1, fun k hk => h.2.1 (hb.2.1 hk), h.2.1 hb.2.2⟩)
      _ h0
    exact ⟨hfold.1, hfold.2.1⟩

theorem createRouteMap_aliasSound (routes : List RouteConfig)
    (parentRoute : Option RouteRecord) :
    AliasSound routes parentRoute (createRouteMap routes RouteMap.empty parentRoute) := by
  have hfold := foldl_invariant (AliasSound routes parentRoute)
    (fun t route => addRouteRecord t route parentRoute none) routes
    (fun b a ha hb =>
      (addRouteRecord_aliasSound routes parentRoute a b parentRoute none
        (Call.top a ha) hb (by
        intro x hx
        rw [makeRecord_matchAs] at hx
        cases hx)).1)
    RouteMap.empty (fun e he => by cases he)
  exact hfold

set_option maxRecDepth 100000 in
/-- C11, as stated, fails in two ways. For the route `{ path: '/', alias: '/home' }` the
canonical record has the empty path (the trailing slash is removed) and is stored under the
key `''`, while the alias record carries the matchAs `/`, which is neither that path nor a
key of `pathMap`. For the child `foo/` of the route `/parent` with the alias `/app`, the
canonical record has the path `/parent/foo`, while the record `/app/foo` nested under the
alias carries the matchAs `/parent/foo/`, which is not a key of `pathMap`. -/
theorem matchAs_canonical_path_counterexample :
    (aliasRouteMap.pathMap.get "/home".toList).map (fun r => r.fields.matchAs)
        = some (some "/".toList)
      ∧ (aliasRouteMap.pathMap.get []).map (fun r => (r.path, r.fields.components))
        = some ([], [("default".toList, some 1)])
      ∧ "/".toList ∉ aliasRouteMap.pathMap.keys
      ∧ (aliasRouteMap.pathMap.get "/app/foo".toList).map (fun r => r.fields.matchAs)
        = some (some "/parent/foo/".toList)
      ∧ (aliasRouteMap.pathMap.get "/parent/foo".toList).map (fun r => r.fields.components)
        = some [("default".toList, some 3)]
      ∧ "/parent/foo/".toList ∉ aliasRouteMap.pathMap.keys := by
  decide

/-- C11, amended. For every route list compiled into an empty table, every record of the
resulting `pathMap` that carries a matchAs `x` is of one of two kinds, and `x` is not empty.
An alias record: `addRouteRecord` is called, under some parent, on a route that declares the
alias from which the record is compiled (under the same parent), and `x` is `c || '/'` for
the path `c` of the record compiled from that route itself, which is a key of `pathMap`; so
`x` is the path of the canonical record whenever that path is not empty. A record nested
under a record `pr` with the matchAs `pm`: `pr` is compiled from a route on which
`addRouteRecord` is called with the matchAs `pm`, the record is compiled from a child `c` of
that route, and `x` is `cleanPath(pm + '/' + c.path)` for the configured path of the child,
whatever the compiled path of the canonical child is. -/
theorem matchAs_sound (routes : List RouteConfig) (parentRoute : Option RouteRecord)
    (key x : Str) (r : RouteRecord)
    (hr : (key, r) ∈ (createRouteMap routes RouteMap.empty parentRoute).pathMap)
    (hx : r.fields.matchAs = some x) :
    x ≠ []
      ∧ ((∃ o cs parent m a, Call routes parentRoute (RouteConfig.mk o cs) parent m
            ∧ a ∈ aliasList o.alias_
            ∧ r = makeRecord { path := a } parent (some x)
            ∧ x = pathOrSlash (makeRecord o parent m).path
            ∧ (makeRecord o parent m).path
                ∈ (createRouteMap routes RouteMap.empty parentRoute).pathMap.keys
            ∧ ((makeRecord o parent m).path ≠ [] → x = (makeRecord o parent m).path))
        ∨ (∃ o cs parent pm c, Call routes parentRoute (RouteConfig.mk o cs) parent (some pm)
            ∧ c ∈ cs
            ∧ r = makeRecord c.opts (some (makeRecord o parent (some pm))) (some x)
            ∧ r.parent = some (makeRecord o parent (some pm))
            ∧ (makeRecord o parent (some pm)).fields.matchAs = some pm
            ∧ x = cleanPath (pm ++ '/' :: c.opts.path)
            ∧ r.path = normalizePath c.opts.path (some (makeRecord o parent (some pm)))
                (c.opts.pathToRegexpOptions.getD {}).strict)) := by
  obtain ⟨hne, hc⟩ := createRouteMap_aliasSound routes parentRoute (key, r) hr x hx
  refine ⟨hne, ?_⟩
  rcases hc with ⟨o, cs, parent, m, a, hcall, ha, hrec, hxc, hk⟩
    | ⟨o, cs, parent, pm, c, hcall, hc, hrec, hxp⟩
  · refine Or.inl ⟨o, cs, parent, m, a, hcall, ha, hrec, hxc, hk, fun hcn => ?_⟩
    rw [hxc]
    simp [pathOrSlash, hcn]
  · have hrec' : r = makeRecord c.opts (some (makeRecord o parent (some pm))) (some x) := hrec
    refine Or.inr ⟨o, cs, parent, pm, c, hcall, hc, hrec', ?_, makeRecord_matchAs _ _ _, hxp, ?_⟩
    · rw [hrec', makeRecord_parent]
    · rw [hrec', makeRecord_path]

set_option maxRecDepth 100000 in
/-- C11, amended, at the alias record `/app` of the example app: it has no parent, so it is
an alias record, and its matchAs `/parent` is the path of the record compiled from a route on
which `addRouteRecord` is called and which declares the alias. -/
theorem matchAs_sound_witness :
    ("/app".toList, makeRecord { path := "/app".toList } none (some "/parent".toList))
        ∈ nestedRouteMap.pathMap
      ∧ ∃ o cs parent m a, Call nestedRoutes none (RouteConfig.mk o cs) parent m
          ∧ a ∈ aliasList o.alias_
          ∧ "/parent".toList = pathOrSlash (makeRecord o parent m).path
          ∧ (makeRecord o parent m).path ∈ nestedRouteMap.pathMap.keys :=
  ⟨by decide, by
    rcases (matchAs_sound nestedRoutes none "/app".toList "/parent".toList
      (makeRecord { path := "/app".toList } none (some "/parent".toList))
      (by decide) (by decide)).2 with
      ⟨o, cs, parent, m, a, hc, ha, _, hx, hk, _⟩ | ⟨o, cs, parent, pm, c, _, _, _, hpar, _⟩
    · exact ⟨o, cs, parent, m, a, hc, ha, hx, hk⟩
    · rw [makeRecord_parent] at hpar
      cases hpar⟩

set_option maxRecDepth 100000 in
/-- C12, as stated, fails on the routes of the example app: the record registered under the
alias `/app` has the components `{ default: undefined }`, the canonical record `/parent` has
`{ default: Parent }`. It fails for the meta as well: the record under the alias `/home` of
the route `/` with the meta `{ a: 1 }` has the meta `{}`. -/
theorem alias_components_counterexample :
    (nestedRouteMap.pathMap.get "/app".toList).map (fun r => r.fields.components)
        = some [("default".toList, none)]
      ∧ (nestedRouteMap.pathMap.get "/parent".toList).map (fun r => r.fields.components)
        = some [("default".toList, some 1)]
      ∧ (aliasRouteMap.pathMap.get "/home".toList).map (fun r => r.fields.meta) = some []
      ∧ (aliasRouteMap.pathMap.get []).map (fun r => r.fields.meta)
        = some [("a".toList, 1)] := by
  decide

/-- C12, amended. For every route list compiled into an empty table, every record of the
resulting `pathMap` that is registered for an alias (it carries a matchAs, and its parent, if
it has one, carries none) is the record compiled from `{ path: alias }` alone: its components
mapping is `{ default: undefined }` and its meta is `{}`, whatever the components and the
meta of the canonical record are, and it has no name. The alias is declared by a route on
which `addRouteRecord` is called under the same parent, and the matchAs of the record is
`c || '/'` for the path `c` of the record compiled from that route itself, which is a key of
`pathMap`. -/
theorem alias_record_components (routes : List RouteConfig) (parentRoute : Option RouteRecord)
    (key x : Str) (r : RouteRecord)
    (hr : (key, r) ∈ (createRouteMap routes RouteMap.empty parentRoute).pathMap)
    (hx : r.fields.matchAs = some x)
    (hp : ∀ pr, r.parent = some pr → pr.fields.matchAs = none) :
    r.fields.components = [("default".toList, none)] ∧ r.fields.meta = []
      ∧ r.fields.name = none
      ∧ ∃ o cs parent m a, Call routes parentRoute (RouteConfig.mk o cs) parent m
          ∧ a ∈ aliasList o.alias_
          ∧ r = makeRecord { path := a } parent (some x)
          ∧ x = pathOrSlash (makeRecord o parent m).path
          ∧ (makeRecord o parent m).path
              ∈ (createRouteMap routes RouteMap.empty parentRoute).pathMap.keys := by
  obtain ⟨_, hc⟩ := createRouteMap_aliasSound routes parentRoute (key, r) hr x hx
  rcases hc with ⟨o, cs, parent, m, a, hcall, ha, hrec, hxc, hk⟩
    | ⟨o, cs, parent, pm, c, _, _, hrec, _⟩
  · have hf : ∀ p : Option RouteRecord,
        (makeRecord { path := a } p (some x)).fields.components = [("default".toList, none)]
          ∧ (makeRecord { path := a } p (some x)).fields.meta = []
          ∧ (makeRecord { path := a } p (some x)).fields.name = none := by
      intro p
      cases p <;> exact ⟨rfl, rfl, rfl⟩
    have hrec' : r = makeRecord { path := a } parent (some x) := hrec
    have h := hf parent
    rw [← hrec'] at h
    exact ⟨h.1, h.2.1, h.2.2, o, cs, parent, m, a, hcall, ha, hrec', hxc, hk⟩
  · have hrec' : r = makeRecord c.opts (some (makeRecord o parent (some pm))) (some x) := hrec
    have hpar : r.parent = some (makeRecord o parent (some pm)) := by
      rw [hrec', makeRecord_parent]
    have := hp _ hpar
    rw [makeRecord_matchAs] at this
    cases this

set_option maxRecDepth 100000 in
/-- C12, amended, at the alias record `/app` of the example app. -/
theorem alias_record_components_witness :
    ("/app".toList, makeRecord { path := "/app".toList } none (some "/parent".toList))
        ∈ nestedRouteMap.pathMap
      ∧ (makeRecord { path := "/app".toList } none (some "/parent".toList)).fields.components
        = [("default".toList, none)] :=
  ⟨by decide,
    (alias_record_components nestedRoutes none "/app".toList "/parent".toList
      (makeRecord { path := "/app".toList } none (some "/parent".toList))
      (by decide) (by decide) (fun pr h => by cases h)).1⟩

/-! ## The base prefix -/

theorem toLower_eq_slash (c : Char) : c.toLower = '/' ↔ c = '/' := by
  constructor
  · intro h
    unfold Char.toLower at h
    simp only at h
    split at h
    · rename_i hc
      exfalso
      have h65 : 65 ≤ c.toNat := hc.1
      have h90 : c.toNat ≤ 90 := hc.2
      revert h
      generalize c.toNat = n at *
      interval_cases n <;> decide
    · exact h
  · intro h
    rw [h]
    rfl

theorem cleanPath_of_noDoubleSlash (s : Str) (h : noDoubleSlash s = true) : cleanPath s = s := by
  induction s with
  | nil => rfl
  | cons c rest ih =>
    cases rest with
    | nil => rfl
    | cons d rest =>
      simp only [noDoubleSlash, Bool.and_eq_true, Bool.not_eq_true', Bool.and_eq_false_imp,
        decide_eq_true_eq, decide_eq_false_iff_not] at h
      have hcd : ¬ (c = '/' ∧ d = '/') := fun hh => h.1 hh.1 hh.2
      rw [cleanPath, if_neg hcd, ih h.2]

theorem noDoubleSlash_toLowerCase (s : Str) (h : noDoubleSlash s = true) :
    noDoubleSlash (toLowerCase s) = true := by
  induction s with
  | nil => rfl
  | cons c rest ih =>
    cases rest with
    | nil => rfl
    | cons d rest =>
      simp only [noDoubleSlash, Bool.and_eq_true, Bool.not_eq_true', Bool.and_eq_false_imp,
        decide_eq_true_eq, decide_eq_false_iff_not] at h
      have ih' := ih h.2
      simp only [toLowerCase, List.map_cons, noDoubleSlash, Bool.and_eq_true, Bool.not_eq_true',
        Bool.and_eq_false_imp, decide_eq_true_eq, decide_eq_false_iff_not] at ih' ⊢
      exact ⟨fun hc hd => h.1 ((toLower_eq_slash c).mp hc) ((toLower_eq_slash d).mp hd), ih'⟩

theorem noDoubleSlash_append_slash (s : Str) (h : noDoubleSlash s = true)
    (hl : s.getLast? ≠ some '/') : noDoubleSlash (s ++ ['/']) = true := by
  induction s with
  | nil => rfl
  | cons c rest ih =>
    cases rest with
    | nil =>
      simp only [List.getLast?_singleton, ne_eq, Option.some.injEq] at hl
      simp [noDoubleSlash, hl]
    | cons d rest =>
      simp only [noDoubleSlash, Bool.and_eq_true, Bool.not_eq_true', Bool.and_eq_false_imp,
        decide_eq_true_eq, decide_eq_false_iff_not] at h
      have hl' : (d :: rest).getLast? ≠ some '/' := by
        rw [List.getLast?_cons_cons] at hl
        exact hl
      have ih' := ih h.2 hl'
      simp only [List.cons_append, noDoubleSlash, Bool.and_eq_true, Bool.not_eq_true',
        Bool.and_eq_false_imp, decide_eq_true_eq, decide_eq_false_iff_not] at ih' ⊢
      exact ⟨h.1, ih'⟩

theorem getLast?_toLowerCase (s : Str) (hl : s.getLast? ≠ some '/') :
    (toLowerCase s).getLast? ≠ some '/' := by
  unfold toLowerCase
  rw [List.getLast?_eq_head?_reverse, ← List.map_reverse, List.head?_map]
  rw [List.getLast?_eq_head?_reverse] at hl
  cases hh : s.reverse.head? with
  | none => simp
  | some c =>
    rw [hh] at hl
    simp only [Option.map_some', ne_eq, Option.some.injEq] at hl ⊢
    exact fun h => hl ((toLower_eq_slash c).mp h)

/-- The round trip for a base without a doubled slash: when the pathname is the base, in any
letter case, followed by a path that begins with `/`, `getLocation` returns that path
followed by the search and hash strings. -/
theorem getLocation_round_trip (w : WindowLocation) (b b' p : Str)
    (hb : b = [] ∨ (b.head? = some '/' ∧ b.getLast? ≠ some '/'))
    (hd : noDoubleSlash b = true) (hp : p.head? = some '/')
    (hcase : toLowerCase b' = toLowerCase b) (hw : w.pathname = b' ++ p) :
    getLocation w b = p ++ w.search ++ w.hash := by
  have hlen : b'.length = b.length := by
    have := congrArg List.length hcase
    simpa [toLowerCase] using this
  have hpne : p ≠ [] := by
    intro h
    rw [h] at hp
    cases hp
  unfold getLocation
  simp only [hw]
  by_cases hbe : b = []
  · have hb' : b' = [] := List.length_eq_zero.mp (by rw [hlen, hbe]; rfl)
    simp [hbe, hb', pathOrSlash, hpne]
  · have hlast : b.getLast? ≠ some '/' := by
      rcases hb with h | h
      · exact absurd h hbe
      · exact h.2
    have hclean : cleanPath (toLowerCase b ++ ['/']) = toLowerCase b ++ ['/'] :=
      cleanPath_of_noDoubleSlash _
        (noDoubleSlash_append_slash _ (noDoubleSlash_toLowerCase b hd)
          (getLast?_toLowerCase b hlast))
    have hprefix : cleanPath (toLowerCase b ++ ['/']) <+: toLowerCase (b' ++ p) := by
      rw [hclean]
      obtain ⟨c, rest, rfl⟩ := List.exists_cons_of_ne_nil hpne
      simp only [List.head?_cons, Option.some.injEq] at hp
      refine ⟨toLowerCase rest, ?_⟩
      simp only [toLowerCase, List.map_append, List.map_cons, List.append_assoc,
        List.singleton_append]
      rw [show List.map Char.toLower b' = List.map Char.toLower b from hcase, hp]
      rfl
    rw [if_pos ⟨hbe, Or.inr hprefix⟩, ← hlen, List.drop_left]
    simp [pathOrSlash, hpne]

/-- The path part of the result of `getLocation` is never empty, and a pathname equal to the
base reads back as `/`. -/
theorem getLocation_path_nonempty (w : WindowLocation) (b : Str) :
    (∃ path, path ≠ [] ∧ getLocation w b = path ++ w.search ++ w.hash)
      ∧ (w.pathname = b → getLocation w b = ['/'] ++ w.search ++ w.hash) := by
  constructor
  · unfold getLocation
    exact ⟨_, pathOrSlash_ne_nil _, rfl⟩
  · intro h
    unfold getLocation
    simp only [h]
    by_cases hbe : b = []
    · simp [hbe, pathOrSlash]
    · simp [hbe, pathOrSlash]

/-- C20 at a base with a doubled slash. The base `/a//b` is a value of `normalizeBase`
(it begins with `/` and does not end with `/`). The URL written for the route `/x` is
`/a/b/x`, and `getLocation` reads it back as `x`: the test is made with the cleaned base
`/a/b/`, the slice with the length of the base as given. And the pathname `/a//b/x` is read
back whole: the cleaned base is not a prefix of it. For a base without a doubled slash the
round trip holds, in any letter case of the base in the pathname; and for every base the
path part of the result is not empty, a pathname equal to the base being read back as `/`. -/
theorem getLocation_doubled_slash_base :
    (normalizeBase (some "/a//b".toList) true none = "/a//b".toList
        ∧ writtenURL "/a//b".toList "/x".toList = "/a/b/x".toList
        ∧ getLocation ⟨"/a/b/x".toList, [], []⟩ "/a//b".toList = "x".toList
        ∧ getLocation ⟨"/a//b/x".toList, [], []⟩ "/a//b".toList = "/a//b/x".toList)
      ∧ (∀ (w : WindowLocation) (b b' p : Str),
          (b = [] ∨ (b.head? = some '/' ∧ b.getLast? ≠ some '/')) → noDoubleSlash b = true →
          p.head? = some '/' → toLowerCase b' = toLowerCase b → w.pathname = b' ++ p →
          getLocation w b = p ++ w.search ++ w.hash)
      ∧ (∀ (w : WindowLocation) (b : Str),
          (∃ path, path ≠ [] ∧ getLocation w b = path ++ w.search ++ w.hash)
            ∧ (w.pathname = b → getLocation w b = ['/'] ++ w.search ++ w.hash)) :=
  ⟨by decide, getLocation_round_trip, getLocation_path_nonempty⟩

/-! ## Locations -/

theorem Dict.get_cons_entry (e : Str × Str) (d : Dict) (key : Str) :
    Dict.get (e :: d) key = if e.1 = key then some e.2 else Dict.get d key := by
  unfold Dict.get
  rw [List.find?_cons]
  by_cases he : e.1 = key
  · have : decide (e.1 = key) = true := by simpa using he
    rw [this, if_pos he]
    rfl
  · have : decide (e.1 = key) = false := by simpa using he
    rw [this, if_neg he]

theorem Dict.get_eq_none_iff (d : Dict) (key : Str) :
    Dict.get d key = none ↔ key ∉ Dict.keys d := by
  induction d with
  | nil => simp [Dict.get, Dict.keys]
  | cons e d ih =>
    rw [Dict.get_cons_entry]
    have hk : Dict.keys (e :: d) = e.1 :: Dict.keys d := rfl
    rw [hk, List.mem_cons, not_or]
    by_cases he : e.1 = key
    · rw [if_pos he]
      constructor
      · intro h
        cases h
      · intro h
        exact absurd he.symm h.1
    · rw [if_neg he]
      constructor
      · intro h
        exact ⟨fun hh => he hh.symm, ih.mp h⟩
      · intro h
        exact ih.mpr h.2

theorem Dict.get_append_singleton (d : Dict) (k key v : Str) :
    Dict.get (d ++ [(k, v)]) key = (Dict.get d key).or (if k = key then some v else none) := by
  induction d with
  | nil =>
    rw [List.nil_append, Dict.get_cons_entry]
    simp [Dict.get]
  | cons e d ih =>
    rw [List.cons_append, Dict.get_cons_entry, Dict.get_cons_entry, ih]
    by_cases he : e.1 = key
    · simp [he]
    · simp [he]

theorem Dict.set_of_missing (d : Dict) (k v : Str) (h : Dict.get d k = none) :
    Dict.set d k v = d ++ [(k, v)] := by
  simp [Dict.set, h]

theorem Dict.keys_set_of_present (d : Dict) (k v : Str) (h : (Dict.get d k).isSome = true) :
    Dict.keys (Dict.set d k v) = Dict.keys d := by
  simp only [Dict.set, h, if_true, Dict.keys, List.map_map]
  apply List.map_congr_left
  intro e _
  by_cases he : e.1 = k
  · simp [he]
  · simp [he]

theorem Dict.get_set (d : Dict) (k v key : Str) :
    Dict.get (Dict.set d k v) key = if k = key then some v else Dict.get d key := by
  cases hg : Dict.get d k with
  | none =>
    rw [Dict.set_of_missing d k v hg, Dict.get_append_singleton]
    by_cases hk : k = key
    · rw [if_pos hk, if_pos hk, ← hk, hg]
      rfl
    · rw [if_neg hk, if_neg hk]
      cases Dict.get d key <;> rfl
  | some x =>
    have hs : (Dict.get d k).isSome = true := by rw [hg]; rfl
    simp only [Dict.set, hs, if_true]
    clear hs
    induction d generalizing x with
    | nil => simp [Dict.get] at hg
    | cons e d ih =>
      rw [List.map_cons, Dict.get_cons_entry, Dict.get_cons_entry]
      rw [Dict.get_cons_entry] at hg
      by_cases he : e.1 = k
      · rw [if_pos he]
        by_cases hk : k = key
        · simp [hk]
        · have hek : ¬ e.1 = key := fun h => hk (he.symm.trans h)
          rw [if_neg hk, if_neg hk, if_neg hek]
          by_cases hin : Dict.get d k = none
          · have hmap : d.map (fun e => if e.1 = k then (k, v) else e) = d := by
              have hnot := (Dict.get_eq_none_iff d k).mp hin
              conv_rhs => rw [← List.map_id d]
              apply List.map_congr_left
              intro e' he'
              have : ¬ e'.1 = k := fun h => hnot (by
                rw [← h]
                exact List.mem_map_of_mem Prod.fst he')
              simp [this]
            rw [hmap]
          · obtain ⟨y, hy⟩ := Option.ne_none_iff_exists'.mp hin
            have := ih y hy
            rw [if_neg hk] at this
            exact this
      · rw [if_neg he] at hg
        rw [if_neg he]
        have := ih x hg
        by_cases hek : e.1 = key
        · rw [if_pos hek, if_pos hek]
          have hk : ¬ k = key := fun h => he (hek.trans h.symm)
          rw [if_neg hk]
        · rw [if_neg hek, if_neg hek]
          exact this

theorem Dict.keys_set_nodup (d : Dict) (k v : Str) (h : (Dict.keys d).Nodup) :
    (Dict.keys (Dict.set d k v)).Nodup := by
  cases hg : Dict.get d k with
  | none =>
    rw [Dict.set_of_missing d k v hg]
    simp only [Dict.keys, List.map_append, List.map_cons, List.map_nil]
    exact List.nodup_append.mpr
      ⟨h, List.nodup_singleton _, by
        intro a ha hb
        rw [List.mem_singleton.mp hb] at ha
        exact (Dict.get_eq_none_iff d k).mp hg ha⟩
  | some x =>
    rw [Dict.keys_set_of_present d k v (by rw [hg]; rfl)]
    exact h

theorem extend_keys_nodup (a b : Dict) (h : (Dict.keys a).Nodup) :
    (Dict.keys (extend a b)).Nodup := by
  unfold extend
  induction b generalizing a with
  | nil => exact h
  | cons e b ih => exact ih _ (Dict.keys_set_nodup a e.1 e.2 h)

/-- The properties of `extend(a, b)`, for an object `b` (its keys are distinct): those of
`b`, and those of `a` under the other keys. -/
theorem get_extend (a b : Dict) (hb : (Dict.keys b).Nodup) (key : Str) :
    Dict.get (extend a b) key = (Dict.get b key).or (Dict.get a key) := by
  unfold extend
  induction b generalizing a with
  | nil => simp [Dict.get]
  | cons e b ih =>
    have hk : Dict.keys (e :: b) = e.1 :: Dict.keys b := rfl
    rw [hk, List.nodup_cons] at hb
    rw [List.foldl_cons, ih _ hb.2, Dict.get_set, Dict.get_cons_entry]
    by_cases he : e.1 = key
    · rw [if_pos he, if_pos he]
      have : Dict.get b key = none := (Dict.get_eq_none_iff b key).mpr (he ▸ hb.1)
      rw [this]
      rfl
    · rw [if_neg he, if_neg he]

theorem extend_append (a b : Dict) (h : (Dict.keys (a ++ b)).Nodup) : extend a b = a ++ b := by
  unfold extend
  induction b generalizing a with
  | nil => simp
  | cons e b ih =>
    have hne : Dict.get a e.1 = none := by
      apply (Dict.get_eq_none_iff a e.1).mpr
      intro hmem
      simp only [Dict.keys, List.map_append, List.map_cons] at h
      have := (List.nodup_append.mp h).2.2
      exact this hmem (List.mem_cons_self _ _)
    rw [List.foldl_cons, Dict.set_of_missing a e.1 e.2 hne, ih]
    · simp
    · simpa using h

theorem extend_nil_of_nodup (b : Dict) (h : (Dict.keys b).Nodup) : extend [] b = b := by
  have := extend_append [] b (by simpa using h)
  simpa using this

theorem extend_nil_idem (d : Dict) : extend [] (extend [] d) = extend [] d :=
  extend_nil_of_nodup _ (extend_keys_nodup [] d List.nodup_nil)

theorem set_length_append {α : Type} (l : List α) (x y : α) :
    (l ++ [x]).set l.length y = l ++ [y] := by
  induction l with
  | nil => rfl
  | cons a l ih => simp [List.set, ih]

theorem getD_length_append {α : Type} (l : List α) (x d : α) :
    (l ++ [x]).getD l.length d = x := by
  induction l with
  | nil => rfl
  | cons a l ih => simp [ih]

theorem Store.location_last (locations : List Location) (l : Location) (dicts : List Dict) :
    Store.location ⟨locations ++ [l], dicts⟩ locations.length = l :=
  getD_length_append locations l _

theorem Store.dict_last (locations : List Location) (dicts : List Dict) (d : Dict) :
    Store.dict ⟨locations, dicts ++ [d]⟩ dicts.length = d :=
  getD_length_append dicts d _

/-- The branch `if (next.name)` in one step: a copy of the object is added, with a copy of
its params when it has some; no object of the store is changed. -/
theorem copyNamed_eq (s : Store) (loc : Location) :
    copyNamed s loc
      = (s.locations.length,
          ⟨s.locations ++ [{ loc with params := loc.params.map (fun _ => s.dicts.length) }],
            s.dicts ++ (loc.params.map (fun pa => extend [] (s.dict pa))).toList⟩) := by
  unfold copyNamed
  cases hp : loc.params with
  | none =>
    simp only [Store.pushLocation, Option.map_none', Option.toList_none, List.append_nil]
    have : ({ loc with params := none } : Location) = loc := by rw [← hp]
    rw [this]
  | some pa =>
    simp only [Store.pushLocation, Store.pushDict, Store.setLocation, Store.location,
      Store.dict, Option.map_some', Option.toList_some, getD_length_append,
      set_length_append]

/-- The branch `if (!next.path && next.params && current)` in one step: a copy of the object,
marked normalized, is added, and a new params object with the merged params; no object of the
store is changed. -/
theorem relativeParams_eq (ops : LocationHelpers) (s : Store) (loc : Location) (pa : Nat)
    (cur : CurrentRoute) :
    relativeParams ops s loc pa cur
      = (s.locations.length,
          ⟨s.locations ++
              [if truthy cur.name then
                { loc with _normalized := true, name := cur.name,
                           params := some s.dicts.length }
              else
                match cur.matched.getLast? with
                | some record =>
                  { loc with
                    _normalized := true
                    path := some (ops.fillParams record.path
                      (extend (extend [] (s.dict cur.params)) (s.dict pa)) cur.path) }
                | none => { loc with _normalized := true }],
            s.dicts ++ [extend (extend [] (s.dict cur.params)) (s.dict pa)]⟩) := by
  unfold relativeParams
  simp only [Store.pushLocation, Store.pushDict, Store.setLocation, Store.location,
    Store.dict, getD_length_append, set_length_append]
  split
  · rfl
  · cases cur.matched.getLast? with
    | none => rfl
    | some record => rfl

theorem relativeParams_normalized (ops : LocationHelpers) (s : Store) (loc : Location)
    (pa : Nat) (cur : CurrentRoute) :
    ((relativeParams ops s loc pa cur).2.location
      (relativeParams ops s loc pa cur).1)._normalized = true := by
  rw [relativeParams_eq]
  simp only [Store.location_last]
  split
  · rfl
  · cases cur.matched.getLast? with
    | none => rfl
    | some record => rfl

theorem pathBased_normalized (ops : LocationHelpers) (s : Store) (loc : Location)
    (current : Option CurrentRoute) (append : Bool) :
    ((pathBased ops s loc current append).2.location
      (pathBased ops s loc current append).1)._normalized = true := by
  unfold pathBased
  simp only [Store.pushLocation, Store.location_last]

/-- A location marked normalized is returned as it is, and nothing is written. -/
theorem normalizeObject_normalized (ops : LocationHelpers) (s : Store) (next : Nat)
    (current : Option CurrentRoute) (append : Bool)
    (h : (s.location next)._normalized = true) :
    normalizeObject ops s next current append = (next, s) := by
  unfold normalizeObject
  simp only [h, if_true]

/-- The result of `normalizeLocation` on an object is marked normalized, unless the object is
a named target, of which it is a copy. -/
theorem normalizeObject_cases (ops : LocationHelpers) (s : Store) (next : Nat)
    (current : Option CurrentRoute) (append : Bool) :
    ((normalizeObject ops s next current append).2.location
        (normalizeObject ops s next current append).1)._normalized = true
      ∨ ((s.location next)._normalized = false ∧ truthy (s.location next).name = true
          ∧ normalizeObject ops s next current append = copyNamed s (s.location next)) := by
  unfold normalizeObject
  by_cases hn : (s.location next)._normalized = true
  · left
    simp only [hn, if_true]
  · have hn' : (s.location next)._normalized = false := by simpa using hn
    by_cases hname : truthy (s.location next).name = true
    · right
      refine ⟨hn', hname, ?_⟩
      simp only [hn', hname, Bool.false_eq_true, if_false, if_true]
    · left
      have hname' : truthy (s.location next).name = false := by simpa using hname
      simp only [hn', hname', Bool.false_eq_true, if_false]
      split
      · exact relativeParams_normalized _ _ _ _ _
      · exact pathBased_normalized _ _ _ _ _

/-- A second pass over the copy of a named target gives a copy with the same fields and the
same params. -/
theorem copyNamed_again (ops : LocationHelpers) (s : Store) (loc : Location)
    (current : Option CurrentRoute) (append : Bool)
    (hn : loc._normalized = false) (hname : truthy loc.name = true) :
    (normalizeObject ops (copyNamed s loc).2 (copyNamed s loc).1 current append).2.view
        (normalizeObject ops (copyNamed s loc).2 (copyNamed s loc).1 current append).1
      = (copyNamed s loc).2.view (copyNamed s loc).1 := by
  rw [copyNamed_eq]
  unfold normalizeObject
  simp only [Store.location_last, hn, hname, Bool.false_eq_true, if_false, if_true]
  rw [copyNamed_eq]
  simp only [Store.view, Store.location_last]
  cases hp : loc.params with
  | none => rfl
  | some pa =>
    simp only [Option.map_some', Option.toList_some, Store.dict_last, List.length_append,
      List.length_singleton]
    have h1 : (s.dicts ++ [extend [] (s.dict pa)] ++ [extend [] (extend [] (s.dict pa))]).getD
        (s.dicts.length + 1) [] = extend [] (extend [] (s.dict pa)) := by
      have := getD_length_append (s.dicts ++ [extend [] (s.dict pa)])
        (extend [] (extend [] (s.dict pa))) []
      simpa using this
    simp only [Store.dict] at h1 ⊢
    rw [h1, extend_nil_idem]

/-- C13. `normalizeLocation` is idempotent. For every raw target, all current routes and
append flags, the location that a second pass returns shows the same fields as the location
that the first pass returned, the content of its params included. A location that carries the
`_normalized` marker is returned as it is (the same object, and nothing is written), whatever
the current route is; the first pass returns such a location, unless the target is a named
location, of which each pass returns a copy. -/
theorem normalizeLocation_idempotent (ops : LocationHelpers) (s : Store) (raw : RawTarget)
    (c₁ c₂ : Option CurrentRoute) (a₁ a₂ : Bool) :
    (normalizeLocation ops (normalizeLocation ops s raw c₁ a₁).2
          (RawTarget.obj (normalizeLocation ops s raw c₁ a₁).1) c₂ a₂).2.view
        (normalizeLocation ops (normalizeLocation ops s raw c₁ a₁).2
          (RawTarget.obj (normalizeLocation ops s raw c₁ a₁).1) c₂ a₂).1
      = (normalizeLocation ops s raw c₁ a₁).2.view (normalizeLocation ops s raw c₁ a₁).1
      ∧ (∀ next, (s.location next)._normalized = true →
          normalizeLocation ops s (RawTarget.obj next) c₂ a₂ = (next, s)) := by
  have key : ∀ (s' : Store) (next : Nat),
      (normalizeObject ops (normalizeObject ops s' next c₁ a₁).2
            (normalizeObject ops s' next c₁ a₁).1 c₂ a₂).2.view
          (normalizeObject ops (normalizeObject ops s' next c₁ a₁).2
            (normalizeObject ops s' next c₁ a₁).1 c₂ a₂).1
        = (normalizeObject ops s' next c₁ a₁).2.view (normalizeObject ops s' next c₁ a₁).1 := by
    intro s' next
    rcases normalizeObject_cases ops s' next c₁ a₁ with h | ⟨hn, hname, heq⟩
    · rw [normalizeObject_normalized ops _ _ c₂ a₂ h]
    · rw [heq]
      exact copyNamed_again ops s' _ c₂ a₂ hn hname
  constructor
  · cases raw with
    | str path => exact key _ _
    | obj next => exact key _ _
  · intro next h
    exact normalizeObject_normalized ops s next c₂ a₂ h

/-- C14. For a location object that is not marked normalized and has neither a name nor a
path, but has params `p`, and a current route with the name `n`, not empty, and the params
`q`, `normalizeLocation` returns a new location object, marked normalized, with the name `n`
and a new params object, whose properties are those of `p` and, under the other keys, those
of `q` (and no others); the other fields are those of the input. Every object that was in the
store, the input object, `p` and `q` among them, is as it was. -/
theorem normalizeLocation_relative_params (ops : LocationHelpers) (s : Store) (next pa : Nat)
    (cur : CurrentRoute) (n : Str) (append : Bool)
    (hnorm : (s.location next)._normalized = false)
    (hname : truthy (s.location next).name = false)
    (hpath : truthy (s.location next).path = false)
    (hparams : (s.location next).params = some pa)
    (hp : (Dict.keys (s.dict pa)).Nodup) (hq : (Dict.keys (s.dict cur.params)).Nodup)
    (hn : cur.name = some n) (hne : n ≠ []) :
    normalizeLocation ops s (RawTarget.obj next) (some cur) append
        = (s.locations.length,
            ⟨s.locations ++
                [{ s.location next with
                   _normalized := true, name := some n, params := some s.dicts.length }],
              s.dicts ++ [extend (extend [] (s.dict cur.params)) (s.dict pa)]⟩)
      ∧ ∀ key, Dict.get (extend (extend [] (s.dict cur.params)) (s.dict pa)) key
          = (Dict.get (s.dict pa) key).or (Dict.get (s.dict cur.params) key) := by
  constructor
  · have ht : truthy (some n) = true := by
      cases n with
      | nil => exact absurd rfl hne
      | cons c rest => rfl
    simp only [normalizeLocation, normalizeObject, hnorm, hname, hpath, hparams,
      Bool.false_eq_true, if_false, relativeParams_eq, ht, if_true, hn]
  · intro key
    rw [get_extend _ _ hp, get_extend _ _ hq]
    cases Dict.get (s.dict pa) key <;> cases Dict.get (s.dict cur.params) key <;> rfl

/-- C14 at the link `{ params: { zapId: 2 } }` of the example app, on the route `zap` with the
params `{ zapId: 1, x: y }`: the result has the name `zap` and the params
`{ zapId: 2, x: y }`. -/
theorem normalizeLocation_relative_params_witness :
    (demoStore.location 0).params = some 0
      ∧ demoCurrent.name = some "zap".toList
      ∧ normalizeLocation demoHelpers demoStore (RawTarget.obj 0) (some demoCurrent) false
        = (1,
            ⟨[{ params := some 0 },
                { _normalized := true, name := some "zap".toList, params := some 2 }],
              [[("zapId".toList, "2".toList)],
                [("zapId".toList, "1".toList), ("x".toList, "y".toList)],
                [("zapId".toList, "2".toList), ("x".toList, "y".toList)]]⟩) :=
  ⟨rfl, rfl,
    (normalizeLocation_relative_params demoHelpers demoStore 0 0 demoCurrent "zap".toList false
      (by decide) (by decide) (by decide) (by decide) (by decide) (by decide) rfl
      (by decide)).1⟩

end VueRouter
